import Mathlib

set_option maxHeartbeats 1000000
set_option maxRecDepth 10000

/-!
Verification development for the SQP (Squishy Picture) image codec.

The Rust sources are shallowly embedded: bytes are `Nat`s kept below 256,
`u64` values are `Nat`s (claims carry the corresponding range hypotheses
where the Rust type system imposes them), wrapping arithmetic is explicit
`% 256`, and fallible operations (stream reads that can hit end-of-input,
Rust panics) return `Except`.  Rust `HashMap` is modelled as an association
list with insert-by-prepend and first-match lookup, which has the same
observable behaviour (later inserts shadow earlier ones).
-/

namespace SQP

/-! ## Bit and byte helpers -/

/-- The low `n` bits of `v`, least-significant first. -/
def bitsOf (v n : Nat) : List Bool := (List.range n).map (fun i => v.testBit i)

/-- The eight bits of one byte, least-significant first. -/
def byteBits (b : Nat) : List Bool := bitsOf b 8

/-- A byte stream as a bit stream, each byte least-significant bit first.
This is the packing convention of `binio.rs`. -/
def bytesBits (bs : List Nat) : List Bool := bs.flatMap byteBits

/-- Reassemble a little-endian bit list into a `Nat`. -/
def natOfBits (bits : List Bool) : Nat :=
  bits.foldr (fun b acc => (if b then 1 else 0) + 2 * acc) 0

/-- Little-endian byte decomposition of `data`, `byteLen` bytes
(`u64::to_le_bytes` truncated to `byteLen`). -/
def leBytes (data byteLen : Nat) : List Nat :=
  (List.range byteLen).map (fun i => data / 2 ^ (8 * i) % 256)

/-- Little-endian byte recomposition (`u64::from_le_bytes`). -/
def leVal (bytes : List Nat) : Nat :=
  bytes.foldr (fun b acc => b + 256 * acc) 0

@[simp] theorem bitsOf_zero_len (v : Nat) : bitsOf v 0 = [] := rfl

theorem bitsOf_succ (v n : Nat) :
    bitsOf v (n + 1) = bitsOf v n ++ [v.testBit n] := by
  simp [bitsOf, List.range_succ]

theorem bitsOf_length (v n : Nat) : (bitsOf v n).length = n := by
  simp [bitsOf]

theorem natOfBits_append (xs ys : List Bool) :
    natOfBits (xs ++ ys) = natOfBits xs + 2 ^ xs.length * natOfBits ys := by
  induction xs with
  | nil => simp [natOfBits]
  | cons x xs ih =>
      have h1 : natOfBits (x :: (xs ++ ys))
          = (if x then 1 else 0) + 2 * natOfBits (xs ++ ys) := rfl
      have h2 : natOfBits (x :: xs) = (if x then 1 else 0) + 2 * natOfBits xs := rfl
      rw [List.cons_append, h1, h2, ih, List.length_cons, pow_succ]
      ring

theorem natOfBits_singleton_testBit (v n : Nat) :
    natOfBits [v.testBit n] = v / 2 ^ n % 2 := by
  simp only [natOfBits, List.foldr_cons, List.foldr_nil, Nat.testBit_to_div_mod]
  rcases Nat.mod_two_eq_zero_or_one (v / 2 ^ n) with h | h <;> simp [h]

theorem natOfBits_bitsOf (v n : Nat) : natOfBits (bitsOf v n) = v % 2 ^ n := by
  induction n with
  | zero => simp [natOfBits, bitsOf, Nat.mod_one]
  | succ n ih =>
      rw [bitsOf_succ, natOfBits_append, ih, bitsOf_length,
          natOfBits_singleton_testBit, pow_succ, Nat.mod_mul]

theorem bytesBits_append (xs ys : List Nat) :
    bytesBits (xs ++ ys) = bytesBits xs ++ bytesBits ys := by
  simp [bytesBits]

theorem bytesBits_length (xs : List Nat) : (bytesBits xs).length = 8 * xs.length := by
  induction xs with
  | nil => simp [bytesBits]
  | cons x xs ih =>
      simp only [bytesBits, List.flatMap_cons, List.length_append] at *
      simp [byteBits, bitsOf_length, ih]
      ring

/-! ## Bit I/O (src/sqp/src/binio.rs)

`BitWriter` buffers sub-byte writes into `current_byte` and emits whole
bytes; `BitReader` eagerly loads one byte at construction and tracks a
cursor into the input.  The `write_bit`/`read_bit` guards panicking on
`bit_len = 0` or `bit_len > 64` are outside every modelled call site
(the claims hypothesise `1 ≤ n ≤ 64`; the LZW codec uses 1, 15 and 18),
so the writer is total; reader failures (end of input, and the
`try_into` panic in `read`) are `Except.error`. -/

structure BitWriterS where
  output : List Nat
  currentByte : Nat
  byteOffset : Nat
  bitOffset : Nat
  byteSize : Nat
deriving Repr, DecidableEq

def BitWriterS.new : BitWriterS := ⟨[], 0, 0, 0, 0⟩

/-- BitWriter::write — emit `byteLen` little-endian bytes of `data`. -/
def BitWriterS.write (s : BitWriterS) (data byteLen : Nat) : BitWriterS :=
  { s with output := s.output ++ leBytes data byteLen,
           byteOffset := s.byteOffset + byteLen,
           byteSize := s.byteOffset + byteLen + (s.bitOffset + 7) / 8 }

/-- One iteration of the `for i in 0..bit_len` loop of BitWriter::write_bit:
mask the target bit of `current_byte`, or the bit value in, and emit the
byte when `bit_offset` reaches 8. -/
def BitWriterS.writeOneBit (s : BitWriterS) (bitValue : Nat) : BitWriterS :=
  if s.bitOffset + 1 ≥ 8 then
    { output := s.output ++
        [Nat.lor (Nat.land s.currentByte (255 - 2 ^ s.bitOffset))
                 (bitValue * 2 ^ s.bitOffset % 256)],
      currentByte := 0,
      byteOffset := s.byteOffset + 1, bitOffset := 0, byteSize := s.byteSize }
  else
    { s with currentByte := Nat.lor (Nat.land s.currentByte (255 - 2 ^ s.bitOffset))
                                    (bitValue * 2 ^ s.bitOffset % 256),
             bitOffset := s.bitOffset + 1 }

/-- BitWriter::write_bit — fast byte path when aligned and `bit_len` is a
multiple of 8, else bit-by-bit (LSB first), then refresh `byte_size`. -/
def BitWriterS.writeBit (s : BitWriterS) (data bitLen : Nat) : BitWriterS :=
  if bitLen % 8 == 0 && s.bitOffset == 0 then
    s.write data (bitLen / 8)
  else
    let s1 := (List.range bitLen).foldl
      (fun st i => st.writeOneBit (data / 2 ^ i % 2)) s
    { s1 with byteSize := s1.byteOffset + (s1.bitOffset + 7) / 8 }

/-- BitWriter::flush — emit the (possibly empty) partial byte. -/
def BitWriterS.flush (s : BitWriterS) : BitWriterS :=
  { s with byteOffset := s.byteOffset + 1,
           output := s.output ++ [s.currentByte], currentByte := 0 }

structure BitReaderS where
  input : List Nat
  cursor : Nat
  currentByte : Nat
  byteOffset : Nat
  bitOffset : Nat
deriving Repr, DecidableEq

/-- BitReader::new eagerly reads the first byte (panics on empty input). -/
def BitReaderS.new (input : List Nat) : Except String BitReaderS :=
  match input with
  | [] => .error "read_exact failed"
  | b :: _ => .ok ⟨input, 1, b, 0, 0⟩

/-- One iteration of the `for i in 0..bit_len` loop of BitReader::read_bit:
extract the current bit, and when `bit_offset` wraps, eagerly load the next
byte (end of input is a panic in the source). -/
def BitReaderS.readOneBit (s : BitReaderS) : Except String (Nat × BitReaderS) :=
  let bitValue := s.currentByte / 2 ^ s.bitOffset % 2
  if s.bitOffset + 1 == 8 then
    match s.input.get? s.cursor with
    | none => .error "read_exact failed"
    | some b => .ok (bitValue,
        { s with byteOffset := s.byteOffset + 1, bitOffset := 0,
                 currentByte := b, cursor := s.cursor + 1 })
  else .ok (bitValue, { s with bitOffset := s.bitOffset + 1 })

/-- The bit-accumulating loop of BitReader::read_bit
(`result |= bit_value << i`). -/
def BitReaderS.readBitLoop (s : BitReaderS) (bitLen : Nat) :
    Except String (Nat × BitReaderS) :=
  (List.range bitLen).foldlM
    (fun acc i =>
      (acc.2.readOneBit).map (fun r => (Nat.lor acc.1 (r.1 * 2 ^ i), r.2)))
    (0, s)

/-- BitReader::read — reads `byteLen` raw bytes at the cursor, skipping the
eagerly-buffered `current_byte`.  The source builds `padded_slice` of length
`byte_len`, extends it by `padded_slice.len() - byte_len = 0` bytes, and
feeds it to `u64::from_le_bytes` via `try_into().unwrap()`, which panics
unless exactly 8 bytes are present. -/
def BitReaderS.read (s : BitReaderS) (byteLen : Nat) : Except String (Nat × BitReaderS) :=
  if byteLen > 8 then .error "cannot read more than 8 bytes at once"
  else if byteLen == 0 then .error "must read 1 or more bytes"
  else
    let bytes := (s.input.drop s.cursor).take byteLen
    if bytes.length < byteLen then .error "read_exact failed"
    else if byteLen == 8 then
      .ok (leVal bytes, { s with cursor := s.cursor + byteLen,
                                 byteOffset := s.byteOffset + byteLen })
    else .error "try_into unwrap failed"

/-- BitReader::read_bit — fast byte path when aligned and `bit_len` is a
multiple of 8, else bit-by-bit. -/
def BitReaderS.readBit (s : BitReaderS) (bitLen : Nat) : Except String (Nat × BitReaderS) :=
  if bitLen > 64 then .error "cannot read more than 64 bits at once"
  else if bitLen == 0 then .error "must read 1 or more bits"
  else if bitLen % 8 == 0 && s.bitOffset == 0 then
    s.read (bitLen / 8)
  else s.readBitLoop bitLen

/-! ### Writer refinement: the bit stream written so far -/

/-- Abstraction of a writer state: all bits written so far, in order
(emitted bytes LSB-first, then the pending bits of `current_byte`). -/
def BitWriterS.bits (s : BitWriterS) : List Bool :=
  bytesBits s.output ++ (List.range s.bitOffset).map (s.currentByte.testBit ·)

/-- Structural well-formedness of a writer state: the pending bit count is
sub-byte, `current_byte` holds only pending bits, and `byte_offset` counts
the emitted bytes. -/
def wfWCore (s : BitWriterS) : Prop :=
  s.bitOffset < 8 ∧ s.currentByte < 2 ^ s.bitOffset ∧ s.byteOffset = s.output.length

/-- Well-formedness including the `byte_size` bookkeeping field (refreshed by
`write_bit`/`write`, stale only across `flush`, after which the writer is
dropped in every modelled use). -/
def wfW (s : BitWriterS) : Prop :=
  wfWCore s ∧ s.byteSize = (s.bits.length + 7) / 8

theorem wfW_new : wfW BitWriterS.new := by
  refine ⟨⟨by simp [BitWriterS.new], by simp [BitWriterS.new], rfl⟩, ?_⟩
  simp [BitWriterS.bits, BitWriterS.new, bytesBits]

theorem bits_length (s : BitWriterS) :
    s.bits.length = 8 * s.output.length + s.bitOffset := by
  simp [BitWriterS.bits, bytesBits_length]

/-- Finite check backing the bit-set step of `write_bit`: with only the low
`off` bits populated, masking then or-ing plants the new bit at `off`. -/
theorem lorLandStep : ∀ off < 8, ∀ c < 2 ^ off, ∀ b < 2,
    Nat.lor (Nat.land c (255 - 2 ^ off)) (b * 2 ^ off % 256) = c + b * 2 ^ off := by
  decide

/-- Finite check: extending the pending-bit window by the newly planted bit. -/
theorem testBitWindowStep : ∀ off < 8, ∀ c < 2 ^ off, ∀ b < 2,
    (List.range (off + 1)).map ((c + b * 2 ^ off).testBit ·)
      = (List.range off).map (c.testBit ·) ++ [decide (b = 1)] := by
  decide

/-- Finite check: a partial byte is its pending-bit window zero-padded. -/
theorem byteBitsSplit : ∀ off < 8, ∀ c < 2 ^ off,
    byteBits c = (List.range off).map (c.testBit ·) ++ List.replicate (8 - off) false := by
  decide

theorem writeOneBit_spec (s : BitWriterS) (h : wfWCore s) (b : Nat) (hb : b < 2) :
    wfWCore (s.writeOneBit b) ∧ (s.writeOneBit b).bits = s.bits ++ [decide (b = 1)] := by
  obtain ⟨hoff, hcur, hlen⟩ := h
  unfold BitWriterS.writeOneBit
  rw [lorLandStep s.bitOffset hoff s.currentByte hcur b hb]
  by_cases h8 : s.bitOffset + 1 ≥ 8
  · rw [if_pos h8]
    have hoff7 : s.bitOffset = 7 := by omega
    rw [hoff7] at hcur ⊢
    constructor
    · exact ⟨by norm_num, by norm_num, by simp [hlen]⟩
    · simp only [BitWriterS.bits, List.range_zero, List.map_nil, List.append_nil,
        bytesBits_append, List.append_assoc]
      congr 1
      have h1 : bytesBits [s.currentByte + b * 2 ^ 7]
          = (List.range 8).map ((s.currentByte + b * 2 ^ 7).testBit ·) := by
        simp [bytesBits, byteBits, bitsOf]
      rw [h1, testBitWindowStep 7 (by norm_num) s.currentByte hcur b hb, hoff7]
  · rw [if_neg h8]
    have hb2 : b * 2 ^ s.bitOffset ≤ 2 ^ s.bitOffset := by
      calc b * 2 ^ s.bitOffset ≤ 1 * 2 ^ s.bitOffset :=
            Nat.mul_le_mul_right _ (by omega)
        _ = 2 ^ s.bitOffset := one_mul _
    refine ⟨⟨by simpa using by omega, ?_, hlen⟩, ?_⟩
    · show s.currentByte + b * 2 ^ s.bitOffset < 2 ^ (s.bitOffset + 1)
      rw [pow_succ]
      omega
    · simp only [BitWriterS.bits]
      rw [List.append_assoc]
      congr 1
      exact testBitWindowStep s.bitOffset hoff s.currentByte hcur b hb

/-- The bit-by-bit loop of `write_bit` appends the low `n` bits of `data`. -/
theorem writeBitLoop_spec (data : Nat) (n : Nat) (s : BitWriterS) (h : wfWCore s) :
    wfWCore ((List.range n).foldl (fun st i => st.writeOneBit (data / 2 ^ i % 2)) s) ∧
    ((List.range n).foldl (fun st i => st.writeOneBit (data / 2 ^ i % 2)) s).bits
      = s.bits ++ bitsOf data n := by
  induction n generalizing s with
  | zero => simpa [bitsOf] using h
  | succ n ih =>
      rw [List.range_succ, List.foldl_append]
      obtain ⟨h1, hb1⟩ := ih s h
      set s1 := (List.range n).foldl (fun st i => st.writeOneBit (data / 2 ^ i % 2)) s with hs1
      obtain ⟨h2, hb2⟩ := writeOneBit_spec s1 h1 (data / 2 ^ n % 2) (Nat.mod_lt _ (by norm_num))
      refine ⟨by simpa using h2, ?_⟩
      simp only [List.foldl_cons, List.foldl_nil]
      rw [hb2, hb1, bitsOf_succ, List.append_assoc]
      congr 2
      simp [Nat.testBit_to_div_mod]

/-- Little-endian bytes of `data` carry exactly its low `8*n` bits. -/
theorem bytesBits_leBytes (data n : Nat) :
    bytesBits (leBytes data n) = bitsOf data (8 * n) := by
  induction n with
  | zero => simp [leBytes, bytesBits, bitsOf]
  | succ n ih =>
      have hsplit : leBytes data (n + 1) = leBytes data n ++ [data / 2 ^ (8 * n) % 256] := by
        simp [leBytes, List.range_succ]
      rw [hsplit, bytesBits_append, ih]
      have h8 : 8 * (n + 1) = 8 * n + 8 := by ring
      rw [h8]
      have hbyte : bytesBits [data / 2 ^ (8 * n) % 256] = bitsOf (data / 2 ^ (8 * n)) 8 := by
        simp only [bytesBits, List.flatMap_cons, List.flatMap_nil, List.append_nil,
          byteBits, bitsOf]
        apply List.map_congr_left
        intro i hi
        have hi8 : i < 8 := List.mem_range.mp hi
        have h256 : (256 : Nat) = 2 ^ 8 := rfl
        rw [h256, Nat.testBit_mod_two_pow]
        simp [hi8]
      rw [hbyte]
      have hcat : bitsOf data (8 * n + 8)
          = bitsOf data (8 * n) ++ bitsOf (data / 2 ^ (8 * n)) 8 := by
        simp only [bitsOf]
        rw [List.range_add, List.map_append]
        congr 1
        simp only [List.map_map]
        apply List.map_congr_left
        intro i _
        simp only [Function.comp_apply]
        rw [← Nat.shiftRight_eq_div_pow, Nat.testBit_shiftRight]
      rw [hcat]

/-- BitWriter::write, called byte-aligned, appends the low `8*n` bits. -/
theorem write_spec (s : BitWriterS) (h : wfW s) (h0 : s.bitOffset = 0) (data n : Nat) :
    wfW (s.write data n) ∧ (s.write data n).bits = s.bits ++ bitsOf data (8 * n) := by
  obtain ⟨⟨hoff, hcur, hlen⟩, hsz⟩ := h
  have hbits : (s.write data n).bits = s.bits ++ bitsOf data (8 * n) := by
    simp only [BitWriterS.write, BitWriterS.bits, bytesBits_append, bytesBits_leBytes, h0,
      List.range_zero, List.map_nil, List.append_nil, List.append_assoc]
  have hlen2 : (leBytes data n).length = n := by simp [leBytes]
  refine ⟨⟨⟨hoff, hcur, by simp [BitWriterS.write, hlen, hlen2]⟩, ?_⟩, hbits⟩
  show s.byteOffset + n + (s.bitOffset + 7) / 8 = ((s.write data n).bits.length + 7) / 8
  rw [hbits]
  simp only [List.length_append, bitsOf_length]
  rw [bits_length s, hlen, h0]
  omega

/-- BitWriter::write_bit appends the low `n` bits of `data` in every case
(on the aligned fast path the little-endian byte emission coincides with
LSB-first bit emission). -/
theorem writeBit_spec (s : BitWriterS) (h : wfW s) (data n : Nat) :
    wfW (s.writeBit data n) ∧ (s.writeBit data n).bits = s.bits ++ bitsOf data n := by
  obtain ⟨hcore, hsz⟩ := h
  unfold BitWriterS.writeBit
  cases hc : (n % 8 == 0 && s.bitOffset == 0) with
  | true =>
      have hprop := (Bool.and_eq_true _ _).mp hc
      have h1 : n % 8 = 0 := by
        have := hprop.1
        simpa using this
      have h0 : s.bitOffset = 0 := by
        have := hprop.2
        simpa using this
      simp only [if_true]
      have h8 : 8 * (n / 8) = n := by omega
      have := write_spec s ⟨hcore, hsz⟩ h0 data (n / 8)
      rw [h8] at this
      exact this
  | false =>
      simp only [Bool.false_eq_true, if_false]
      obtain ⟨h1, hb1⟩ := writeBitLoop_spec data n s hcore
      set s1 := (List.range n).foldl (fun st i => st.writeOneBit (data / 2 ^ i % 2)) s with hs1
      obtain ⟨hoff1, hcur1, hlen1⟩ := h1
      have hbeq : (BitWriterS.mk s1.output s1.currentByte s1.byteOffset s1.bitOffset
          (s1.byteOffset + (s1.bitOffset + 7) / 8)).bits = s1.bits := rfl
      constructor
      · refine ⟨⟨hoff1, hcur1, hlen1⟩, ?_⟩
        show s1.byteOffset + (s1.bitOffset + 7) / 8 = _
        rw [hbeq, bits_length s1, hlen1]
        omega
      · rw [hbeq, hb1]

/-- BitWriter::flush emits all bits written, zero-padding the last byte;
the output always gains one final (possibly zero) byte. -/
theorem flush_spec (s : BitWriterS) (h : wfWCore s) :
    bytesBits (s.flush).output
      = s.bits ++ List.replicate (8 - s.bitOffset) false ∧
    (s.flush).output.length = s.bits.length / 8 + 1 := by
  obtain ⟨hoff, hcur, hlen⟩ := h
  constructor
  · simp only [BitWriterS.flush, bytesBits_append, BitWriterS.bits, List.append_assoc]
    congr 1
    have h1 : bytesBits [s.currentByte] = byteBits s.currentByte := by
      simp [bytesBits]
    rw [h1, byteBitsSplit s.bitOffset hoff s.currentByte hcur]
  · simp only [BitWriterS.flush, List.length_append, List.length_singleton]
    rw [bits_length s]
    omega

/-! ### Reader refinement: position in the bit stream -/

/-- Reader invariant: the reader state corresponds to having consumed the
first `p` bits of the byte stream `input`. -/
def rdInv (s : BitReaderS) (input : List Nat) (p : Nat) : Prop :=
  s.input = input ∧ s.bitOffset = p % 8 ∧ s.byteOffset = p / 8 ∧
  s.cursor = p / 8 + 1 ∧ input.get? (p / 8) = some s.currentByte

theorem rdInv_new (input : List Nat) (h : input ≠ []) :
    ∃ s, BitReaderS.new input = .ok s ∧ rdInv s input 0 := by
  cases input with
  | nil => exact absurd rfl h
  | cons b bs =>
      exact ⟨_, rfl, rfl, rfl, rfl, rfl, rfl⟩

theorem bytesBits_getD (input : List Nat) (p : Nat) (h : p / 8 < input.length) :
    (bytesBits input).getD p false = (input.getD (p / 8) 0).testBit (p % 8) := by
  induction input generalizing p with
  | nil => simp at h
  | cons x xs ih =>
      simp only [List.length_cons] at h
      have hsplit : bytesBits (x :: xs) = byteBits x ++ bytesBits xs := by
        simp [bytesBits]
      by_cases hp : p < 8
      · have hp0 : p / 8 = 0 := by omega
        have hpm : p % 8 = p := by omega
        rw [hsplit, hp0, hpm]
        have hlt : p < (byteBits x).length := by
          simp only [byteBits, bitsOf_length]
          omega
        rw [List.getD_append _ _ _ _ hlt]
        simp only [List.getD_cons_zero]
        rw [List.getD_eq_getElem _ _ hlt]
        simp [byteBits, bitsOf]
      · have hge : 8 ≤ p := by omega
        have hlen8 : (byteBits x).length = 8 := by simp [byteBits, bitsOf_length]
        rw [hsplit, List.getD_append_right _ _ _ _ (by omega), hlen8]
        have hd : p / 8 = (p - 8) / 8 + 1 := by omega
        have hm : p % 8 = (p - 8) % 8 := by omega
        have hih := ih (p - 8) (by omega)
        rw [hih, hd, hm]
        simp

/-- One bit-loop iteration of `read_bit` reads bit `p` of the stream and
advances; crossing a byte boundary eagerly loads the next byte. -/
theorem readOneBit_spec (s : BitReaderS) (input : List Nat) (p : Nat)
    (h : rdInv s input p) (hnext : (p + 1) % 8 = 0 → (p + 1) / 8 < input.length) :
    ∃ s2, s.readOneBit
        = .ok ((if (bytesBits input).getD p false then 1 else 0), s2) ∧
      rdInv s2 input (p + 1) := by
  obtain ⟨hin, hoff, hboff, hcur, hbyte⟩ := h
  have hplen : p / 8 < input.length := by
    by_contra hc
    rw [List.get?_eq_none.mpr (by omega)] at hbyte
    exact Option.noConfusion hbyte
  have hbit : s.currentByte / 2 ^ s.bitOffset % 2
      = if (bytesBits input).getD p false then 1 else 0 := by
    rw [bytesBits_getD input p hplen, hoff]
    have hcb : input.getD (p / 8) 0 = s.currentByte := by
      rw [List.getD_eq_getElem?_getD, ← List.get?_eq_getElem?, hbyte]
      rfl
    rw [hcb, Nat.testBit_to_div_mod]
    rcases Nat.mod_two_eq_zero_or_one (s.currentByte / 2 ^ (p % 8)) with h2 | h2 <;>
      simp [h2]
  unfold BitReaderS.readOneBit
  by_cases h8 : s.bitOffset + 1 = 8
  · have hm7 : p % 8 = 7 := by omega
    have hnx : (p + 1) % 8 = 0 := by omega
    have hq : (p + 1) / 8 = p / 8 + 1 := by omega
    have hlt : p / 8 + 1 < input.length := by
      have h1 := hnext hnx
      omega
    have hbeq : (s.bitOffset + 1 == 8) = true := by simpa using h8
    rw [hbeq]
    rcases hsome : s.input.get? s.cursor with _ | b
    · exfalso
      rw [hin, hcur, List.get?_eq_none] at hsome
      omega
    · refine ⟨{ s with byteOffset := s.byteOffset + 1, bitOffset := 0,
                       currentByte := b, cursor := s.cursor + 1 }, ?_,
        hin, by simpa using hnx.symm, by simp [hboff, hq], by simp [hcur, hq], ?_⟩
      · simp only [if_true, hsome, hbit]
      · rw [hq, ← hcur, ← hin]
        exact hsome
  · have hbeq : (s.bitOffset + 1 == 8) = false := by
      simp only [beq_eq_false_iff_ne, ne_eq]
      exact h8
    rw [hbeq]
    have hm : (p + 1) % 8 = p % 8 + 1 := by omega
    have hq : (p + 1) / 8 = p / 8 := by omega
    refine ⟨{ s with bitOffset := s.bitOffset + 1 }, ?_,
      hin, by simp [hoff, hm], by simp [hboff, hq], by simp [hcur, hq],
      by rw [hq]; exact hbyte⟩
    simp only [Bool.false_eq_true, if_false, hbit]

theorem lor_mul_two_pow (a b n : Nat) (ha : a < 2 ^ n) :
    Nat.lor a (b * 2 ^ n) = a + b * 2 ^ n := by
  have h2 : 2 ^ n * b + a = Nat.lor (2 ^ n * b) a := Nat.mul_add_lt_is_or ha b
  have hcomm : Nat.lor (2 ^ n * b) a = Nat.lor a (2 ^ n * b) := Nat.lor_comm _ _
  have hm : b * 2 ^ n = 2 ^ n * b := Nat.mul_comm _ _
  rw [hm]
  omega

theorem natOfBits_single (b : Bool) : natOfBits [b] = if b then 1 else 0 := by
  cases b <;> rfl

/-- The bit-accumulating loop of `read_bit` returns the `n` bits of the
stream starting at position `p`, provided the final eager byte load stays
in bounds. -/
theorem readBitLoop_spec (n : Nat) (s : BitReaderS) (input : List Nat) (p : Nat)
    (h : rdInv s input p) (hrange : (p + n) / 8 < input.length) :
    ∃ s2, s.readBitLoop n
        = .ok (natOfBits (((bytesBits input).drop p).take n), s2) ∧
      rdInv s2 input (p + n) := by
  have main : ∀ k : Nat, (p + k) / 8 < input.length →
      ∃ s2 v, (List.range k).foldlM
          (fun acc i =>
            (acc.2.readOneBit).map (fun r => (Nat.lor acc.1 (r.1 * 2 ^ i), r.2)))
          ((0 : Nat), s) = .ok (v, s2) ∧
        v = natOfBits (((bytesBits input).drop p).take k) ∧
        v < 2 ^ k ∧ rdInv s2 input (p + k) := by
    intro k
    induction k with
    | zero =>
        intro _
        exact ⟨s, 0, rfl, by simp [natOfBits], by norm_num, by simpa using h⟩
    | succ k ih =>
        intro hr2
        have hrk : (p + k) / 8 < input.length :=
          lt_of_le_of_lt (Nat.div_le_div_right (by omega)) hr2
        obtain ⟨s2, v, hfold, hv, hvlt, hinv⟩ := ih hrk
        have hnext : (p + k + 1) % 8 = 0 → (p + k + 1) / 8 < input.length := by
          intro _
          have he : p + k + 1 = p + (k + 1) := by ring
          rw [he]
          exact hr2
        obtain ⟨s3, hone, hinv3⟩ := readOneBit_spec s2 input (p + k) hinv hnext
        have hlenk : k < ((bytesBits input).drop p).length := by
          rw [List.length_drop, bytesBits_length]
          have h1 : p + k < input.length * 8 :=
            (Nat.div_lt_iff_lt_mul (by norm_num)).mp hrk
          omega
        refine ⟨s3, Nat.lor v
          ((if (bytesBits input).getD (p + k) false then 1 else 0) * 2 ^ k),
          ?_, ?_, ?_, ?_⟩
        · rw [List.range_succ, List.foldlM_append, hfold]
          show Except.map (fun r => (Nat.lor v (r.1 * 2 ^ k), r.2)) s2.readOneBit >>= pure
              = Except.ok (Nat.lor v
                  ((if (bytesBits input).getD (p + k) false then 1 else 0) * 2 ^ k), s3)
          rw [hone]
          rfl
        · have hble : (if (bytesBits input).getD (p + k) false then 1 else 0 : Nat) ≤ 1 := by
            split <;> omega
          rw [lor_mul_two_pow v _ k hvlt, hv]
          have htake : ((bytesBits input).drop p).take (k + 1)
              = ((bytesBits input).drop p).take k
                ++ [((bytesBits input).drop p).getD k false] := by
            rw [List.take_succ]
            congr 1
            rw [List.getElem?_eq_getElem hlenk, List.getD_eq_getElem _ _ hlenk]
            rfl
          rw [htake, natOfBits_append, List.length_take, Nat.min_eq_left (le_of_lt hlenk)]
          have hdg : ((bytesBits input).drop p).getD k false
              = (bytesBits input).getD (p + k) false := by
            rw [List.getD_eq_getElem?_getD, List.getD_eq_getElem?_getD, List.getElem?_drop]
          rw [hdg, natOfBits_single]
          ring
        · have hble : (if (bytesBits input).getD (p + k) false then 1 else 0 : Nat) ≤ 1 := by
            split <;> omega
          rw [lor_mul_two_pow v _ k hvlt, pow_succ]
          have h2 : (if (bytesBits input).getD (p + k) false then 1 else 0 : Nat) * 2 ^ k
              ≤ 2 ^ k := by
            calc (if (bytesBits input).getD (p + k) false then 1 else 0 : Nat) * 2 ^ k
                ≤ 1 * 2 ^ k := Nat.mul_le_mul_right _ hble
              _ = 2 ^ k := one_mul _
          omega
        · have he : p + k + 1 = p + (k + 1) := by ring
          rw [← he]
          exact hinv3
  obtain ⟨s2, v, hfold, hv, _, hinv⟩ := main n hrange
  exact ⟨s2, by rw [BitReaderS.readBitLoop, hfold, hv], hinv⟩

/-- BitReader::read_bit on the bit path (the fast byte path is excluded by
the alignment hypothesis). -/
theorem readBit_spec (s : BitReaderS) (input : List Nat) (p n : Nat)
    (h : rdInv s input p) (h1 : 1 ≤ n) (h64 : n ≤ 64)
    (hpath : ¬(n % 8 = 0 ∧ p % 8 = 0))
    (hrange : (p + n) / 8 < input.length) :
    ∃ s2, s.readBit n = .ok (natOfBits (((bytesBits input).drop p).take n), s2) ∧
      rdInv s2 input (p + n) := by
  obtain ⟨s2, hloop, hinv⟩ := readBitLoop_spec n s input p h hrange
  refine ⟨s2, ?_, hinv⟩
  unfold BitReaderS.readBit
  rw [if_neg (by omega)]
  have hz : (n == 0) = false := by
    simp only [beq_eq_false_iff_ne, ne_eq]
    omega
  rw [hz]
  have hcond : (n % 8 == 0 && s.bitOffset == 0) = false := by
    rcases Decidable.em (n % 8 = 0) with h8 | h8
    · have hboff : ¬ s.bitOffset = 0 := by
        rw [h.2.1]
        intro hc
        exact hpath ⟨h8, hc⟩
      simp [hboff]
    · simp [h8]
  rw [hcond]
  simpa using hloop

/-! ## Claim C3: bit I/O round-trip drivers

The claim quantifies over a sequence of `(value, n_bits)` writes followed by
`flush`, then a reader over the output using the same bit lengths. -/

/-- Perform the claimed write sequence on a fresh BitWriter and flush. -/
def writeValues (ws : List (Nat × Nat)) : List Nat :=
  ((ws.foldl (fun st vn => st.writeBit vn.1 vn.2) BitWriterS.new).flush).output

/-- Read a sequence of bit lengths, accumulating the values. -/
def readValuesGo (s : BitReaderS) (ns : List Nat) (acc : List Nat) :
    Except String (List Nat) :=
  match ns with
  | [] => .ok acc
  | n :: rest =>
    match s.readBit n with
    | .error e => .error e
    | .ok (v, s2) => readValuesGo s2 rest (acc ++ [v])

/-- Read back a sequence of bit lengths on a fresh BitReader. -/
def readValues (bytes : List Nat) (ns : List Nat) : Except String (List Nat) :=
  match BitReaderS.new bytes with
  | .error e => .error e
  | .ok s0 => readValuesGo s0 ns []

/-- The round trip of claim C3. -/
def bitRoundTrip (ws : List (Nat × Nat)) : Except String (List Nat) :=
  readValues (writeValues ws) (ws.map Prod.snd)

/-- Total number of bits in a write sequence. -/
def bitLenSum (ws : List (Nat × Nat)) : Nat := (ws.map Prod.snd).sum

theorem writeValues_fold_spec (ws : List (Nat × Nat)) :
    wfW (ws.foldl (fun st vn => st.writeBit vn.1 vn.2) BitWriterS.new) ∧
    (ws.foldl (fun st vn => st.writeBit vn.1 vn.2) BitWriterS.new).bits
      = ws.flatMap (fun vn => bitsOf vn.1 vn.2) := by
  suffices hgen : ∀ (l : List (Nat × Nat)) (s : BitWriterS), wfW s →
      wfW (l.foldl (fun st vn => st.writeBit vn.1 vn.2) s) ∧
      (l.foldl (fun st vn => st.writeBit vn.1 vn.2) s).bits
        = s.bits ++ l.flatMap (fun vn => bitsOf vn.1 vn.2) by
    have h := hgen ws BitWriterS.new wfW_new
    refine ⟨h.1, ?_⟩
    rw [h.2]
    simp [BitWriterS.bits, BitWriterS.new, bytesBits]
  intro l
  induction l with
  | nil => intro s hs; exact ⟨hs, by simp⟩
  | cons vn l ih =>
      intro s hs
      obtain ⟨h1, hb1⟩ := writeBit_spec s hs vn.1 vn.2
      obtain ⟨h2, hb2⟩ := ih _ h1
      refine ⟨h2, ?_⟩
      simp only [List.foldl_cons, List.flatMap_cons] at *
      rw [hb2, hb1, List.append_assoc]

/-- Reading the recorded bit lengths back, starting mid-stream: every value
comes back reduced mod `2 ^ n`, provided no read starts byte-aligned with a
multiple-of-8 length. -/
theorem readValuesGo_spec (bytes : List Nat) (btot : Nat)
    (hlen : bytes.length = btot / 8 + 1) :
    ∀ (rest : List (Nat × Nat)) (acc : List Nat) (s : BitReaderS) (p : Nat),
    rdInv s bytes p →
    p + bitLenSum rest ≤ btot →
    (bytesBits bytes).drop p
      = rest.flatMap (fun vn => bitsOf vn.1 vn.2)
        ++ (bytesBits bytes).drop (p + bitLenSum rest) →
    (∀ vn ∈ rest, 1 ≤ vn.2 ∧ vn.2 ≤ 64) →
    (∀ k, (hk : k < rest.length) →
      ¬((rest.get ⟨k, hk⟩).2 % 8 = 0 ∧ (p + bitLenSum (rest.take k)) % 8 = 0)) →
    readValuesGo s (rest.map Prod.snd) acc
      = .ok (acc ++ rest.map (fun vn => vn.1 % 2 ^ vn.2)) := by
  intro rest
  induction rest with
  | nil =>
      intro acc s p _ _ _ _ _
      simp [readValuesGo]
  | cons vn rest ih =>
      intro acc s p hinv hle hdrop hbounds halign
      have hvn := hbounds vn (by simp)
      have hsum : bitLenSum (vn :: rest) = vn.2 + bitLenSum rest := by
        simp [bitLenSum]
      have hpath : ¬(vn.2 % 8 = 0 ∧ p % 8 = 0) := by
        have := halign 0 (by simp)
        simpa [bitLenSum] using this
      have hrange : (p + vn.2) / 8 < bytes.length := by
        rw [hlen]
        have h1 : p + vn.2 ≤ btot := by omega
        omega
      obtain ⟨s2, hread, hinv2⟩ := readBit_spec s bytes p vn.2 hinv hvn.1 hvn.2 hpath hrange
      have htakev : ((bytesBits bytes).drop p).take vn.2 = bitsOf vn.1 vn.2 := by
        rw [hdrop]
        simp only [List.flatMap_cons, List.append_assoc]
        exact List.take_left' (bitsOf_length _ _)
      have hdrop2 : (bytesBits bytes).drop (p + vn.2)
          = rest.flatMap (fun x => bitsOf x.1 x.2)
            ++ (bytesBits bytes).drop (p + vn.2 + bitLenSum rest) := by
        have hdd : (bytesBits bytes).drop (p + vn.2)
            = (((bytesBits bytes).drop p).drop vn.2) := by
          rw [List.drop_drop]
        rw [hdd, hdrop]
        simp only [List.flatMap_cons, List.append_assoc]
        rw [List.drop_left' (bitsOf_length _ _)]
        congr 2
        rw [hsum]
        ring_nf
      have halign2 : ∀ k, (hk : k < rest.length) →
          ¬((rest.get ⟨k, hk⟩).2 % 8 = 0
            ∧ (p + vn.2 + bitLenSum (rest.take k)) % 8 = 0) := by
        intro k hk
        have h2 := halign (k + 1) (by simpa using Nat.succ_lt_succ hk)
        simp only [List.get_cons_succ, List.take_succ_cons] at h2
        have he : bitLenSum (vn :: rest.take k) = vn.2 + bitLenSum (rest.take k) := by
          simp [bitLenSum]
        rw [he] at h2
        have he2 : p + (vn.2 + bitLenSum (rest.take k))
            = p + vn.2 + bitLenSum (rest.take k) := by ring
        rw [he2] at h2
        exact h2
      have hstep := ih (acc ++ [vn.1 % 2 ^ vn.2]) s2 (p + vn.2) hinv2
        (by rw [hsum] at hle; omega)
        (by rw [hdrop2])
        (fun x hx => hbounds x (by simp [hx]))
        halign2
      rw [htakev, natOfBits_bitsOf] at hread
      simp only [List.map_cons, readValuesGo, hread, hstep]
      simp

/-- C3 (corrected): provided no read begins byte-aligned with a
multiple-of-8 bit length, the round trip returns the written values reduced
mod `2 ^ n_k` (only the low `n_k` bits of each value are stored). -/
theorem C3_theorem (ws : List (Nat × Nat))
    (hbounds : ∀ vn ∈ ws, 1 ≤ vn.2 ∧ vn.2 ≤ 64)
    (halign : ∀ k, (hk : k < ws.length) →
      ¬((ws.get ⟨k, hk⟩).2 % 8 = 0 ∧ bitLenSum (ws.take k) % 8 = 0)) :
    bitRoundTrip ws = .ok (ws.map (fun vn => vn.1 % 2 ^ vn.2)) := by
  obtain ⟨hwf, hbits⟩ := writeValues_fold_spec ws
  set w := ws.foldl (fun st vn => st.writeBit vn.1 vn.2) BitWriterS.new with hw
  obtain ⟨hflush, hflen⟩ := flush_spec w hwf.1
  have hbtot : w.bits.length = bitLenSum ws := by
    rw [hbits]
    clear hbits hflush hflen hw hwf halign hbounds
    induction ws with
    | nil => simp [bitLenSum]
    | cons vn l ih => simp [bitLenSum, bitsOf_length] at *; omega
  have hne : (writeValues ws) ≠ [] := by
    have h1 : (writeValues ws).length = w.bits.length / 8 + 1 := hflen
    intro hc
    rw [hc] at h1
    simp at h1
  obtain ⟨s0, hnew, hinv0⟩ := rdInv_new (writeValues ws) hne
  have hlen : (writeValues ws).length = bitLenSum ws / 8 + 1 := by
    rw [← hbtot]
    exact hflen
  have hdrop0 : (bytesBits (writeValues ws)).drop 0
      = ws.flatMap (fun vn => bitsOf vn.1 vn.2)
        ++ (bytesBits (writeValues ws)).drop (0 + bitLenSum ws) := by
    show bytesBits (writeValues ws) = _ ++ _
    have h1 : bytesBits (writeValues ws)
        = w.bits ++ List.replicate (8 - w.bitOffset) false := hflush
    rw [h1, hbits]
    congr 1
    rw [Nat.zero_add, ← hbits, ← hbtot, List.drop_left]
  have halign0 : ∀ k, (hk : k < ws.length) →
      ¬((ws.get ⟨k, hk⟩).2 % 8 = 0 ∧ (0 + bitLenSum (ws.take k)) % 8 = 0) := by
    intro k hk
    simpa using halign k hk
  have hfold := readValuesGo_spec (writeValues ws) (bitLenSum ws) hlen
    ws [] s0 0 hinv0 (by omega) hdrop0 hbounds halign0
  unfold bitRoundTrip readValues
  rw [hnew]
  show readValuesGo s0 (List.map Prod.snd ws) [] = _
  rw [hfold]
  simp

/-- C3 counterexample: writing a single aligned byte `(0, 8)` and reading it
back fails (BitReader::read skips the eagerly-loaded first byte, and its
`try_into().unwrap()` panics for byte counts under 8), so the reader does
not return the written sequence `[0]`. -/
theorem C3_counterexample :
    bitRoundTrip [(0, 8)] = .error "try_into unwrap failed" ∧
    bitRoundTrip [(0, 8)] ≠ .ok [0] := by
  have h1 : bitRoundTrip [(0, 8)] = .error "try_into unwrap failed" := rfl
  refine ⟨h1, ?_⟩
  rw [h1]
  intro hc
  exact Except.noConfusion hc

/-- C3 witness: a concrete two-write round trip satisfying the amended
hypotheses returns the written values. -/
theorem C3_witness : bitRoundTrip [(5, 3), (10, 7)] = .ok [5, 10] := by
  have h := C3_theorem [(5, 3), (10, 7)] (by decide) (by decide)
  simpa using h

/-! ## LZW entropy codec (src/src/compression/lossless.rs)

The encoder dictionary (a Rust `HashMap<Vec<u8>, u64>`) is an association
list with insert-by-prepend and first-match lookup; the decoder dictionary
(a `Vec<Vec<u8>>`) is a list indexed positionally.  The `loop` in `compress`
and the decoder loop carry explicit fuel; the fuel bounds are sufficient for
every execution (each chunk consumes at least one input byte, and each
decoded code advances the reader by at least two bytes), which the
round-trip theorems establish by computing the exact runs. -/

structure ChunkInfo where
  sizeCompressed : Nat
  sizeRaw : Nat
deriving Repr, DecidableEq

structure CompressionInfo where
  chunkCount : Nat
  chunks : List ChunkInfo
deriving Repr, DecidableEq

inductive CompressionError where
  | badElement (part : List Nat) (code : Nat) (offset : Nat)
  | noChunks
deriving Repr, DecidableEq

/-- The `write_bit` closure of `compress_lzw`: a 1-bit width flag, then a
15-bit code (≤ 0x7FFF) or an 18-bit code. -/
def writeCodeBit (w : BitWriterS) (code : Nat) : BitWriterS :=
  if code > 0x7FFF then (w.writeBit 1 1).writeBit code 18
  else (w.writeBit 0 1).writeBit code 15

/-- The encoder dictionary seeded with the 256 single-byte strings. -/
def initDict : List (List Nat × Nat) := (List.range 256).map (fun i => ([i], i))

structure LzwEncSt where
  dict : List (List Nat × Nat)
  dictCount : Nat
  element : List Nat
  count : Nat
  writer : BitWriterS

/-- The `for c in data` loop of `compress_lzw`, including the
dictionary-full break (`count -= 1; break`). -/
def lzwLoop : List Nat → LzwEncSt → LzwEncSt
  | [], st => st
  | c :: rest, st =>
    let entry := st.element ++ [c]
    let st1 :=
      if (st.dict.lookup entry).isSome then
        { st with element := entry }
      else
        { st with
            writer := writeCodeBit st.writer ((st.dict.lookup st.element).getD 0),
            dict := (entry, st.dictCount) :: st.dict,
            element := [c],
            dictCount := st.dictCount + 1 }
    let st2 := { st1 with count := st1.count + 1 }
    if st2.dictCount ≥ 0x3FFFE then { st2 with count := st2.count - 1 }
    else lzwLoop rest st2

/-- The fresh encoder state of `compress_lzw` (`dictionary_count` starts at
`dictionary.len() + 1 = 257`, leaving code 256 unused). -/
def lzwEncInit (element : List Nat) : LzwEncSt :=
  { dict := initDict, dictCount := 257, element := element,
    count := 0, writer := BitWriterS.new }

/-- compress_lzw — one chunk.  Returns `(count, payload, carry)`.  Note the
source initialises `element` with `if last.is_empty() { element = last }`,
so the carry argument never seeds the chunk (claim C10). -/
def compressLzw (data : List Nat) (last : List Nat) : Nat × List Nat × List Nat :=
  let element : List Nat := if last.isEmpty then last else []
  let st := lzwLoop data (lzwEncInit element)
  let lastElement := st.element
  if st.writer.byteSize == 0 then
    let w := if lastElement.isEmpty then st.writer
      else lastElement.foldl
        (fun wr c => writeCodeBit wr ((st.dict.lookup [c]).getD 0)) st.writer
    (st.count, w.flush.output, [])
  else if st.dictCount < 0x3FFFE then
    let w := if lastElement.isEmpty then st.writer
      else writeCodeBit st.writer ((st.dict.lookup lastElement).getD 0)
    (st.count, w.flush.output, [])
  else
    (st.count, st.writer.flush.output, lastElement)

/-- The chunking `loop` of `compress` (fuel-indexed; fuel `data.length + 1`
always suffices since a chunk with `count = 0` ends the loop and any other
chunk advances `offset` by `count ≥ 1`). -/
def compressLoop (fuel : Nat) (data : List Nat) (offset : Nat) (last : List Nat)
    (buf : List Nat) (info : CompressionInfo) :
    Except CompressionError (List Nat × CompressionInfo) :=
  match fuel with
  | 0 => .error .noChunks
  | fuel + 1 =>
    let r := compressLzw (data.drop offset) last
    if r.1 = 0 then .ok (buf, info)
    else
      compressLoop fuel data (offset + r.1) r.2.2 (buf ++ r.2.1)
        { chunkCount := info.chunkCount + 1,
          chunks := info.chunks ++ [⟨r.2.1.length, r.1⟩] }

/-- compress — LZW-compress `data` into chunks. -/
def compress (data : List Nat) :
    Except CompressionError (List Nat × CompressionInfo) :=
  match compressLoop (data.length + 1) data 0 [] [] ⟨0, []⟩ with
  | .error e => .error e
  | .ok (buf, info) =>
      if info.chunkCount = 0 then .error .noChunks else .ok (buf, info)

/-- The decoder dictionary seeded with the 256 single-byte strings
(`dictionary_count` starts at 256 here, unlike the encoder). -/
def decInitDict : List (List Nat) := (List.range 256).map (fun i => [i])

inductive LzwDecErr where
  | badElement (part : List Nat) (code : Nat) (offset : Nat)
  | readFail (msg : String)
  | outOfFuel
deriving Repr, DecidableEq

structure LzwDecSt where
  dict : List (List Nat)
  dictCount : Nat
  w : List Nat
  result : List Nat
  reader : BitReaderS

/-- The decoder loop of `decompress_lzw`: stop once the reader is into the
final payload byte, else read a flag bit and a 15- or 18-bit code, resolve
it in the dictionary (with the `element == dictionary_count` self-reference
case), emit the entry and extend the dictionary.  Indexing `entry[0]` and
`w[0]` is modelled with `headD 0`; both lists are provably nonempty in every
reachable state. -/
def decompressLzwLoop (fuel : Nat) (dataSize : Nat) (st : LzwDecSt) :
    Except LzwDecErr (List Nat) :=
  match fuel with
  | 0 => .error .outOfFuel
  | fuel + 1 =>
    if st.reader.byteOffset ≥ dataSize - 1 then .ok st.result
    else
      match st.reader.readBit 1 with
      | .error e => .error (.readFail e)
      | .ok (flag, r1) =>
        match (if flag = 0 then r1.readBit 15 else r1.readBit 18) with
        | .error e => .error (.readFail e)
        | .ok (element, r2) =>
          let entry? : Option (List Nat) :=
            match st.dict.get? element with
            | some x => some x
            | none =>
                if element = st.dictCount then some (st.w ++ [st.w.headD 0])
                else none
          match entry? with
          | none => .error (.badElement st.result element r2.byteOffset)
          | some entry =>
              decompressLzwLoop fuel dataSize
                { dict := st.dict ++ [st.w ++ [entry.headD 0]],
                  dictCount := st.dictCount + 1,
                  w := entry,
                  result := st.result ++ entry,
                  reader := r2 }

/-- decompress_lzw — decode one chunk (`size` is the `size_raw` capacity
hint of the source, unused by the algorithm). -/
def decompressLzw (inputData : List Nat) (size : Nat) : Except LzwDecErr (List Nat) :=
  match BitReaderS.new inputData with
  | .error e => .error (.readFail e)
  | .ok r =>
      decompressLzwLoop (inputData.length + 1) inputData.length
        { dict := decInitDict, dictCount := 256, w := [0], result := [], reader := r }

/-- The per-chunk body of `decompress`: slice the next chunk off the input,
decode it, and on a `BadElement` error keep the partial output zero-padded
to `size_raw` (the recovery path).  The source decodes chunks on a worker
pool but concatenates results in index order, which is this sequential
fold. -/
def decompressGo (input : List Nat) (chunks : List ChunkInfo) (pos : Nat)
    (out : List Nat) : Except String (List Nat) :=
  match chunks with
  | [] => .ok out
  | ci :: rest =>
    let chunk := (input.drop pos).take ci.sizeCompressed
    if chunk.length < ci.sizeCompressed then .error "read_exact failed"
    else
      match decompressLzw chunk ci.sizeRaw with
      | .ok r => decompressGo input rest (pos + ci.sizeCompressed) (out ++ r)
      | .error (.badElement part _ _) =>
          if part.length ≤ ci.sizeRaw then
            decompressGo input rest (pos + ci.sizeCompressed)
              (out ++ (part ++ List.replicate (ci.sizeRaw - part.length) 0))
          else .error "copy_from_slice length mismatch"
      | .error (.readFail e) => .error e
      | .error .outOfFuel => .error "fuel"

/-- decompress — decode all chunks recorded in `info`. -/
def decompress (input : List Nat) (info : CompressionInfo) :
    Except String (List Nat) :=
  decompressGo input info.chunks 0 []

/-- C10: the per-chunk encoder ignores its carry argument.  The source reads
`if last.is_empty() { element = last }`, so `element` starts empty whether or
not a carry was passed in; `compress_lzw` therefore returns identical
`(count, payload, carry)` triples for every value of `last`, and the
trailing element of a dictionary-full chunk is never prepended to the next
chunk input. -/
theorem C10_theorem (data last : List Nat) :
    compressLzw data last = compressLzw data [] := by
  cases last <;> rfl

/-! ### Code-level view of the bit stream -/

/-- The bits one `write_bit` closure call appends for a code: a width flag,
then 15 or 18 value bits. -/
def codeBits (c : Nat) : List Bool :=
  if c > 0x7FFF then true :: bitsOf c 18 else false :: bitsOf c 15

/-- The bits of a code sequence. -/
def codesBits (cs : List Nat) : List Bool := cs.flatMap codeBits

theorem codeBits_length (c : Nat) :
    (codeBits c).length = if c > 0x7FFF then 19 else 16 := by
  unfold codeBits
  split <;> simp [bitsOf_length]

theorem codeBits_length_ge (c : Nat) : 16 ≤ (codeBits c).length := by
  rw [codeBits_length]
  split <;> omega

theorem writeCodeBit_spec (w : BitWriterS) (h : wfW w) (c : Nat) :
    wfW (writeCodeBit w c) ∧ (writeCodeBit w c).bits = w.bits ++ codeBits c := by
  unfold writeCodeBit codeBits
  by_cases hc : c > 0x7FFF
  · rw [if_pos hc, if_pos hc]
    obtain ⟨h1, hb1⟩ := writeBit_spec w h 1 1
    obtain ⟨h2, hb2⟩ := writeBit_spec _ h1 c 18
    refine ⟨h2, ?_⟩
    rw [hb2, hb1, List.append_assoc]
    have hone : bitsOf 1 1 = [true] := by decide
    rw [hone]
    rfl
  · rw [if_neg hc, if_neg hc]
    obtain ⟨h1, hb1⟩ := writeBit_spec w h 0 1
    obtain ⟨h2, hb2⟩ := writeBit_spec _ h1 c 15
    refine ⟨h2, ?_⟩
    rw [hb2, hb1, List.append_assoc]
    have hzero : bitsOf 0 1 = [false] := by decide
    rw [hzero]
    rfl

theorem codesBits_append (xs ys : List Nat) :
    codesBits (xs ++ ys) = codesBits xs ++ codesBits ys := by
  simp [codesBits]

theorem codesBits_length_ge (cs : List Nat) : 16 * cs.length ≤ (codesBits cs).length := by
  induction cs with
  | nil => simp [codesBits]
  | cons c cs ih =>
      simp only [codesBits, List.flatMap_cons, List.length_append, List.length_cons] at *
      have := codeBits_length_ge c
      omega

theorem codesBits_length_le (cs : List Nat) : (codesBits cs).length ≤ 19 * cs.length := by
  induction cs with
  | nil => simp [codesBits]
  | cons c rest ih =>
      have h1 : codesBits (c :: rest) = codeBits c ++ codesBits rest := by
        simp [codesBits]
      have h2 := codeBits_length c
      rw [h1]
      simp only [List.length_append, List.length_cons]
      by_cases hc : c > 0x7FFF
      · rw [if_pos hc] at h2
        omega
      · rw [if_neg hc] at h2
        omega

/-- The flushed payload holds at most `⌈19·|cs|/8⌉` bytes. -/
theorem payload_len_bound (w : BitWriterS) (cs : List Nat) (hwf : wfW w)
    (hbits : w.bits = codesBits cs) :
    w.flush.output.length ≤ 19 * cs.length / 8 + 1 := by
  obtain ⟨_, hl⟩ := flush_spec w hwf.1
  rw [hbits] at hl
  have h2 := codesBits_length_le cs
  rw [hl]
  omega

/-! ### Pure decoder over code lists

A proof-level restatement of the decoder dictionary discipline of
`decompress_lzw`, abstracted away from the bit reader: `extra` holds the
entries pushed at indices 256, 257, …; `w` is the previous entry; `out` the
output so far.  `decLoopAdequate` below proves that `decompress_lzw` follows
this recursion code for code. -/

structure DecSt where
  extra : List (List Nat)
  w : List Nat
  out : List Nat
deriving Repr, DecidableEq

def decEntryP (st : DecSt) (code : Nat) : Option (List Nat) :=
  if code < 256 then some [code]
  else match st.extra.get? (code - 256) with
    | some e => some e
    | none =>
        if code = 256 + st.extra.length then some (st.w ++ [st.w.headD 0])
        else none

def decStepP (st : DecSt) (code : Nat) : Option DecSt :=
  match decEntryP st code with
  | none => none
  | some entry =>
      some { extra := st.extra ++ [st.w ++ [entry.headD 0]],
             w := entry, out := st.out ++ entry }

def decRunP (codes : List Nat) (st : DecSt) : Option DecSt :=
  match codes with
  | [] => some st
  | c :: rest =>
    match decStepP st c with
    | none => none
    | some st2 => decRunP rest st2

def decInitP : DecSt := { extra := [], w := [0], out := [] }

theorem decRunP_append (xs ys : List Nat) (st : DecSt) :
    decRunP (xs ++ ys) st
      = match decRunP xs st with
        | none => none
        | some st2 => decRunP ys st2 := by
  induction xs generalizing st with
  | nil => simp [decRunP]
  | cons x xs ih =>
      simp only [List.cons_append, decRunP]
      cases decStepP st x with
      | none => rfl
      | some st2 => exact ih st2

/-- One successful pure decoder step: the new entry is nonempty, all
dictionary entries stay nonempty, and one entry is pushed. -/
theorem decStepP_some (st : DecSt) (c : Nat) (st1 : DecSt) (h : decStepP st c = some st1)
    (hw : st.w ≠ []) (hx : ∀ e ∈ st.extra, e ≠ []) :
    st1.w ≠ [] ∧ (∀ e ∈ st1.extra, e ≠ []) ∧
    st1.extra.length = st.extra.length + 1 ∧ st1.out = st.out ++ st1.w := by
  unfold decStepP at h
  cases hent : decEntryP st c with
  | none =>
      rw [hent] at h
      exact Option.noConfusion h
  | some entry =>
      rw [hent] at h
      have hst1 : st1 = { extra := st.extra ++ [st.w ++ [entry.headD 0]],
                          w := entry, out := st.out ++ entry } := (Option.some.inj h).symm
      have hentne : entry ≠ [] := by
        unfold decEntryP at hent
        by_cases hlt : c < 256
        · rw [if_pos hlt] at hent
          cases hent
          simp
        · rw [if_neg hlt] at hent
          cases hget : st.extra.get? (c - 256) with
          | some e =>
              rw [hget] at hent
              cases hent
              exact hx _ (List.get?_mem hget)
          | none =>
              rw [hget] at hent
              by_cases hc2 : c = 256 + st.extra.length
              · rw [if_pos hc2] at hent
                cases hent
                simp [hw]
              · rw [if_neg hc2] at hent
                exact Option.noConfusion hent
      subst hst1
      refine ⟨hentne, ?_, by simp, by simp⟩
      intro e he
      rcases List.mem_append.mp he with h1 | h1
      · exact hx _ h1
      · rcases List.mem_singleton.mp h1 with rfl
        simp [hw]

/-- Every dictionary entry and the running `w` of the pure decoder stay
nonempty, and the extras count grows by one per code. -/
theorem decRunP_wf (codes : List Nat) (st st2 : DecSt)
    (h : decRunP codes st = some st2)
    (hw : st.w ≠ []) (hx : ∀ e ∈ st.extra, e ≠ []) :
    st2.w ≠ [] ∧ (∀ e ∈ st2.extra, e ≠ []) ∧
    st2.extra.length = st.extra.length + codes.length := by
  induction codes generalizing st with
  | nil =>
      cases h
      exact ⟨hw, hx, by simp⟩
  | cons c rest ih =>
      simp only [decRunP] at h
      cases hstep : decStepP st c with
      | none =>
          rw [hstep] at h
          simp at h
      | some st1 =>
          rw [hstep] at h
          obtain ⟨hw1, hx1, hlen1, _⟩ := decStepP_some st c st1 hstep hw hx
          obtain ⟨a, b, c2⟩ := ih st1 h hw1 hx1
          exact ⟨a, b, by rw [c2, hlen1]; simp; omega⟩

theorem decInitDict_length : decInitDict.length = 256 := by
  simp [decInitDict]

theorem decDict_get_small (ex : List (List Nat)) (i : Nat) (hi : i < 256) :
    (decInitDict ++ ex).get? i = some [i] := by
  rw [List.get?_eq_getElem?, List.getElem?_append_left (by rw [decInitDict_length]; omega)]
  unfold decInitDict
  rw [List.getElem?_map, List.getElem?_range hi]
  rfl

theorem decDict_get_big (ex : List (List Nat)) (m : Nat) :
    (decInitDict ++ ex).get? (256 + m) = ex.get? m := by
  rw [List.get?_eq_getElem?, List.getElem?_append_right (by rw [decInitDict_length]; omega)]
  rw [decInitDict_length, List.get?_eq_getElem?]
  congr 1
  omega

/-- Mapping a pure decoder state onto the decoder loop state of
`decompress_lzw` over a given reader. -/
def liftDec (d : DecSt) (r : BitReaderS) : LzwDecSt :=
  { dict := decInitDict ++ d.extra, dictCount := 256 + d.extra.length,
    w := d.w, result := d.out, reader := r }

/-- Reading one framed code (flag bit, then 15 or 18 value bits) off the
bit stream recovers the code exactly. -/
theorem readCode_spec (payload : List Nat) (btot : Nat)
    (hlen : payload.length = btot / 8 + 1)
    (c p : Nat) (r : BitReaderS)
    (hinv : rdInv r payload p)
    (hdropc : (bytesBits payload).drop p
      = codeBits c ++ (bytesBits payload).drop (p + (codeBits c).length))
    (hbound : p + (codeBits c).length ≤ btot)
    (hc : c < 0x3FFFE) :
    ∃ flag r1 r2, r.readBit 1 = .ok (flag, r1) ∧
      (if flag = 0 then r1.readBit 15 else r1.readBit 18) = .ok (c, r2) ∧
      rdInv r2 payload (p + (codeBits c).length) := by
  have hclen := codeBits_length c
  by_cases hcw : c > 0x7FFF
  · have hcbits : codeBits c = true :: bitsOf c 18 := by
      unfold codeBits
      rw [if_pos hcw]
    have hl19 : (codeBits c).length = 19 := by rw [hclen, if_pos hcw]
    obtain ⟨r1, hread1, hinv1⟩ := readBit_spec r payload p 1 hinv (by omega) (by omega)
      (by omega) (by omega)
    have hflag : ((bytesBits payload).drop p).take 1 = [true] := by
      rw [hdropc, hcbits]
      rfl
    rw [hflag] at hread1
    have hfv : natOfBits [true] = 1 := by decide
    rw [hfv] at hread1
    have hdp1 : (bytesBits payload).drop (p + 1)
        = bitsOf c 18 ++ (bytesBits payload).drop (p + (codeBits c).length) := by
      rw [← List.drop_drop, hdropc, hcbits]
      rfl
    obtain ⟨r2, hread2, hinv2⟩ := readBit_spec r1 payload (p + 1) 18 hinv1 (by omega)
      (by omega) (by omega) (by omega)
    have htake : ((bytesBits payload).drop (p + 1)).take 18 = bitsOf c 18 := by
      rw [hdp1]
      exact List.take_left' (bitsOf_length _ _)
    rw [htake, natOfBits_bitsOf, Nat.mod_eq_of_lt (by omega)] at hread2
    refine ⟨1, r1, r2, hread1, ?_, ?_⟩
    · rw [if_neg (by omega)]
      exact hread2
    · have he : p + 1 + 18 = p + (codeBits c).length := by omega
      rw [← he]
      exact hinv2
  · have hcbits : codeBits c = false :: bitsOf c 15 := by
      unfold codeBits
      rw [if_neg hcw]
    have hl16 : (codeBits c).length = 16 := by rw [hclen, if_neg hcw]
    obtain ⟨r1, hread1, hinv1⟩ := readBit_spec r payload p 1 hinv (by omega) (by omega)
      (by omega) (by omega)
    have hflag : ((bytesBits payload).drop p).take 1 = [false] := by
      rw [hdropc, hcbits]
      rfl
    rw [hflag] at hread1
    have hfv : natOfBits [false] = 0 := by decide
    rw [hfv] at hread1
    have hdp1 : (bytesBits payload).drop (p + 1)
        = bitsOf c 15 ++ (bytesBits payload).drop (p + (codeBits c).length) := by
      rw [← List.drop_drop, hdropc, hcbits]
      rfl
    obtain ⟨r2, hread2, hinv2⟩ := readBit_spec r1 payload (p + 1) 15 hinv1 (by omega)
      (by omega) (by omega) (by omega)
    have htake : ((bytesBits payload).drop (p + 1)).take 15 = bitsOf c 15 := by
      rw [hdp1]
      exact List.take_left' (bitsOf_length _ _)
    rw [htake, natOfBits_bitsOf, Nat.mod_eq_of_lt (by omega)] at hread2
    refine ⟨0, r1, r2, hread1, ?_, ?_⟩
    · rw [if_pos rfl]
      exact hread2
    · have he : p + 1 + 15 = p + (codeBits c).length := by omega
      rw [← he]
      exact hinv2

/-- Stage A of the LZW round trip: over a payload whose bit stream is a
code sequence (plus flush padding), the decoder loop of `decompress_lzw`
replays the pure decoder `decRunP` on exactly that code sequence and
returns its output. -/
theorem decLoopAdequate (payload : List Nat) (btot : Nat)
    (hlen : payload.length = btot / 8 + 1) :
    ∀ (rest : List Nat) (fuel : Nat) (d dF : DecSt) (r : BitReaderS) (p : Nat),
    rdInv r payload p →
    p + (codesBits rest).length = btot →
    (bytesBits payload).drop p
      = codesBits rest ++ (bytesBits payload).drop btot →
    (∀ c ∈ rest, c < 0x3FFFE) →
    rest.length < fuel →
    d.w ≠ [] → (∀ e ∈ d.extra, e ≠ []) →
    decRunP rest d = some dF →
    decompressLzwLoop fuel payload.length (liftDec d r) = .ok dF.out := by
  intro rest
  induction rest with
  | nil =>
      intro fuel d dF r p hinv hp _ _ hfuel _ _ hrun
      cases hrun
      cases fuel with
      | zero => omega
      | succ fuel =>
          simp only [decompressLzwLoop]
          rw [if_pos]
          · rfl
          · show r.byteOffset ≥ payload.length - 1
            have hboff := hinv.2.2.1
            simp only [codesBits, List.flatMap_nil, List.length_nil] at hp
            omega
  | cons c rest2 ih =>
      intro fuel d dF r p hinv hp hdrop hcodes hfuel hwne hxne hrun
      cases fuel with
      | zero => omega
      | succ fuel =>
      have hc3 : c < 0x3FFFE := hcodes c (by simp)
      have hcb : (codesBits (c :: rest2)) = codeBits c ++ codesBits rest2 := by
        simp [codesBits]
      have hclen16 := codeBits_length_ge c
      have hclen19 : (codeBits c).length ≤ 19 := by
        rw [codeBits_length]
        split <;> omega
      have hp16 : p + 16 ≤ btot := by
        rw [hcb, List.length_append] at hp
        omega
      -- drop relations
      have hdropA : (bytesBits payload).drop p
          = codeBits c ++ (codesBits rest2 ++ (bytesBits payload).drop btot) := by
        rw [hdrop, hcb, List.append_assoc]
      have hdropNext : (bytesBits payload).drop (p + (codeBits c).length)
          = codesBits rest2 ++ (bytesBits payload).drop btot := by
        rw [← List.drop_drop, hdropA]
        exact List.drop_left' rfl
      have hdropc : (bytesBits payload).drop p
          = codeBits c ++ (bytesBits payload).drop (p + (codeBits c).length) := by
        rw [hdropNext]
        exact hdropA
      have hbound : p + (codeBits c).length ≤ btot := by
        rw [hcb, List.length_append] at hp
        omega
      obtain ⟨flag, r1, r2, hread1, hread2, hinv2⟩ :=
        readCode_spec payload btot hlen c p r hinv hdropc hbound hc3
      -- pure step decomposition
      have hrunsplit : ∃ d1, decStepP d c = some d1 ∧ decRunP rest2 d1 = some dF := by
        simp only [decRunP] at hrun
        cases hstep : decStepP d c with
        | none => rw [hstep] at hrun; simp at hrun
        | some d1 => rw [hstep] at hrun; exact ⟨d1, rfl, hrun⟩
      obtain ⟨d1, hstep, hrun2⟩ := hrunsplit
      obtain ⟨hw1, hx1, hlen1, _⟩ := decStepP_some d c d1 hstep hwne hxne
      have hstep2 := hstep
      unfold decStepP at hstep2
      have hstop : ¬ (r.byteOffset ≥ payload.length - 1) := by
        have hboff := hinv.2.2.1
        omega
      simp only [decompressLzwLoop, liftDec]
      rw [if_neg hstop]
      simp only [hread1, hread2]
      cases hent : decEntryP d c with
      | none => rw [hent] at hstep2; exact Option.noConfusion hstep2
      | some entry =>
      rw [hent] at hstep2
      have hd1 : d1 = { extra := d.extra ++ [d.w ++ [entry.headD 0]],
                        w := entry, out := d.out ++ entry } := (Option.some.inj hstep2).symm
      -- resolve the dictionary lookup of the source against decEntryP
      have hresolve :
          ((decInitDict ++ d.extra).get? c = some entry)
          ∨ ((decInitDict ++ d.extra).get? c = none ∧ c = 256 + d.extra.length) := by
        unfold decEntryP at hent
        by_cases hlt : c < 256
        · rw [if_pos hlt] at hent
          left
          rw [decDict_get_small d.extra c hlt]
          rw [← Option.some.inj hent]
        · rw [if_neg hlt] at hent
          have hcsplit : c = 256 + (c - 256) := by omega
          cases hget : d.extra.get? (c - 256) with
          | some e =>
              rw [hget] at hent
              left
              rw [hcsplit, decDict_get_big d.extra (c - 256), hget]
              rw [← Option.some.inj hent]
          | none =>
              rw [hget] at hent
              by_cases hc2 : c = 256 + d.extra.length
              · right
                refine ⟨?_, hc2⟩
                rw [hcsplit, decDict_get_big d.extra (c - 256), hget]
              · rw [if_neg hc2] at hent
                exact Option.noConfusion hent
      have hentryval : entry = d.w ++ [d.w.headD 0]
          ∨ ((decInitDict ++ d.extra).get? c = some entry) := by
        unfold decEntryP at hent
        by_cases hlt : c < 256
        · right
          rw [if_pos hlt] at hent
          rw [decDict_get_small d.extra c hlt, ← Option.some.inj hent]
        · rw [if_neg hlt] at hent
          cases hget : d.extra.get? (c - 256) with
          | some e =>
              right
              rw [hget] at hent
              have hcsplit : c = 256 + (c - 256) := by omega
              rw [hcsplit, decDict_get_big d.extra (c - 256), hget,
                  ← Option.some.inj hent]
          | none =>
              rw [hget] at hent
              by_cases hc2 : c = 256 + d.extra.length
              · left
                rw [if_pos hc2] at hent
                rw [← Option.some.inj hent]
              · rw [if_neg hc2] at hent
                exact Option.noConfusion hent
      -- both resolution paths produce the same next state
      have hnext : decompressLzwLoop fuel payload.length
          (LzwDecSt.mk ((decInitDict ++ d.extra) ++ [d.w ++ [entry.headD 0]])
            (256 + d.extra.length + 1) entry (d.out ++ entry) r2) = .ok dF.out := by
        have hst : (LzwDecSt.mk ((decInitDict ++ d.extra) ++ [d.w ++ [entry.headD 0]])
            (256 + d.extra.length + 1) entry (d.out ++ entry) r2) = liftDec d1 r2 := by
          rw [hd1]
          simp [liftDec, List.append_assoc, Nat.add_assoc]
        rw [hst]
        apply ih fuel d1 dF r2 (p + (codeBits c).length) hinv2
        · rw [hcb, List.length_append] at hp
          omega
        · exact hdropNext
        · intro x hx
          exact hcodes x (by simp [hx])
        · simpa using hfuel
        · exact hw1
        · exact hx1
        · exact hrun2
      rcases hresolve with hsome | ⟨hnone, hcnt⟩
      · simp only [hsome]
        exact hnext
      · have hentw : entry = d.w ++ [d.w.headD 0] := by
          rcases hentryval with h1 | h1
          · exact h1
          · rw [hnone] at h1
            exact Option.noConfusion h1
        simp only [hnone, if_pos hcnt]
        rw [← hentw]
        exact hnext

/-! ### Encoder dictionary structure

After the inserts `ins` (oldest first, codes 257, 258, …), the HashMap
model is the association list `insAssocGo ins 257 ++ initDict` — newest
insert first, since inserts prepend. -/

def insAssocGo : List (List Nat) → Nat → List (List Nat × Nat)
  | [], _ => []
  | x :: rest, code => insAssocGo rest (code + 1) ++ [(x, code)]

def encDictOf (ins : List (List Nat)) : List (List Nat × Nat) :=
  insAssocGo ins 257 ++ initDict

theorem insAssocGo_append (a b : List (List Nat)) (c : Nat) :
    insAssocGo (a ++ b) c = insAssocGo b (c + a.length) ++ insAssocGo a c := by
  induction a generalizing c with
  | nil => simp [insAssocGo]
  | cons x a ih =>
      show insAssocGo (a ++ b) (c + 1) ++ [(x, c)] = _
      rw [ih]
      simp only [List.length_cons, List.append_assoc]
      congr 2
      omega

theorem encDictOf_snoc (ins : List (List Nat)) (entry : List Nat) :
    encDictOf (ins ++ [entry]) = (entry, 257 + ins.length) :: encDictOf ins := by
  unfold encDictOf
  rw [insAssocGo_append]
  show (insAssocGo [] (257 + ins.length + 1) ++ [(entry, 257 + ins.length)])
      ++ insAssocGo ins 257 ++ initDict = _
  simp [insAssocGo]

theorem lookup_append {α β : Type} [BEq α] (l1 l2 : List (α × β)) (a : α) :
    (l1 ++ l2).lookup a
      = match l1.lookup a with
        | some v => some v
        | none => l2.lookup a := by
  induction l1 with
  | nil => simp [List.lookup]
  | cons kv rest ih =>
      obtain ⟨k, v⟩ := kv
      show List.lookup a ((k, v) :: (rest ++ l2)) = _
      simp only [List.lookup]
      cases a == k with
      | true => rfl
      | false => exact ih

theorem mapSingles_lookup_long (l : List Nat) (x : List Nat) (hx : x.length ≠ 1) :
    ((l.map (fun i => ([i], i))).lookup x) = none := by
  induction l with
  | nil => rfl
  | cons i rest ih =>
      simp only [List.map_cons, List.lookup]
      have hne : (x == [i]) = false := by
        rw [beq_eq_false_iff_ne]
        intro hc
        rw [hc] at hx
        simp at hx
      rw [hne]
      exact ih

theorem mapSingles_lookup_some (l : List Nat) (x : List Nat) (code : Nat)
    (h : ((l.map (fun i => ([i], i))).lookup x) = some code) :
    x = [code] ∧ code ∈ l := by
  induction l with
  | nil => exact Option.noConfusion h
  | cons i rest ih =>
      simp only [List.map_cons, List.lookup] at h
      cases hbe : x == [i] with
      | true =>
          rw [hbe] at h
          have hx : x = [i] := by
            have h3 : (x == [i]) = true := hbe
            exact beq_iff_eq.mp h3
          cases h
          exact ⟨hx, by simp⟩
      | false =>
          rw [hbe] at h
          obtain ⟨h1, h2⟩ := ih h
          exact ⟨h1, by simp [h2]⟩

theorem initDict_lookup_single : ∀ b, b < 256 → initDict.lookup [b] = some b := by
  decide

theorem initDict_lookup_long (x : List Nat) (hx : x.length ≠ 1) :
    initDict.lookup x = none :=
  mapSingles_lookup_long _ x hx

theorem initDict_lookup_some (x : List Nat) (code : Nat)
    (h : initDict.lookup x = some code) : x = [code] ∧ code < 256 := by
  obtain ⟨h1, h2⟩ := mapSingles_lookup_some _ x code h
  exact ⟨h1, List.mem_range.mp h2⟩

theorem lookup_singleton_ne {α β : Type} [BEq α] (a k : α) (v : β)
    (h : (a == k) = false) : List.lookup a [(k, v)] = none := by
  simp [List.lookup, h]

theorem lookup_singleton_eq {α β : Type} [BEq α] (a k : α) (v : β)
    (h : (a == k) = true) : List.lookup a [(k, v)] = some v := by
  simp [List.lookup, h]

theorem insAssocGo_lookup_notmem (ins : List (List Nat)) (c : Nat) (x : List Nat)
    (hx : x ∉ ins) : (insAssocGo ins c).lookup x = none := by
  induction ins generalizing c with
  | nil => rfl
  | cons y rest ih =>
      show ((insAssocGo rest (c + 1)) ++ [(y, c)]).lookup x = none
      rw [lookup_append]
      have hxr : x ∉ rest := fun hc => hx (by simp [hc])
      rw [ih (c + 1) hxr]
      have hxy : x ≠ y := fun hc => hx (by simp [hc])
      show List.lookup x [(y, c)] = none
      exact lookup_singleton_ne x y c (beq_eq_false_iff_ne.mpr hxy)

theorem insAssocGo_lookup_mem (ins : List (List Nat)) (c : Nat) (x : List Nat)
    (hx : x ∈ ins) : ((insAssocGo ins c).lookup x).isSome := by
  induction ins generalizing c with
  | nil => simp at hx
  | cons y rest ih =>
      show (((insAssocGo rest (c + 1)) ++ [(y, c)]).lookup x).isSome
      rw [lookup_append]
      by_cases hxr : x ∈ rest
      · cases hl : (insAssocGo rest (c + 1)).lookup x with
        | none =>
            have := ih (c + 1) hxr
            rw [hl] at this
            simp at this
        | some v => simp
      · have hxy : x = y := by
          rcases List.mem_cons.mp hx with h1 | h1
          · exact h1
          · exact absurd h1 hxr
        rw [insAssocGo_lookup_notmem rest (c + 1) x hxr]
        show (List.lookup x [(y, c)]).isSome
        rw [lookup_singleton_eq x y c (beq_iff_eq.mpr hxy)]
        rfl

theorem insAssocGo_lookup_some (ins : List (List Nat)) (c : Nat) (x : List Nat)
    (v : Nat) (h : (insAssocGo ins c).lookup x = some v) :
    ∃ k, ins.get? k = some x ∧ v = c + k := by
  induction ins generalizing c with
  | nil => exact Option.noConfusion h
  | cons y rest ih =>
      rw [show insAssocGo (y :: rest) c = (insAssocGo rest (c + 1)) ++ [(y, c)] from rfl,
          lookup_append] at h
      cases hl : (insAssocGo rest (c + 1)).lookup x with
      | some v2 =>
          rw [hl] at h
          cases h
          obtain ⟨k, hk, hv⟩ := ih (c + 1) hl
          exact ⟨k + 1, by simpa using hk, by omega⟩
      | none =>
          rw [hl] at h
          simp only [List.lookup] at h
          cases hbe : x == y with
          | true =>
              rw [hbe] at h
              cases h
              exact ⟨0, by simp [beq_iff_eq.mp hbe], by omega⟩
          | false =>
              rw [hbe] at h
              exact Option.noConfusion h

theorem insAssocGo_lookup_get (ins : List (List Nat)) (c : Nat) (k : Nat)
    (x : List Nat) (hnd : ins.Nodup) (hk : ins.get? k = some x) :
    (insAssocGo ins c).lookup x = some (c + k) := by
  induction ins generalizing c k with
  | nil => exact Option.noConfusion hk
  | cons y rest ih =>
      have hysplit := List.nodup_cons.mp hnd
      show ((insAssocGo rest (c + 1)) ++ [(y, c)]).lookup x = some (c + k)
      rw [lookup_append]
      cases k with
      | zero =>
          have hxy : x = y := by
            simp only [List.get?] at hk
            exact (Option.some.inj hk).symm
          have hxr : x ∉ rest := by rw [hxy]; exact hysplit.1
          rw [insAssocGo_lookup_notmem rest (c + 1) x hxr]
          show List.lookup x [(y, c)] = some (c + 0)
          rw [lookup_singleton_eq x y c (beq_iff_eq.mpr hxy)]
          rfl
      | succ k =>
          have hkr : rest.get? k = some x := by simpa using hk
          rw [ih (c + 1) k hysplit.2 hkr]
          show some (c + 1 + k) = some (c + (k + 1))
          congr 1
          omega

theorem encDictOf_lookup_single (ins : List (List Nat))
    (h2 : ∀ y ∈ ins, 2 ≤ y.length) (b : Nat) (hb : b < 256) :
    (encDictOf ins).lookup [b] = some b := by
  unfold encDictOf
  rw [lookup_append]
  have hnm : ([b] : List Nat) ∉ ins := by
    intro hc
    have := h2 _ hc
    simp at this
  rw [insAssocGo_lookup_notmem ins 257 [b] hnm]
  rw [initDict_lookup_single b hb]

theorem encDictOf_lookup_get (ins : List (List Nat)) (hnd : ins.Nodup)
    (k : Nat) (x : List Nat) (hk : ins.get? k = some x) :
    (encDictOf ins).lookup x = some (257 + k) := by
  unfold encDictOf
  rw [lookup_append, insAssocGo_lookup_get ins 257 k x hnd hk]

theorem encDictOf_lookup_none (ins : List (List Nat)) (x : List Nat)
    (h : (encDictOf ins).lookup x = none) :
    x ∉ ins ∧ ∀ b, b < 256 → x ≠ [b] := by
  unfold encDictOf at h
  rw [lookup_append] at h
  cases hl : (insAssocGo ins 257).lookup x with
  | some v => rw [hl] at h; exact Option.noConfusion h
  | none =>
      rw [hl] at h
      constructor
      · intro hc
        have := insAssocGo_lookup_mem ins 257 x hc
        rw [hl] at this
        simp at this
      · intro b hb hc
        rw [hc, initDict_lookup_single b hb] at h
        exact Option.noConfusion h

theorem encDictOf_lookup_some_char (ins : List (List Nat)) (x : List Nat)
    (code : Nat) (h : (encDictOf ins).lookup x = some code) :
    (x = [code] ∧ code < 256) ∨ (∃ k, ins.get? k = some x ∧ code = 257 + k) := by
  unfold encDictOf at h
  rw [lookup_append] at h
  cases hl : (insAssocGo ins 257).lookup x with
  | some v =>
      rw [hl] at h
      right
      obtain ⟨k, hk, hv⟩ := insAssocGo_lookup_some ins 257 x v hl
      refine ⟨k, hk, ?_⟩
      rw [← Option.some.inj h]
      exact hv
  | none =>
      rw [hl] at h
      left
      exact initDict_lookup_some x code h

theorem headD_append_ne {α : Type} (l m : List α) (a : α) (h : l ≠ []) :
    (l ++ m).headD a = l.headD a := by
  cases l with
  | nil => exact absurd rfl h
  | cons x xs => rfl

/-! ### Encoder loop invariant -/

/-- Invariant of `lzwLoop` at loop top, relating the encoder state `st`
(after consuming bytes `s` of the chunk and emitting codes `cs`, with
dictionary insertions `ins` in order) to the pure decoder state `d` that
results from replaying `cs`. -/
structure EncInv (st : LzwEncSt) (s : List Nat) (cs : List Nat)
    (ins : List (List Nat)) (d : DecSt) : Prop where
  count_eq : st.count = s.length
  dict_eq : st.dict = encDictOf ins
  cnt_eq : st.dictCount = 257 + ins.length
  writer_wf : wfW st.writer
  writer_bits : st.writer.bits = codesBits cs
  run : decRunP cs decInitP = some d
  out_el : d.out ++ st.element = s
  ins_codes : ins.length = cs.length
  link : ∀ k, k + 1 < ins.length → ins.get? k = d.extra.get? (k + 1)
  last_link : ins ≠ [] → ins.getLast? = some (d.w ++ [st.element.headD 0])
  el_ne : ins ≠ [] → st.element ≠ []
  empty_case : cs = [] → ins = [] ∧ st.element = s ∧ s.length ≤ 1 ∧ d = decInitP
  ins_len2 : ∀ x ∈ ins, 2 ≤ x.length
  ins_nodup : ins.Nodup
  el_mem : st.element = [] ∨ (st.dict.lookup st.element).isSome
  codes_lt : ∀ c ∈ cs, c < st.dictCount

theorem encInv_init : EncInv (lzwEncInit []) [] [] [] decInitP := by
  refine ⟨rfl, ?_, rfl, wfW_new, ?_, rfl, rfl, rfl, ?_, ?_, ?_, ?_, ?_, ?_, ?_, ?_⟩
  · show initDict = encDictOf []
    rfl
  · show BitWriterS.new.bits = codesBits []
    simp [BitWriterS.bits, BitWriterS.new, bytesBits, codesBits]
  · intro k hk
    simp at hk
  · intro h
    exact absurd rfl h
  · intro h
    exact absurd rfl h
  · intro _
    exact ⟨rfl, rfl, by simp, rfl⟩
  · intro x hx
    simp at hx
  · exact List.nodup_nil
  · left
    rfl
  · intro c hc
    simp at hc

theorem decRunP_counts (cs : List Nat) (d : DecSt)
    (h : decRunP cs decInitP = some d) :
    d.w ≠ [] ∧ (∀ e ∈ d.extra, e ≠ []) ∧ d.extra.length = cs.length := by
  have := decRunP_wf cs decInitP d h (by simp [decInitP]) (by simp [decInitP])
  simpa [decInitP] using this

/-- At an emit point: the code the encoder looks up for the current element
is resolved by the pure decoder to exactly that element, and pushes the
matching dictionary entry. -/
theorem element_code_spec (st : LzwEncSt) (s cs : List Nat)
    (ins : List (List Nat)) (d : DecSt)
    (hI : EncInv st s cs ins d) (hne : st.element ≠ []) :
    ∃ code, st.dict.lookup st.element = some code ∧ code < st.dictCount ∧
      decStepP d code = some ⟨d.extra ++ [d.w ++ [st.element.headD 0]],
        st.element, d.out ++ st.element⟩ := by
  obtain ⟨hwne, hxne, hxlen⟩ := decRunP_counts cs d hI.run
  have hmem := hI.el_mem
  rcases hmem with h1 | h1
  · exact absurd h1 hne
  · cases hlk : st.dict.lookup st.element with
    | none => rw [hlk] at h1; simp at h1
    | some code =>
        refine ⟨code, rfl, ?_, ?_⟩
        all_goals (
          rw [hI.dict_eq] at hlk
          rcases encDictOf_lookup_some_char ins st.element code hlk with
            ⟨hel, hcode⟩ | ⟨k, hk, hcode⟩)
        · rw [hI.cnt_eq]
          omega
        · have hklt : k < ins.length := by
            by_contra hc
            rw [List.get?_eq_none.mpr (by omega)] at hk
            exact Option.noConfusion hk
          rw [hI.cnt_eq]
          omega
        · -- single-byte element
          unfold decStepP decEntryP
          rw [if_pos hcode]
          rw [hel]
        · -- element is insert k
          have hklt : k < ins.length := by
            by_contra hc
            rw [List.get?_eq_none.mpr (by omega)] at hk
            exact Option.noConfusion hk
          unfold decStepP decEntryP
          rw [if_neg (by omega)]
          have hcm : code - 256 = k + 1 := by omega
          rw [hcm]
          by_cases hlast : k + 1 < ins.length
          · -- interior insert: the decoder dictionary has it
            have hget : d.extra.get? (k + 1) = some st.element := by
              rw [← hI.link k (by omega)]
              exact hk
            rw [hget]
          · -- last insert: the self-reference case
            have hkeq : k + 1 = ins.length := by omega
            have hnone : d.extra.get? (k + 1) = none := by
              rw [List.get?_eq_none.mpr (by rw [hxlen, ← hI.ins_codes]; omega)]
            rw [hnone]
            have hinsne : ins ≠ [] := by
              intro hc
              rw [hc] at hklt
              simp at hklt
            have hlastv := hI.last_link hinsne
            have hgetlast : ins.get? k = ins.getLast? := by
              rw [List.getLast?_eq_getElem?, List.get?_eq_getElem?]
              congr 1
              omega
            have helval : st.element = d.w ++ [st.element.headD 0] := by
              have h2 : some st.element = some (d.w ++ [st.element.headD 0]) := by
                rw [← hk, hgetlast, hlastv]
              exact Option.some.inj h2
            have hcond : code = 256 + d.extra.length := by
              rw [hxlen, ← hI.ins_codes]
              omega
            rw [if_pos hcond]
            have hheads : d.w.headD 0 = st.element.headD 0 := by
              conv_rhs => rw [helval]
              rw [headD_append_ne d.w _ 0 hwne]
            have hentryeq : d.w ++ [d.w.headD 0] = st.element := by
              rw [hheads, ← helval]
            rw [hentryeq]

theorem codesBits_singleton (c : Nat) : codesBits [c] = codeBits c := by
  simp [codesBits]

theorem lookup_cons_ne {α β : Type} [BEq α] (a k : α) (v : β) (l : List (α × β))
    (h : (a == k) = false) : List.lookup a ((k, v) :: l) = List.lookup a l := by
  simp [List.lookup, h]

/-- The outcome of the `for c in data` loop when the dictionary fills:
the chunk stops with `count` input bytes accounted for by the emitted
codes, and the last processed byte is rewound. -/
def LzwBreakOut (res : LzwEncSt) (s data : List Nat) : Prop :=
  ∃ t rest cB cs2 d2,
    data = t ++ rest ∧ t ≠ [] ∧ cs2 ≠ [] ∧
    s ++ t = d2.out ++ [cB] ∧
    decRunP cs2 decInitP = some d2 ∧
    (∀ c2 ∈ cs2, c2 < 0x3FFFE) ∧
    wfW res.writer ∧
    res.writer.bits = codesBits cs2 ∧
    res.count = d2.out.length ∧
    res.dictCount = 0x3FFFE

/-- The `for c in data` loop of `compress_lzw` preserves the invariant; it
either consumes all of `data` (staying under the dictionary limit) or
breaks with the dictionary exactly full. -/
theorem lzwLoop_run (data : List Nat) :
    ∀ (st : LzwEncSt) (s cs : List Nat) (ins : List (List Nat)) (d : DecSt),
    (∀ b ∈ data, b < 256) →
    EncInv st s cs ins d →
    st.dictCount < 0x3FFFE →
    (∃ cs2 ins2 d2, EncInv (lzwLoop data st) (s ++ data) cs2 ins2 d2 ∧
        (lzwLoop data st).dictCount < 0x3FFFE)
    ∨ LzwBreakOut (lzwLoop data st) s data := by
  induction data with
  | nil =>
      intro st s cs ins d _ hI hcnt
      left
      exact ⟨cs, ins, d, by simpa using hI, hcnt⟩
  | cons c rest ih =>
      intro st s cs ins d hb hI hcnt
      have hc256 : c < 256 := hb c (by simp)
      have hbrest : ∀ b ∈ rest, b < 256 := fun b hb2 => hb b (by simp [hb2])
      obtain ⟨hwne, hxne, hxlen⟩ := decRunP_counts cs d hI.run
      cases hlk : (st.dict.lookup (st.element ++ [c])).isSome with
      | true =>
          -- the entry is already in the dictionary: extend the element
          have hloop : lzwLoop (c :: rest) st
              = lzwLoop rest { st with element := st.element ++ [c],
                                       count := st.count + 1 } := by
            simp only [lzwLoop]
            rw [if_pos hlk, if_neg (by simpa using by omega : ¬ (st.dictCount ≥ 0x3FFFE))]
          rw [hloop]
          have hI2 : EncInv { st with element := st.element ++ [c], count := st.count + 1 }
              (s ++ [c]) cs ins d := by
            refine ⟨?_, hI.dict_eq, hI.cnt_eq, hI.writer_wf, hI.writer_bits, hI.run,
              ?_, hI.ins_codes, hI.link, ?_, ?_, ?_, hI.ins_len2, hI.ins_nodup, ?_, ?_⟩
            · show st.count + 1 = (s ++ [c]).length
              rw [hI.count_eq]
              simp
            · show d.out ++ (st.element ++ [c]) = s ++ [c]
              rw [← List.append_assoc, hI.out_el]
            · intro hne
              have h1 := hI.last_link hne
              have h2 := hI.el_ne hne
              show ins.getLast? = some (d.w ++ [(st.element ++ [c]).headD 0])
              rw [headD_append_ne st.element [c] 0 h2]
              exact h1
            · intro hne
              show st.element ++ [c] ≠ []
              simp
            · intro hcs
              obtain ⟨hins, hel, hlen, hd⟩ := hI.empty_case hcs
              have hs : s = [] := by
                by_contra hsne
                have hlen1 : st.element.length = 1 := by
                  rw [hel]
                  cases s with
                  | nil => exact absurd rfl hsne
                  | cons a l =>
                      simp only [List.length_cons] at hlen ⊢
                      omega
                have hlen2 : (st.element ++ [c]).length = 2 := by
                  simp [hlen1]
                have : st.dict.lookup (st.element ++ [c]) = none := by
                  rw [hI.dict_eq, hins]
                  show (encDictOf []).lookup (st.element ++ [c]) = none
                  unfold encDictOf insAssocGo
                  show initDict.lookup (st.element ++ [c]) = none
                  exact initDict_lookup_long _ (by omega)
                rw [this] at hlk
                simp at hlk
              refine ⟨hins, ?_, ?_, hd⟩
              · show st.element ++ [c] = s ++ [c]
                rw [hel]
              · rw [hs]
                simp
            · right
              show (st.dict.lookup (st.element ++ [c])).isSome
              rw [hlk]
            · exact hI.codes_lt
          have hres := ih _ (s ++ [c]) cs ins d hbrest hI2 (by simpa using hcnt)
          rcases hres with ⟨cs2, ins2, d2, hI3, hcnt3⟩ | hbreak
          · left
            refine ⟨cs2, ins2, d2, ?_, hcnt3⟩
            rw [show s ++ c :: rest = (s ++ [c]) ++ rest by simp]
            exact hI3
          · right
            obtain ⟨t, rest2, cB, cs2, d2, hd1, hd2, hd3, hd4, hd5, hd6, hd7, hd8, hd9, hd10⟩ :=
              hbreak
            refine ⟨c :: t, rest2, cB, cs2, d2, ?_, by simp, hd3, ?_, hd5, hd6, hd7, hd8,
              hd9, hd10⟩
            · rw [hd1]
              rfl
            · rw [show s ++ c :: t = (s ++ [c]) ++ t by simp]
              exact hd4
      | false =>
          -- emit the code for the element, insert the new entry
          have helne : st.element ≠ [] := by
            intro hel
            have : st.dict.lookup (st.element ++ [c]) = some c := by
              rw [hel, hI.dict_eq]
              show (encDictOf ins).lookup [c] = some c
              exact encDictOf_lookup_single ins hI.ins_len2 c hc256
            rw [this] at hlk
            simp at hlk
          obtain ⟨code, hlkel, hcode, hstepP⟩ := element_code_spec st s cs ins d hI helne
          have hlknone : st.dict.lookup (st.element ++ [c]) = none := by
            cases h2 : st.dict.lookup (st.element ++ [c]) with
            | none => rfl
            | some v => rw [h2] at hlk; simp at hlk
          have hfresh := encDictOf_lookup_none ins (st.element ++ [c])
            (by rw [← hI.dict_eq]; exact hlknone)
          set entry := st.element ++ [c] with hentrydef
          set d2 : DecSt := { extra := d.extra ++ [d.w ++ [st.element.headD 0]],
                              w := st.element, out := d.out ++ st.element } with hd2def
          set st2 : LzwEncSt :=
            { dict := (entry, st.dictCount) :: st.dict,
              dictCount := st.dictCount + 1,
              element := [c],
              count := st.count + 1,
              writer := writeCodeBit st.writer ((st.dict.lookup st.element).getD 0) }
            with hst2def
          have hgetd : (st.dict.lookup st.element).getD 0 = code := by
            rw [hlkel]
            rfl
          obtain ⟨hwwf2, hwbits2⟩ := writeCodeBit_spec st.writer hI.writer_wf
            ((st.dict.lookup st.element).getD 0)
          have hwbits3 : st2.writer.bits = codesBits (cs ++ [code]) := by
            show (writeCodeBit st.writer ((st.dict.lookup st.element).getD 0)).bits = _
            rw [hwbits2, hI.writer_bits, hgetd, codesBits_append, codesBits_singleton]
          have hrun2 : decRunP (cs ++ [code]) decInitP = some d2 := by
            rw [decRunP_append, hI.run]
            show decRunP [code] d = some d2
            simp only [decRunP]
            rw [hstepP]
          have hout2 : d2.out = s := by
            show d.out ++ st.element = s
            exact hI.out_el
          have hentlen : 2 ≤ entry.length := by
            rw [hentrydef]
            cases hel2 : st.element with
            | nil => exact absurd hel2 helne
            | cons a l => simp
          have hcodes2 : ∀ c2 ∈ cs ++ [code], c2 < st.dictCount + 1 := by
            intro c2 hc2
            rcases List.mem_append.mp hc2 with h2 | h2
            · have := hI.codes_lt c2 h2
              omega
            · rcases List.mem_singleton.mp h2 with rfl
              omega
          by_cases hbr : st.dictCount + 1 ≥ 0x3FFFE
          · -- dictionary full: break with the byte rewound
            have hloop : lzwLoop (c :: rest) st = { st2 with count := st2.count - 1 } := by
              simp only [lzwLoop, ← hentrydef, hlk, Bool.false_eq_true, if_false, hst2def]
              rw [if_pos (show st.dictCount + 1 ≥ 0x3FFFE from hbr)]
            rw [hloop]
            right
            refine ⟨[c], rest, c, cs ++ [code], d2, rfl, by simp, by simp, ?_, hrun2,
              ?_, hwwf2, hwbits3, ?_, ?_⟩
            · rw [hout2]
            · intro c2 hc2
              have := hcodes2 c2 hc2
              omega
            · show st.count + 1 - 1 = d2.out.length
              rw [hout2, hI.count_eq]
              omega
            · show st.dictCount + 1 = 0x3FFFE
              omega
          · -- dictionary not yet full: continue the loop
            have hloop : lzwLoop (c :: rest) st = lzwLoop rest st2 := by
              simp only [lzwLoop, ← hentrydef, hlk, Bool.false_eq_true, if_false, hst2def]
              rw [if_neg (show ¬ st.dictCount + 1 ≥ 0x3FFFE from by omega)]
            rw [hloop]
            have hI2 : EncInv st2 (s ++ [c]) (cs ++ [code]) (ins ++ [entry]) d2 := by
              refine ⟨?_, ?_, ?_, hwwf2, hwbits3, hrun2, ?_, ?_, ?_, ?_, ?_, ?_, ?_, ?_,
                ?_, ?_⟩
              · show st.count + 1 = (s ++ [c]).length
                rw [hI.count_eq]
                simp
              · show (entry, st.dictCount) :: st.dict = encDictOf (ins ++ [entry])
                rw [encDictOf_snoc, hI.dict_eq, hI.cnt_eq]
              · show st.dictCount + 1 = 257 + (ins ++ [entry]).length
                rw [hI.cnt_eq]
                simp only [List.length_append, List.length_singleton]
                omega
              · show d2.out ++ [c] = s ++ [c]
                rw [hout2]
              · show (ins ++ [entry]).length = (cs ++ [code]).length
                simp [hI.ins_codes]
              · -- link
                intro k hk
                simp only [List.length_append, List.length_singleton] at hk
                have hinl : ins.length = d.extra.length := by
                  rw [hI.ins_codes, hxlen]
                by_cases hkin : k + 1 < ins.length
                · have h1 := hI.link k hkin
                  have h2 : (ins ++ [entry]).get? k = ins.get? k := by
                    rw [List.get?_eq_getElem?, List.get?_eq_getElem?,
                        List.getElem?_append_left (by omega)]
                  have h3 : d2.extra.get? (k + 1) = d.extra.get? (k + 1) := by
                    show (d.extra ++ [d.w ++ [st.element.headD 0]]).get? (k + 1) = _
                    rw [List.get?_eq_getElem?, List.get?_eq_getElem?,
                        List.getElem?_append_left (by omega)]
                  rw [h2, h3]
                  exact h1
                · have hkeq : k + 1 = ins.length := by omega
                  have hinsne : ins ≠ [] := by
                    intro hcn
                    rw [hcn] at hkeq
                    simp at hkeq
                  have h2 : (ins ++ [entry]).get? k = ins.getLast? := by
                    rw [List.get?_eq_getElem?,
                        List.getElem?_append_left (by omega),
                        List.getLast?_eq_getElem?]
                    congr 1
                    omega
                  have h3 : d2.extra.get? (k + 1)
                      = some (d.w ++ [st.element.headD 0]) := by
                    show (d.extra ++ [d.w ++ [st.element.headD 0]]).get? (k + 1) = _
                    rw [List.get?_eq_getElem?,
                        List.getElem?_append_right (by omega)]
                    have hidx : k + 1 - d.extra.length = 0 := by omega
                    rw [hidx]
                    rfl
                  rw [h2, h3, hI.last_link hinsne]
              · -- last_link
                intro _
                show (ins ++ [entry]).getLast? = some (d2.w ++ [([c] : List Nat).headD 0])
                rw [List.getLast?_concat]
                show some entry = some (st.element ++ [c])
                rfl
              · intro _
                show ([c] : List Nat) ≠ []
                simp
              · intro hcs
                exact absurd hcs (by simp)
              · intro x hx
                rcases List.mem_append.mp hx with h2 | h2
                · exact hI.ins_len2 x h2
                · rcases List.mem_singleton.mp h2 with rfl
                  exact hentlen
              · rw [List.nodup_append]
                refine ⟨hI.ins_nodup, by simp, ?_⟩
                intro a ha hamem
                rcases List.mem_singleton.mp hamem with rfl
                exact hfresh.1 ha
              · right
                show (List.lookup [c] ((entry, st.dictCount) :: st.dict)).isSome
                have hne2 : (([c] : List Nat) == entry) = false := by
                  rw [beq_eq_false_iff_ne]
                  intro hcn
                  rw [← hcn] at hentlen
                  simp at hentlen
                rw [lookup_cons_ne _ _ _ _ hne2, hI.dict_eq,
                    encDictOf_lookup_single ins hI.ins_len2 c hc256]
                rfl
              · exact hcodes2
            have hres := ih st2 (s ++ [c]) (cs ++ [code]) (ins ++ [entry]) d2 hbrest hI2
              (by show st.dictCount + 1 < 0x3FFFE; omega)
            rcases hres with ⟨cs3, ins3, d3, hI3, hcnt3⟩ | hbreak
            · left
              refine ⟨cs3, ins3, d3, ?_, hcnt3⟩
              rw [show s ++ c :: rest = (s ++ [c]) ++ rest by simp]
              exact hI3
            · right
              obtain ⟨t, rest2, cB, cs3, d3, hd1, hd2b, hd3, hd4, hd5, hd6, hd7, hd8,
                hd9, hd10⟩ := hbreak
              refine ⟨c :: t, rest2, cB, cs3, d3, ?_, by simp, hd3, ?_, hd5, hd6, hd7,
                hd8, hd9, hd10⟩
              · rw [hd1]
                rfl
              · rw [show s ++ c :: t = (s ++ [c]) ++ t by simp]
                exact hd4

/-- The pure decoder emits at least one byte per code. -/
theorem decRunP_out_len (codes : List Nat) (st st2 : DecSt)
    (h : decRunP codes st = some st2)
    (hw : st.w ≠ []) (hx : ∀ e ∈ st.extra, e ≠ []) :
    st.out.length + codes.length ≤ st2.out.length := by
  induction codes generalizing st with
  | nil =>
      cases h
      simp
  | cons c rest ih =>
      simp only [decRunP] at h
      cases hstep : decStepP st c with
      | none =>
          rw [hstep] at h
          simp at h
      | some st1 =>
          rw [hstep] at h
          obtain ⟨hw1, hx1, _, hout⟩ := decStepP_some st c st1 hstep hw hx
          have h2 := ih st1 h hw1 hx1
          have h3 : 1 ≤ st1.w.length := List.length_pos.mpr hw1
          have h4 : st1.out.length = st.out.length + st1.w.length := by
            rw [hout]
            simp
          simp only [List.length_cons]
          omega

/-- A flushed writer holding exactly the framed code sequence `cs` is
decoded by `decompress_lzw` to the pure decoder output for `cs`. -/
theorem payload_decodes (w : BitWriterS) (cs : List Nat) (d : DecSt)
    (hwf : wfW w) (hbits : w.bits = codesBits cs)
    (hcs : cs ≠ []) (hcodes : ∀ c ∈ cs, c < 0x3FFFE)
    (hrun : decRunP cs decInitP = some d) (size : Nat) :
    decompressLzw w.flush.output size = .ok d.out := by
  obtain ⟨hfb, hfl⟩ := flush_spec w hwf.1
  rw [hbits] at hfb hfl
  have hpne : w.flush.output ≠ [] := by
    intro hnil
    rw [hnil] at hfl
    simp at hfl
  obtain ⟨r, hnew, hinv⟩ := rdInv_new w.flush.output hpne
  have hlift : liftDec decInitP r
      = { dict := decInitDict, dictCount := 256, w := [0], result := [],
          reader := r } := by
    simp [liftDec, decInitP]
  have hge := codesBits_length_ge cs
  have hlcs : 1 ≤ cs.length := List.length_pos.mpr hcs
  have hdrop : (bytesBits w.flush.output).drop 0
      = codesBits cs ++ (bytesBits w.flush.output).drop (codesBits cs).length := by
    rw [List.drop_zero, hfb, List.drop_left]
  have hadq := decLoopAdequate w.flush.output (codesBits cs).length hfl cs
      (w.flush.output.length + 1) decInitP d r 0 hinv (by simp) hdrop hcodes
      (by omega) (by simp [decInitP]) (by simp [decInitP]) hrun
  have hgoal : decompressLzw w.flush.output size
      = decompressLzwLoop (w.flush.output.length + 1) w.flush.output.length
          { dict := decInitDict, dictCount := 256, w := [0], result := [],
            reader := r } := by
    unfold decompressLzw
    rw [hnew]
  rw [hgoal, ← hlift]
  exact hadq

/-- The carry argument of `compress_lzw` is dead: `element` is seeded with
`last` only when `last` is empty. -/
theorem compressLzw_carry (data last : List Nat) :
    compressLzw data last = compressLzw data [] := by
  cases last <;> rfl

/-- An exhausted input produces a zero-count chunk, which stops the
chunking loop of `compress`. -/
theorem compressLzw_nil (last : List Nat) : (compressLzw [] last).1 = 0 := by
  cases last <;> rfl

/-- One chunk of `compress_lzw` on a nonempty input: it consumes a nonempty
prefix of the input, reports its length as the count, and its payload
decompresses to exactly that prefix. -/
theorem compressLzw_roundtrip (data : List Nat) (hne : data ≠ [])
    (hb : ∀ b ∈ data, b < 256) :
    ∃ out suffix, out ≠ [] ∧ out ++ suffix = data ∧
      (compressLzw data []).1 = out.length ∧
      (compressLzw data []).2.1.length ≤ 3 * out.length + 1 ∧
      ∀ size, decompressLzw (compressLzw data []).2.1 size = .ok out := by
  have hstart : (lzwEncInit ([] : List Nat)).dictCount < 0x3FFFE := by
    show (257 : Nat) < 0x3FFFE
    omega
  rcases lzwLoop_run data (lzwEncInit []) [] [] [] decInitP hb encInv_init hstart with
    ⟨cs, ins, d, hI, hcnt⟩ | hbreak
  · -- the loop consumed all of `data` without filling the dictionary
    set st := lzwLoop data (lzwEncInit ([] : List Nat)) with hstdef
    rw [List.nil_append] at hI
    by_cases hcs : cs = []
    · -- no code was emitted: `data` is a single byte, handled by the
      -- `byte_size == 0` branch which writes its single-byte code
      subst hcs
      obtain ⟨hins, hel, hlen1, hd⟩ := hI.empty_case rfl
      subst hd
      obtain ⟨b, hdata⟩ : ∃ b, data = [b] := by
        cases data with
        | nil => exact absurd rfl hne
        | cons b l =>
            cases l with
            | nil => exact ⟨b, rfl⟩
            | cons b2 l2 => simp at hlen1
      have hblt : b < 256 := hb b (by rw [hdata]; simp)
      have hbs : st.writer.byteSize = 0 := by
        have h1 := hI.writer_wf.2
        rw [hI.writer_bits] at h1
        simpa [codesBits] using h1
      have hdict : st.dict = initDict := by
        rw [hI.dict_eq, hins]
        rfl
      have hlkb : st.dict.lookup [b] = some b := by
        rw [hdict]
        exact initDict_lookup_single b hblt
      have hwspec := writeCodeBit_spec st.writer hI.writer_wf
        ((st.dict.lookup [b]).getD 0)
      have hgetd : (st.dict.lookup [b]).getD 0 = b := by
        rw [hlkb]
        rfl
      have hbitsnil : st.writer.bits = [] := by
        rw [hI.writer_bits]
        simp [codesBits]
      have hrun : decRunP [b] decInitP
          = some (DecSt.mk [[0, b]] [b] [b]) := by
        simp [decRunP, decStepP, decEntryP, decInitP, hblt]
      have hcomp : compressLzw data []
          = (st.count,
             (writeCodeBit st.writer ((st.dict.lookup [b]).getD 0)).flush.output,
             []) := by
        simp only [compressLzw, ite_self, ← hstdef]
        rw [if_pos (show (st.writer.byteSize == 0) = true by rw [hbs]; rfl)]
        rw [hel, hdata]
        rw [if_neg (show ¬ (([b] : List Nat).isEmpty = true) by simp)]
        simp only [List.foldl_cons, List.foldl_nil]
      have hbits1 : (writeCodeBit st.writer ((st.dict.lookup [b]).getD 0)).bits
          = codesBits [b] := by
        rw [hwspec.2, hbitsnil, hgetd]
        simp [codesBits]
      refine ⟨[b], [], by simp, by simp [hdata], ?_, ?_, ?_⟩
      · rw [hcomp]
        show st.count = [b].length
        rw [hI.count_eq, hdata]
      · rw [hcomp]
        show (writeCodeBit st.writer ((st.dict.lookup [b]).getD 0)).flush.output.length
            ≤ 3 * ([b] : List Nat).length + 1
        have hpl := payload_len_bound _ [b] hwspec.1 hbits1
        simp only [List.length_singleton] at hpl ⊢
        omega
      · intro size
        rw [hcomp]
        have hcodes1 : ∀ c2 ∈ [b], c2 < 0x3FFFE := by
          intro c2 hc2
          rcases List.mem_singleton.mp hc2 with rfl
          omega
        exact payload_decodes _ [b] _ hwspec.1 hbits1 (by simp) hcodes1 hrun size
    · -- at least one code was emitted: the `dictionary_count < limit`
      -- branch flushes the final element's code
      have hinsne : ins ≠ [] := by
        intro h0
        have h1 := hI.ins_codes
        rw [h0] at h1
        simp only [List.length_nil] at h1
        exact hcs (List.length_eq_zero.mp h1.symm)
      have helne : st.element ≠ [] := hI.el_ne hinsne
      obtain ⟨code, hlkel, hcode, hstep⟩ := element_code_spec st data cs ins d hI helne
      have hd3run : decRunP (cs ++ [code]) decInitP
          = some (DecSt.mk (d.extra ++ [d.w ++ [st.element.headD 0]]) st.element
              (d.out ++ st.element)) := by
        rw [decRunP_append, hI.run]
        show decRunP [code] d = _
        simp only [decRunP]
        rw [hstep]
      have hwspec := writeCodeBit_spec st.writer hI.writer_wf
        ((st.dict.lookup st.element).getD 0)
      have hgetd : (st.dict.lookup st.element).getD 0 = code := by
        rw [hlkel]
        rfl
      have hbits2 : (writeCodeBit st.writer ((st.dict.lookup st.element).getD 0)).bits
          = codesBits (cs ++ [code]) := by
        rw [hwspec.2, hI.writer_bits, hgetd, codesBits_append, codesBits_singleton]
      have hlcs : 1 ≤ cs.length := List.length_pos.mpr hcs
      have hge := codesBits_length_ge cs
      have hbsne : st.writer.byteSize ≠ 0 := by
        have h1 := hI.writer_wf.2
        rw [hI.writer_bits] at h1
        omega
      have hcodes2 : ∀ c2 ∈ cs ++ [code], c2 < 0x3FFFE := by
        intro c2 hc2
        rcases List.mem_append.mp hc2 with h2 | h2
        · have := hI.codes_lt c2 h2
          omega
        · rcases List.mem_singleton.mp h2 with rfl
          omega
      have hcomp : compressLzw data []
          = (st.count,
             (writeCodeBit st.writer ((st.dict.lookup st.element).getD 0)).flush.output,
             []) := by
        simp only [compressLzw, ite_self, ← hstdef]
        rw [if_neg (show ¬ ((st.writer.byteSize == 0) = true) by simp [hbsne])]
        rw [if_pos (show st.dictCount < 0x3FFFE from hcnt)]
        rw [if_neg (show ¬ (st.element.isEmpty = true) by simp [helne])]
      refine ⟨data, [], hne, by simp, ?_, ?_, ?_⟩
      · rw [hcomp]
        show st.count = data.length
        exact hI.count_eq
      · rw [hcomp]
        show (writeCodeBit st.writer ((st.dict.lookup st.element).getD 0)).flush.output.length
            ≤ 3 * data.length + 1
        have hpl := payload_len_bound _ (cs ++ [code]) hwspec.1 hbits2
        have hcsle : cs.length ≤ d.out.length := by
          have h1 := decRunP_out_len cs decInitP d hI.run (by simp [decInitP])
            (by simp [decInitP])
          have h0 : decInitP.out.length = 0 := rfl
          rw [h0] at h1
          omega
        have hlenout : d.out.length + st.element.length = data.length := by
          have := congrArg List.length hI.out_el
          simpa using this
        have helen1 : 1 ≤ st.element.length := List.length_pos.mpr helne
        simp only [List.length_append, List.length_singleton] at hpl
        omega
      · intro size
        rw [hcomp]
        have h3 := payload_decodes _ (cs ++ [code]) _ hwspec.1 hbits2 (by simp)
          hcodes2 hd3run size
        simpa [hI.out_el] using h3
  · -- the dictionary filled: the chunk ends early with a rewound byte
    set st := lzwLoop data (lzwEncInit ([] : List Nat)) with hstdef
    obtain ⟨t, rest, cB, cs2, d2, hd1, hd2, hd3, hd4, hd5, hd6, hd7, hd8, hd9, hd10⟩ :=
      hbreak
    rw [List.nil_append] at hd4
    have hlcs : 1 ≤ cs2.length := List.length_pos.mpr hd3
    have hge := codesBits_length_ge cs2
    have hbsne : st.writer.byteSize ≠ 0 := by
      have h1 := hd7.2
      rw [hd8] at h1
      omega
    have hcomp : compressLzw data [] = (st.count, st.writer.flush.output, st.element) := by
      simp only [compressLzw, ite_self, ← hstdef]
      rw [if_neg (show ¬ ((st.writer.byteSize == 0) = true) by simp [hbsne])]
      rw [if_neg (show ¬ (st.dictCount < 0x3FFFE) by rw [hd10]; omega)]
    have houtne : d2.out ≠ [] := by
      have h1 := decRunP_out_len cs2 decInitP d2 hd5 (by simp [decInitP])
        (by simp [decInitP])
      intro h0
      rw [h0] at h1
      have h2 : decInitP.out.length = 0 := rfl
      rw [h2] at h1
      simp only [List.length_nil] at h1
      omega
    refine ⟨d2.out, [cB] ++ rest, houtne, ?_, ?_, ?_, ?_⟩
    · rw [← List.append_assoc, ← hd4, hd1]
    · rw [hcomp]
      show st.count = d2.out.length
      exact hd9
    · rw [hcomp]
      show st.writer.flush.output.length ≤ 3 * d2.out.length + 1
      have hpl := payload_len_bound st.writer cs2 hd7 hd8
      have hcsle : cs2.length ≤ d2.out.length := by
        have h1 := decRunP_out_len cs2 decInitP d2 hd5 (by simp [decInitP])
          (by simp [decInitP])
        have h0 : decInitP.out.length = 0 := rfl
        rw [h0] at h1
        omega
      omega
    · intro size
      rw [hcomp]
      show decompressLzw st.writer.flush.output size = .ok d2.out
      exact payload_decodes st.writer cs2 d2 hd7 hd8 hd3 hd6 hd5 size

/-- The chunking loop of `compress`, run with enough fuel, emits a chunk
list whose payloads concatenate to the output buffer and which
`decompress` (at any position inside a larger buffer) decodes back to the
remaining input. -/
theorem compressLoop_spec (fuel : Nat) :
    ∀ (data : List Nat) (offset : Nat) (lst buf : List Nat) (info : CompressionInfo),
    (∀ b ∈ data, b < 256) → offset ≤ data.length → data.length - offset < fuel →
    ∃ bufR chunksR,
      compressLoop fuel data offset lst buf info
        = .ok (buf ++ bufR,
            ⟨info.chunkCount + chunksR.length, info.chunks ++ chunksR⟩) ∧
      (offset < data.length → chunksR ≠ []) ∧
      (∀ ci ∈ chunksR, ci.sizeRaw ≤ data.length - offset) ∧
      (∀ ci ∈ chunksR, ci.sizeCompressed ≤ 3 * ci.sizeRaw + 1) ∧
      chunksR.length ≤ data.length - offset ∧
      ∀ (pre suffix out : List Nat),
        decompressGo (pre ++ bufR ++ suffix) chunksR pre.length out
          = .ok (out ++ data.drop offset) := by
  induction fuel with
  | zero =>
      intro data offset lst buf info hb hoff hfuel
      omega
  | succ fuel ih =>
      intro data offset lst buf info hb hoff hfuel
      by_cases hoffeq : offset = data.length
      · -- input exhausted: the zero-count chunk ends the loop
        have hdropnil : data.drop offset = [] := by
          rw [hoffeq]
          exact List.drop_length data
        have hr0 : (compressLzw (data.drop offset) lst).1 = 0 := by
          rw [hdropnil]
          exact compressLzw_nil lst
        have hstop : compressLoop (fuel + 1) data offset lst buf info
            = .ok (buf, info) := by
          simp only [compressLoop]
          rw [if_pos hr0]
        refine ⟨[], [], ?_, ?_, ?_, ?_, ?_, ?_⟩
        · rw [hstop]
          simp
        · intro h
          omega
        · intro ci hci
          simp at hci
        · intro ci hci
          simp at hci
        · simp
        · intro pre suffix out
          rw [hdropnil]
          simp [decompressGo]
      · -- another nonempty chunk
        have hofflt : offset < data.length := by omega
        have hdropne : data.drop offset ≠ [] := by
          intro h0
          have := congrArg List.length h0
          simp only [List.length_drop, List.length_nil] at this
          omega
        have hbdrop : ∀ b ∈ data.drop offset, b < 256 := by
          intro b hbm
          exact hb b (List.mem_of_mem_drop hbm)
        obtain ⟨out1, suffix1, hout1ne, hsplit, hcount, hplb, hdec⟩ :=
          compressLzw_roundtrip (data.drop offset) hdropne hbdrop
        have hcarry : compressLzw (data.drop offset) lst
            = compressLzw (data.drop offset) [] := compressLzw_carry _ _
        set r := compressLzw (data.drop offset) [] with hrdef
        have hlout1 : 1 ≤ out1.length := List.length_pos.mpr hout1ne
        have hlens : out1.length + suffix1.length = data.length - offset := by
          have h1 := congrArg List.length hsplit
          simp only [List.length_append, List.length_drop] at h1
          exact h1
        have hne0 : ¬ r.1 = 0 := by
          rw [hcount]
          omega
        have hunfold : compressLoop (fuel + 1) data offset lst buf info
            = compressLoop fuel data (offset + r.1) r.2.2 (buf ++ r.2.1)
                ⟨info.chunkCount + 1, info.chunks ++ [⟨r.2.1.length, r.1⟩]⟩ := by
          simp only [compressLoop, hcarry, ← hrdef]
          rw [if_neg hne0]
        obtain ⟨bufR2, chunksR2, hloop2, hne2, hsz2, hsc2, hcnt2, hdec2⟩ :=
          ih data (offset + r.1) r.2.2 (buf ++ r.2.1)
            ⟨info.chunkCount + 1, info.chunks ++ [⟨r.2.1.length, r.1⟩]⟩ hb
            (by rw [hcount]; omega) (by rw [hcount]; omega)
        refine ⟨r.2.1 ++ bufR2, ⟨r.2.1.length, r.1⟩ :: chunksR2, ?_, ?_, ?_, ?_, ?_, ?_⟩
        · rw [hunfold, hloop2]
          have harith : info.chunkCount + 1 + chunksR2.length
              = info.chunkCount + (chunksR2.length + 1) := by omega
          simp only [List.append_assoc, List.singleton_append, List.length_cons, harith]
        · intro _
          simp
        · intro ci hci
          rcases List.mem_cons.mp hci with rfl | h2
          · show r.1 ≤ data.length - offset
            rw [hcount]
            omega
          · have := hsz2 ci h2
            omega
        · intro ci hci
          rcases List.mem_cons.mp hci with rfl | h2
          · show r.2.1.length ≤ 3 * r.1 + 1
            rw [hcount]
            exact hplb
          · exact hsc2 ci h2
        · simp only [List.length_cons]
          have := hcnt2
          rw [hcount] at *
          omega
        · intro pre suffix out
          have hin : pre ++ (r.2.1 ++ bufR2) ++ suffix
              = pre ++ (r.2.1 ++ (bufR2 ++ suffix)) := by
            simp
          rw [hin]
          have hdropin : (pre ++ (r.2.1 ++ (bufR2 ++ suffix))).drop pre.length
              = r.2.1 ++ (bufR2 ++ suffix) := List.drop_left _ _
          have htakein : (r.2.1 ++ (bufR2 ++ suffix)).take r.2.1.length = r.2.1 :=
            List.take_left _ _
          have hstep : decompressGo (pre ++ (r.2.1 ++ (bufR2 ++ suffix)))
                (⟨r.2.1.length, r.1⟩ :: chunksR2) pre.length out
              = decompressGo (pre ++ (r.2.1 ++ (bufR2 ++ suffix))) chunksR2
                (pre.length + r.2.1.length) (out ++ out1) := by
            simp only [decompressGo]
            rw [hdropin, htakein]
            rw [if_neg (show ¬ (r.2.1.length < r.2.1.length) by omega)]
            rw [hdec r.1]
          rw [hstep]
          have h2 := hdec2 (pre ++ r.2.1) suffix (out ++ out1)
          have hin2 : pre ++ r.2.1 ++ bufR2 ++ suffix
              = pre ++ (r.2.1 ++ (bufR2 ++ suffix)) := by
            simp
          have hlen2 : (pre ++ r.2.1).length = pre.length + r.2.1.length := by
            simp
          rw [hin2, hlen2] at h2
          rw [h2]
          have hsuffix : data.drop (offset + out1.length) = suffix1 := by
            have h3 : (data.drop offset).drop out1.length
                = data.drop (offset + out1.length) := List.drop_drop _ _ _
            rw [← h3, ← hsplit, List.drop_left]
          rw [hcount, hsuffix, ← hsplit]
          simp

/-- C2: LZW round-trip.  For every non-empty byte sequence, `compress`
succeeds, and `decompress` on its output buffer with its chunk index
returns exactly the original input (the error-recovery path is never
taken). -/
theorem C2_theorem (data : List Nat) (hne : data ≠ [])
    (hb : ∀ b ∈ data, b < 256) :
    ∃ buf info, compress data = .ok (buf, info)
      ∧ decompress buf info = .ok data := by
  obtain ⟨bufR, chunksR, hloop, hchne, _, _, _, hdec⟩ :=
    compressLoop_spec (data.length + 1) data 0 [] [] ⟨0, []⟩ hb (by omega) (by omega)
  have hchne2 : chunksR ≠ [] := hchne (List.length_pos.mpr hne)
  have hchlen : 1 ≤ chunksR.length := List.length_pos.mpr hchne2
  refine ⟨bufR, ⟨chunksR.length, chunksR⟩, ?_, ?_⟩
  · have h1 : compress data
        = if 0 + chunksR.length = 0 then Except.error CompressionError.noChunks
          else .ok ([] ++ bufR, ⟨0 + chunksR.length, [] ++ chunksR⟩) := by
      unfold compress
      rw [hloop]
    rw [h1, if_neg (by omega)]
    simp
  · have h2 := hdec [] [] []
    simp only [List.nil_append, List.append_nil, List.length_nil, List.drop_zero] at h2
    unfold decompress
    exact h2

/-- C2 witness: a concrete three-byte round trip. -/
theorem C2_witness : ∃ buf info, compress [1, 2, 3] = .ok (buf, info)
    ∧ decompress buf info = .ok [1, 2, 3] :=
  C2_theorem [1, 2, 3] (by decide) (by decide)

theorem encDictOf_lookup_mem (ins : List (List Nat)) (x : List Nat) (hx : x ∈ ins) :
    ((encDictOf ins).lookup x).isSome = true := by
  unfold encDictOf
  rw [lookup_append]
  have h1 := insAssocGo_lookup_mem ins 257 x hx
  cases hl : (insAssocGo ins 257).lookup x with
  | none =>
      rw [hl] at h1
      simp at h1
  | some v => rfl

theorem encDictOf_lookup_none_of (ins : List (List Nat)) (x : List Nat)
    (hnm : x ∉ ins) (hlen : x.length ≠ 1) :
    (encDictOf ins).lookup x = none := by
  unfold encDictOf
  rw [lookup_append, insAssocGo_lookup_notmem ins 257 x hnm,
      initDict_lookup_long x hlen]

/-- The first component of every exit branch of `compress_lzw` is the loop
state's `count`. -/
theorem compressLzw_fst (data : List Nat) :
    (compressLzw data []).1 = (lzwLoop data (lzwEncInit [])).count := by
  simp only [compressLzw, ite_self]
  split
  · split
    · rfl
    · rfl
  · split
    · split
      · rfl
      · rfl
    · rfl

/-- The dictionary entries created while encoding a run of zero bytes:
`0^2, 0^3, …, 0^(m+1)`. -/
def zeroIns (m : Nat) : List (List Nat) :=
  (List.range m).map (fun i => List.replicate (i + 2) 0)

theorem zeroIns_length (m : Nat) : (zeroIns m).length = m := by
  simp [zeroIns]

theorem zeroIns_zero : zeroIns 0 = [] := by
  simp [zeroIns]

theorem zeroIns_snoc (m : Nat) :
    zeroIns (m + 1) = zeroIns m ++ [List.replicate (m + 2) 0] := by
  simp [zeroIns, List.range_succ]

theorem zeroIns_mem (m i : Nat) (h2 : 2 ≤ i) (hle : i ≤ m + 1) :
    List.replicate i 0 ∈ zeroIns m := by
  simp only [zeroIns, List.mem_map]
  refine ⟨i - 2, List.mem_range.mpr (by omega), ?_⟩
  congr 1
  omega

theorem zeroIns_not_mem (m : Nat) :
    List.replicate (m + 2) 0 ∉ zeroIns m := by
  simp only [zeroIns, List.mem_map]
  rintro ⟨i, hi, heq⟩
  have hl := congrArg List.length heq
  simp only [List.length_replicate] at hl
  rw [List.mem_range] at hi
  omega

theorem zeroIns_len2 (m : Nat) : ∀ x ∈ zeroIns m, 2 ≤ x.length := by
  intro x hx
  simp only [zeroIns, List.mem_map] at hx
  obtain ⟨i, _, heq⟩ := hx
  rw [← heq]
  simp

/-- On an all-zero input the encoder loop never fills the dictionary (the
run lengths grow, so `m` dictionary inserts need about `m²/2` input bytes),
and hence counts every input byte.  The budget hypothesis tracks the
potential `m(m+1) + 2j`, which grows by exactly 2 per input byte. -/
theorem zeros_count (n : Nat) :
    ∀ (st : LzwEncSt) (j m : Nat),
    st.element = List.replicate j 0 →
    st.dict = encDictOf (zeroIns m) →
    st.dictCount = 257 + m →
    j ≤ m + 1 →
    m * (m + 1) + 2 * j + 2 * n ≤ 1048576 →
    (lzwLoop (List.replicate n 0) st).count = st.count + n := by
  induction n with
  | zero =>
      intro st j m _ _ _ _ _
      rfl
  | succ n ih =>
      intro st j m hel hdict hdc hjm hbud
      have hm1023 : m ≤ 1023 := by
        by_contra hcon
        push_neg at hcon
        have h2 : 1024 * 1025 ≤ m * (m + 1) :=
          Nat.mul_le_mul (by omega) (by omega)
        omega
      rw [List.replicate_succ]
      by_cases hje : j ≤ m
      · -- the longer zero run is still in the dictionary: extend
        have hlk : ((st.dict.lookup (st.element ++ [0])).isSome) = true := by
          rw [hel, ← List.replicate_succ', hdict]
          by_cases hj0 : j = 0
          · subst hj0
            have h01 : List.replicate (0 + 1) 0 = [0] := by simp
            rw [h01, encDictOf_lookup_single _ (zeroIns_len2 m) 0 (by omega)]
            rfl
          · exact encDictOf_lookup_mem _ _ (zeroIns_mem m (j + 1) (by omega) (by omega))
        have hloop : lzwLoop (0 :: List.replicate n 0) st
            = lzwLoop (List.replicate n 0)
                { st with element := st.element ++ [0], count := st.count + 1 } := by
          simp only [lzwLoop]
          rw [if_pos hlk, if_neg (by simpa using by omega : ¬ (st.dictCount ≥ 0x3FFFE))]
        rw [hloop]
        have h2 := ih { st with element := st.element ++ [0], count := st.count + 1 }
          (j + 1) m
          (by show st.element ++ [0] = _; rw [hel, ← List.replicate_succ'])
          hdict hdc (by omega) (by omega)
        rw [h2]
        show st.count + 1 + n = st.count + (n + 1)
        omega
      · -- run length exceeds the longest entry: emit and insert
        have hjeq : j = m + 1 := by omega
        have hj2 : j + 1 = m + 2 := by omega
        have hlknone : st.dict.lookup (st.element ++ [0]) = none := by
          rw [hel, ← List.replicate_succ', hdict, hj2]
          exact encDictOf_lookup_none_of _ _ (zeroIns_not_mem m) (by simp)
        have hlk : ((st.dict.lookup (st.element ++ [0])).isSome) = false := by
          rw [hlknone]
          rfl
        have hloop : lzwLoop (0 :: List.replicate n 0) st
            = lzwLoop (List.replicate n 0)
                (LzwEncSt.mk ((st.element ++ [0], st.dictCount) :: st.dict)
                  (st.dictCount + 1) [0] (st.count + 1)
                  (writeCodeBit st.writer ((st.dict.lookup st.element).getD 0))) := by
          simp only [lzwLoop, hlk, Bool.false_eq_true, if_false]
          rw [if_neg (show ¬ st.dictCount + 1 ≥ 0x3FFFE from by omega)]
        rw [hloop]
        have hdict2 : (st.element ++ [0], st.dictCount) :: st.dict
            = encDictOf (zeroIns (m + 1)) := by
          rw [zeroIns_snoc, encDictOf_snoc, zeroIns_length, hel,
              ← List.replicate_succ', hj2, hdc, hdict]
        have hexp : (m + 1) * (m + 1 + 1) = m * (m + 1) + 2 * m + 2 := by ring
        have h2 := ih (LzwEncSt.mk ((st.element ++ [0], st.dictCount) :: st.dict)
            (st.dictCount + 1) [0] (st.count + 1)
            (writeCodeBit st.writer ((st.dict.lookup st.element).getD 0)))
          1 (m + 1)
          (by show ([0] : List Nat) = _; simp)
          hdict2
          (by show st.dictCount + 1 = 257 + (m + 1); omega)
          (by omega) (by omega)
        rw [h2]
        show st.count + 1 + n = st.count + (n + 1)
        omega

/-- The single chunk produced for 262142 zero bytes counts all of them. -/
theorem zeros_chunk_count :
    (compressLzw (List.replicate 262142 0) []).1 = 262142 := by
  rw [compressLzw_fst]
  have h2 := zeros_count 262142 (lzwEncInit []) 0 0
    (by show ([] : List Nat) = _; simp)
    (by show initDict = _; rw [zeroIns_zero]; rfl)
    rfl (by omega) (by omega)
  rw [h2]
  show (0 : Nat) + 262142 = 262142
  omega

/-- One step of the chunking loop of `compress`, for a first chunk with a
nonzero count. -/
theorem compressLoop_step (data : List Nat)
    (hne0 : ¬ (compressLzw data []).1 = 0) :
    compressLoop (data.length + 1) data 0 [] [] ⟨0, []⟩
      = compressLoop data.length data (0 + (compressLzw data []).1)
          (compressLzw data []).2.2 ([] ++ (compressLzw data []).2.1)
          ⟨0 + 1, [] ++ [⟨(compressLzw data []).2.1.length,
              (compressLzw data []).1⟩]⟩ := by
  simp only [compressLoop, List.drop_zero]
  rw [if_neg hne0]

/-- `compress` succeeds with exactly the loop result when at least one
chunk was recorded. -/
theorem compress_of_loop (data buf2 : List Nat) (info2 : CompressionInfo)
    (h : compressLoop (data.length + 1) data 0 [] [] ⟨0, []⟩ = .ok (buf2, info2))
    (hne : ¬ info2.chunkCount = 0) :
    compress data = .ok (buf2, info2) := by
  have h2 : compress data
      = if info2.chunkCount = 0 then Except.error CompressionError.noChunks
        else .ok (buf2, info2) := by
    unfold compress
    rw [h]
  rw [h2, if_neg hne]

/-- C5 (counterexample): 262142 zero bytes compress into a single chunk
whose recorded `size_raw` is 262142 > 0x3FFFD; the input is highly
compressible, so the dictionary-full early exit that would cap the chunk
at 0x3FFFD bytes is never taken. -/
theorem C5_counterexample :
    ∃ buf info, compress (List.replicate 262142 0) = .ok (buf, info) ∧
      ∃ ci, ci ∈ info.chunks ∧ 0x3FFFD < ci.sizeRaw := by
  have hlen : (List.replicate 262142 0).length = 262142 :=
    List.length_replicate 262142 0
  have hr1 : (compressLzw (List.replicate 262142 0) []).1 = 262142 :=
    zeros_chunk_count
  have hne0 : ¬ (compressLzw (List.replicate 262142 0) []).1 = 0 := by
    rw [hr1]
    omega
  have hstep := compressLoop_step (List.replicate 262142 0) hne0
  obtain ⟨bufR, chunksR, hloop2, _, _, _, _, _⟩ :=
    compressLoop_spec (List.replicate 262142 0).length (List.replicate 262142 0)
      (0 + (compressLzw (List.replicate 262142 0) []).1)
      (compressLzw (List.replicate 262142 0) []).2.2
      ([] ++ (compressLzw (List.replicate 262142 0) []).2.1)
      ⟨0 + 1, [] ++ [⟨(compressLzw (List.replicate 262142 0) []).2.1.length,
          (compressLzw (List.replicate 262142 0) []).1⟩]⟩
      (by intro b hb; rw [List.eq_of_mem_replicate hb]; omega)
      (by omega) (by omega)
  have hok := compress_of_loop _ _ _ (hstep.trans hloop2)
    (by show ¬ ((0 : Nat) + 1 + chunksR.length = 0); omega)
  have hP : ∀ a b : Nat, b = 262142 → (0x3FFFD : Nat) < (⟨a, b⟩ : ChunkInfo).sizeRaw := by
    intro a b hb
    show (0x3FFFD : Nat) < b
    omega
  refine ⟨_, _, hok, ?_⟩
  refine ⟨⟨(compressLzw (List.replicate 262142 0) []).2.1.length,
      (compressLzw (List.replicate 262142 0) []).1⟩, ?_, hP _ _ hr1⟩
  show _ ∈ (([] ++ [(⟨(compressLzw (List.replicate 262142 0) []).2.1.length,
      (compressLzw (List.replicate 262142 0) []).1⟩ : ChunkInfo)]) ++ chunksR)
  exact List.mem_append.mpr (Or.inl (List.mem_append.mpr
    (Or.inr (List.mem_singleton.mpr rfl))))

/-- C5 (amended): `size_raw` of every chunk recorded by `compress` is
bounded by the input length (the stated bound 0x3FFFD does not hold; the
dictionary-full exit only caps a chunk when the dictionary actually
fills). -/
theorem C5_theorem (data buf : List Nat) (info : CompressionInfo)
    (hb : ∀ b ∈ data, b < 256)
    (h : compress data = .ok (buf, info)) :
    ∀ ci ∈ info.chunks, ci.sizeRaw ≤ data.length := by
  obtain ⟨bufR, chunksR, hloop, _, hsz, _, _, _⟩ :=
    compressLoop_spec (data.length + 1) data 0 [] [] ⟨0, []⟩ hb (by omega) (by omega)
  have h2 : compress data
      = if 0 + chunksR.length = 0 then Except.error CompressionError.noChunks
        else .ok ([] ++ bufR, ⟨0 + chunksR.length, [] ++ chunksR⟩) := by
    unfold compress
    rw [hloop]
  rw [h2] at h
  by_cases hc : 0 + chunksR.length = 0
  · rw [if_pos hc] at h
    exact Except.noConfusion h
  · rw [if_neg hc] at h
    have hpair := Except.ok.inj h
    have hinfo2 : info = ⟨0 + chunksR.length, [] ++ chunksR⟩ :=
      (congrArg Prod.snd hpair).symm
    intro ci hci
    rw [hinfo2] at hci
    simp only [List.nil_append] at hci
    have := hsz ci hci
    omega

/-- C5 witness: the amended bound on a concrete one-byte input. -/
theorem C5_witness :
    (∀ b ∈ [7], b < 256) ∧
    compress [7] = .ok ([14, 0, 0], ⟨1, [⟨3, 1⟩]⟩) ∧
    ∀ ci ∈ (⟨1, [⟨3, 1⟩]⟩ : CompressionInfo).chunks, ci.sizeRaw ≤ [7].length :=
  ⟨by decide, by rfl,
   C5_theorem [7] [14, 0, 0] ⟨1, [⟨3, 1⟩]⟩ (by decide) (by rfl)⟩

/-- Full LZW round trip with the bookkeeping bounds needed by the
encode/decode facade: the recorded chunk count is the number of chunks, and
each chunk's sizes are bounded (so the u32 serialization of the chunk index
is faithful for bounded inputs). -/
theorem compress_full (data : List Nat) (hne : data ≠ [])
    (hb : ∀ b ∈ data, b < 256) :
    ∃ buf info, compress data = .ok (buf, info)
      ∧ decompress buf info = .ok data
      ∧ info.chunkCount = info.chunks.length
      ∧ info.chunks.length ≤ data.length
      ∧ ∀ ci ∈ info.chunks, ci.sizeRaw ≤ data.length
          ∧ ci.sizeCompressed ≤ 3 * ci.sizeRaw + 1 := by
  obtain ⟨bufR, chunksR, hloop, hchne, hsz, hsc, hcnt, hdec⟩ :=
    compressLoop_spec (data.length + 1) data 0 [] [] ⟨0, []⟩ hb (by omega) (by omega)
  have hchne2 : chunksR ≠ [] := hchne (List.length_pos.mpr hne)
  have hchlen : 1 ≤ chunksR.length := List.length_pos.mpr hchne2
  refine ⟨bufR, ⟨chunksR.length, chunksR⟩, ?_, ?_, rfl,
    (by show chunksR.length ≤ data.length; omega), ?_⟩
  · have h1 : compress data
        = if 0 + chunksR.length = 0 then Except.error CompressionError.noChunks
          else .ok ([] ++ bufR, ⟨0 + chunksR.length, [] ++ chunksR⟩) := by
      unfold compress
      rw [hloop]
    rw [h1, if_neg (by omega)]
    simp
  · have h2 := hdec [] [] []
    simp only [List.nil_append, List.append_nil, List.length_nil, List.drop_zero] at h2
    unfold decompress
    exact h2
  · intro ci hci
    refine ⟨?_, hsc ci hci⟩
    have := hsz ci hci
    omega

/-! ## Header, color formats and compression types (src/src/header.rs)

Bytes are `Nat`s below 256; `u32` fields are `Nat`s with range hypotheses
where serialization fidelity is at stake.  Rust panics (the `unwrap`s of
`Header::read_from` and of the info/stream readers) are modelled as a
distinguished `panic` error constructor. -/

inductive ColorFormat where
  | rgba8
  | rgb8
  | grayA8
  | gray8
deriving Repr, DecidableEq

def ColorFormat.bpp : ColorFormat → Nat
  | .rgba8 => 32
  | .rgb8 => 24
  | .grayA8 => 16
  | .gray8 => 8

def ColorFormat.channels : ColorFormat → Nat
  | .rgba8 => 4
  | .rgb8 => 3
  | .grayA8 => 2
  | .gray8 => 1

def ColorFormat.alphaChannel : ColorFormat → Option Nat
  | .rgba8 => some 3
  | .rgb8 => Option.none
  | .grayA8 => some 1
  | .gray8 => Option.none

/-- Pixel byte count (`bpp / 8`). -/
def ColorFormat.pbc (cf : ColorFormat) : Nat := cf.bpp / 8

def ColorFormat.toByte : ColorFormat → Nat
  | .rgba8 => 0
  | .rgb8 => 1
  | .grayA8 => 2
  | .gray8 => 3

/-- `TryFrom<u8> for ColorFormat`. -/
def ColorFormat.fromByte : Nat → Option ColorFormat
  | 0 => some .rgba8
  | 1 => some .rgb8
  | 2 => some .grayA8
  | 3 => some .gray8
  | _ => Option.none

inductive CompressionType where
  | noCompression
  | lossless
  | lossyDct
deriving Repr, DecidableEq

def CompressionType.toByte : CompressionType → Nat
  | .noCompression => 0
  | .lossless => 1
  | .lossyDct => 2

/-- `TryFrom<u8> for CompressionType`. -/
def CompressionType.fromByte : Nat → Option CompressionType
  | 0 => some .noCompression
  | 1 => some .lossless
  | 2 => some .lossyDct
  | _ => Option.none

structure Header where
  magic : List Nat
  width : Nat
  height : Nat
  compressionType : CompressionType
  quality : Nat
  colorFormat : ColorFormat
deriving Repr, DecidableEq

/-- The magic bytes `b"dangoimg"`. -/
def magicBytes : List Nat := [100, 97, 110, 103, 111, 105, 109, 103]

/-- The `Error` enum of sqp/src/picture.rs (no `BadHeader` variant exists),
plus a `panic` constructor recording the places where the source `unwrap`s
instead of returning an error. `InvalidIdentifier` carries the bad magic
bytes (the source carries their lossy UTF-8 rendering). -/
inductive DecodeErr where
  | invalidIdentifier (magic : List Nat)
  | ioError (msg : String)
  | compressionError (e : CompressionError)
  | panic (msg : String)
deriving Repr, DecidableEq

/-- Header::write_into — 19 bytes: magic, width/height LE u32, compression
byte, quality byte, color format byte. -/
def Header.writeInto (h : Header) : List Nat :=
  h.magic ++ leBytes h.width 4 ++ leBytes h.height 4
    ++ [h.compressionType.toByte, h.quality, h.colorFormat.toByte]

/-- Header::read_from.  The magic `read_exact` and the two enum
`try_into().unwrap()`s panic rather than erroring; `?` on the u32/u8 reads
becomes an io error. -/
def Header.readFromTail (input : List Nat) (ct : CompressionType) :
    Except DecodeErr (Header × List Nat) :=
  if input.length < 18 then .error (.ioError "failed to fill whole buffer")
  else if input.length < 19 then .error (.ioError "failed to fill whole buffer")
  else
    match ColorFormat.fromByte (input.getD 18 0) with
    | Option.none => .error (.panic "invalid color format")
    | some cf =>
        .ok ({ magic := input.take 8,
               width := leVal ((input.drop 8).take 4),
               height := leVal ((input.drop 12).take 4),
               compressionType := ct,
               quality := input.getD 17 0,
               colorFormat := cf }, input.drop 19)

def Header.readFrom (input : List Nat) : Except DecodeErr (Header × List Nat) :=
  if input.length < 8 then .error (.panic "read_exact failed")
  else if input.take 8 ≠ magicBytes then .error (.invalidIdentifier (input.take 8))
  else if input.length < 16 then .error (.ioError "failed to fill whole buffer")
  else if input.length < 17 then .error (.ioError "failed to fill whole buffer")
  else
    match CompressionType.fromByte (input.getD 16 0) with
    | Option.none => .error (.panic "invalid compression type")
    | some ct => Header.readFromTail input ct

theorem leBytes_length (v n : Nat) : (leBytes v n).length = n := by
  simp [leBytes]

theorem leBytes_succ (v n : Nat) :
    leBytes v (n + 1) = v % 256 :: leBytes (v / 256) n := by
  simp only [leBytes, List.range_succ_eq_map, List.map_cons, List.map_map]
  congr 1
  · simp
  · apply List.map_congr_left
    intro i _
    show v / 2 ^ (8 * (i + 1)) % 256 = v / 256 / 2 ^ (8 * i) % 256
    rw [Nat.div_div_eq_div_mul]
    congr 2
    rw [show 8 * (i + 1) = 8 * i + 8 by ring, pow_add]
    ring

theorem leVal_leBytes (v n : Nat) : leVal (leBytes v n) = v % 2 ^ (8 * n) := by
  induction n generalizing v with
  | zero => simp [leBytes, leVal, Nat.mod_one]
  | succ n ih =>
      rw [leBytes_succ]
      show v % 256 + 256 * leVal (leBytes (v / 256) n) = _
      rw [ih]
      have h1 : (2 : Nat) ^ (8 * (n + 1)) = 256 * 2 ^ (8 * n) := by
        rw [show 8 * (n + 1) = 8 + 8 * n by ring, pow_add]
        norm_num
      rw [h1, Nat.mod_mul]

theorem compressionType_fromByte_toByte (ct : CompressionType) :
    CompressionType.fromByte ct.toByte = some ct := by
  cases ct <;> rfl

theorem colorFormat_fromByte_toByte (cf : ColorFormat) :
    ColorFormat.fromByte cf.toByte = some cf := by
  cases cf <;> rfl

theorem getD_drop0 (l : List Nat) (n d : Nat) : l.getD n d = (l.drop n).getD 0 d := by
  simp [List.getD_eq_getElem?_getD, List.getElem?_drop]

/-- Parsing back a written header recovers it exactly (for in-range u32
dimensions and the correct magic). -/
theorem header_readFrom_writeInto (h : Header) (rest : List Nat)
    (hmagic : h.magic = magicBytes)
    (hw : h.width < 2 ^ 32) (hh : h.height < 2 ^ 32) :
    Header.readFrom (h.writeInto ++ rest) = .ok (h, rest) := by
  set B := h.writeInto ++ rest with hB
  have hBeq : B = h.magic ++ (leBytes h.width 4 ++ (leBytes h.height 4
      ++ ([h.compressionType.toByte, h.quality, h.colorFormat.toByte] ++ rest))) := by
    rw [hB]
    simp [Header.writeInto]
  have hmlen : h.magic.length = 8 := by
    rw [hmagic]
    rfl
  have hBlen : B.length = 19 + rest.length := by
    rw [hBeq]
    simp only [List.length_append, hmlen, leBytes_length, List.length_cons,
      List.length_nil]
    omega
  have htake8 : B.take 8 = magicBytes := by
    rw [hBeq]
    have h1 : (h.magic ++ (leBytes h.width 4 ++ (leBytes h.height 4
        ++ ([h.compressionType.toByte, h.quality, h.colorFormat.toByte]
          ++ rest)))).take 8
        = h.magic := List.take_left' hmlen
    rw [h1, hmagic]
  have hd8 : B.drop 8 = leBytes h.width 4 ++ (leBytes h.height 4
      ++ ([h.compressionType.toByte, h.quality, h.colorFormat.toByte] ++ rest)) := by
    rw [hBeq]
    exact List.drop_left' hmlen
  have hd12 : B.drop 12 = leBytes h.height 4
      ++ ([h.compressionType.toByte, h.quality, h.colorFormat.toByte] ++ rest) := by
    have h1 : (B.drop 8).drop 4 = B.drop 12 := by
      rw [List.drop_drop]
    rw [← h1, hd8]
    exact List.drop_left' (leBytes_length _ 4)
  have hd16 : B.drop 16
      = [h.compressionType.toByte, h.quality, h.colorFormat.toByte] ++ rest := by
    have h1 : (B.drop 12).drop 4 = B.drop 16 := by
      rw [List.drop_drop]
    rw [← h1, hd12]
    exact List.drop_left' (leBytes_length _ 4)
  have hd17 : B.drop 17 = [h.quality, h.colorFormat.toByte] ++ rest := by
    have h1 : (B.drop 16).drop 1 = B.drop 17 := by
      rw [List.drop_drop]
    rw [← h1, hd16]
    rfl
  have hd18 : B.drop 18 = [h.colorFormat.toByte] ++ rest := by
    have h1 : (B.drop 17).drop 1 = B.drop 18 := by
      rw [List.drop_drop]
    rw [← h1, hd17]
    rfl
  have hd19 : B.drop 19 = rest := by
    have h1 : (B.drop 18).drop 1 = B.drop 19 := by
      rw [List.drop_drop]
    rw [← h1, hd18]
    rfl
  have hg16 : B.getD 16 0 = h.compressionType.toByte := by
    rw [getD_drop0, hd16]
    rfl
  have hg17 : B.getD 17 0 = h.quality := by
    rw [getD_drop0, hd17]
    rfl
  have hg18 : B.getD 18 0 = h.colorFormat.toByte := by
    rw [getD_drop0, hd18]
    rfl
  have hw4 : (B.drop 8).take 4 = leBytes h.width 4 := by
    rw [hd8]
    exact List.take_left' (leBytes_length _ 4)
  have hh4 : (B.drop 12).take 4 = leBytes h.height 4 := by
    rw [hd12]
    exact List.take_left' (leBytes_length _ 4)
  have hwm : h.width % 2 ^ (8 * 4) = h.width :=
    Nat.mod_eq_of_lt (show h.width < 2 ^ (8 * 4) from hw)
  have hhm : h.height % 2 ^ (8 * 4) = h.height :=
    Nat.mod_eq_of_lt (show h.height < 2 ^ (8 * 4) from hh)
  unfold Header.readFrom
  rw [if_neg (show ¬ (B.length < 8) by omega)]
  rw [if_neg (show ¬ (B.take 8 ≠ magicBytes) from fun hc => hc htake8)]
  rw [if_neg (show ¬ (B.length < 16) by omega)]
  rw [if_neg (show ¬ (B.length < 17) by omega)]
  rw [hg16, compressionType_fromByte_toByte]
  have hred : (match some h.compressionType with
      | Option.none => (Except.error (DecodeErr.panic "invalid compression type")
          : Except DecodeErr (Header × List Nat))
      | some ct => Header.readFromTail B ct)
      = Header.readFromTail B h.compressionType := rfl
  rw [hred]
  unfold Header.readFromTail
  rw [if_neg (show ¬ (B.length < 18) by omega)]
  rw [if_neg (show ¬ (B.length < 19) by omega)]
  rw [hg18, colorFormat_fromByte_toByte]
  rw [htake8, hw4, hh4, hg17, hd19, leVal_leBytes, leVal_leBytes, hwm, hhm, ← hmagic]

/-! ## Row filtering (src/src/operations.rs)

Bytes are `Nat`s below 256; `wrapping_add`/`wrapping_sub` are mod-256
arithmetic.  `block_height` is `ceil(height / 3)` computed in `f32` by the
source; the `f32` arithmetic is exact (and equal to `(height + 2) / 3`) for
every height below 2²⁴, and the row-filter round trip below does not depend
on the particular value. -/

def wadd (a b : Nat) : Nat := (a + b) % 256

def wsub (a b : Nat) : Nat := (a + 256 - b % 256) % 256

def blockHeight (height : Nat) : Nat := (height + 2) / 3

theorem wsub_lt (a b : Nat) : wsub a b < 256 := by
  unfold wsub
  omega

theorem wadd_wsub_cancel (c p : Nat) (hc : c < 256) : wadd (wsub c p) p = c := by
  unfold wadd wsub
  omega

theorem wadd_wsub_cancel_swap (c p : Nat) (hc : c < 256) : wadd p (wsub c p) = c := by
  unfold wadd wsub
  omega

/-- `*prev = prev.wrapping_add(*curr)` after `*curr = curr.wrapping_sub(*prev)`
restores the original row. -/
theorem zip_prev_update (r : List Nat) :
    ∀ (p : List Nat), r.length = p.length → (∀ b ∈ r, b < 256) →
    (r.zip p).map (fun cp => wadd cp.2 (wsub cp.1 cp.2)) = r := by
  induction r with
  | nil => intro p _ _; rfl
  | cons c cr ih =>
      intro p hl hb
      cases p with
      | nil => simp at hl
      | cons q qr =>
          simp only [List.zip_cons_cons, List.map_cons]
          congr 1
          · exact wadd_wsub_cancel_swap c q (hb c (by simp))
          · exact ih qr (by simpa using hl) (fun b hbm => hb b (by simp [hbm]))

/-- Undoing the row delta: adding back the previous row recovers the row. -/
theorem zip_sub_add (r : List Nat) :
    ∀ (p : List Nat), r.length = p.length → (∀ b ∈ r, b < 256) →
    ((((r.zip p).map (fun cp => wsub cp.1 cp.2)).zip p).map
        (fun cp => wadd cp.1 cp.2)) = r := by
  induction r with
  | nil => intro p _ _; rfl
  | cons c cr ih =>
      intro p hl hb
      cases p with
      | nil => simp at hl
      | cons q qr =>
          simp only [List.zip_cons_cons, List.map_cons]
          congr 1
          · exact wadd_wsub_cancel c q (hb c (by simp))
          · exact ih qr (by simpa using hl) (fun b hbm => hb b (by simp [hbm]))

theorem zip_map_fst_length (r p : List Nat) (h : r.length = p.length) :
    ((r.zip p).map (fun cp : Nat × Nat => wsub cp.1 cp.2)).length = r.length := by
  simp [List.length_zip, h]

/-- `slice.chunks(n)` on a byte list. -/
def chunksOf (n : Nat) (l : List Nat) : List (List Nat) :=
  if h1 : l.length = 0 then []
  else if h2 : n = 0 then []
  else l.take n :: chunksOf n (l.drop n)
termination_by l.length
decreasing_by
  simp only [List.length_drop]
  omega

theorem chunksOf_nil (n : Nat) : chunksOf n [] = [] := by
  rw [chunksOf]
  rfl

theorem chunksOf_append (n : Nat) (hn : 0 < n) (A B : List Nat)
    (hA : A.length = n) : chunksOf n (A ++ B) = A :: chunksOf n B := by
  rw [chunksOf]
  rw [dif_neg (by simp [hA]; omega), dif_neg (by omega)]
  rw [List.take_left' hA, List.drop_left' hA]

theorem chunksOf_append_mult (n : Nat) (hn : 0 < n) (k : Nat) :
    ∀ (A B : List Nat), A.length = k * n →
    chunksOf n (A ++ B) = chunksOf n A ++ chunksOf n B := by
  induction k with
  | zero =>
      intro A B hA
      simp only [Nat.zero_mul] at hA
      have : A = [] := List.length_eq_zero.mp hA
      subst this
      simp [chunksOf_nil]
  | succ k ih =>
      intro A B hA
      rw [Nat.succ_mul] at hA
      have hA1 : (A.take n).length = n :=
        List.length_take_of_le (by omega)
      have hA2 : (A.drop n).length = k * n := by
        rw [List.length_drop]
        omega
      have hsplit : A = A.take n ++ A.drop n := (List.take_append_drop n A).symm
      rw [hsplit, List.append_assoc,
          chunksOf_append n hn _ _ hA1,
          chunksOf_append n hn _ _ hA1,
          ih (A.drop n) B hA2]
      rfl

/-- The row slices `input[y*lineBytes .. (y+1)*lineBytes]` taken by the
per-row loops, as a front recursion. -/
def rowsOf (lineBytes : Nat) : Nat → List Nat → List (List Nat)
  | 0, _ => []
  | h + 1, input => input.take lineBytes :: rowsOf lineBytes h (input.drop lineBytes)

theorem rowsOf_flatten (lineBytes : Nat) :
    ∀ (h : Nat) (input : List Nat), input.length = h * lineBytes →
    (rowsOf lineBytes h input).flatten = input := by
  intro h
  induction h with
  | zero =>
      intro input hl
      simp only [Nat.zero_mul] at hl
      have : input = [] := List.length_eq_zero.mp hl
      subst this
      rfl
  | succ h ih =>
      intro input hl
      rw [Nat.succ_mul] at hl
      show input.take lineBytes ++ (rowsOf lineBytes h (input.drop lineBytes)).flatten
          = input
      rw [ih (input.drop lineBytes) (by rw [List.length_drop]; omega)]
      exact List.take_append_drop _ _

theorem rowsOf_wf (lineBytes : Nat) :
    ∀ (h : Nat) (input : List Nat), input.length = h * lineBytes →
    (∀ b ∈ input, b < 256) →
    ∀ r ∈ rowsOf lineBytes h input, r.length = lineBytes ∧ ∀ b ∈ r, b < 256 := by
  intro h
  induction h with
  | zero =>
      intro input _ _ r hr
      simp [rowsOf] at hr
  | succ h ih =>
      intro input hl hb r hr
      rw [Nat.succ_mul] at hl
      rcases List.mem_cons.mp hr with hr | hr
      · subst hr
        refine ⟨List.length_take_of_le (by omega), ?_⟩
        intro b hbm
        exact hb b (List.mem_of_mem_take hbm)
      · exact ih (input.drop lineBytes) (by rw [List.length_drop]; omega)
          (fun b hbm => hb b (List.mem_of_mem_drop hbm)) r hr

/-- The row loop of `sub_rows`, returning one output row per input row.
The `prev` update is literal: after the pairwise `wrapping_sub`, `prev`
is rebuilt by `wrapping_add` (which restores the current input row). -/
def subD (bh : Nat) : List (List Nat) → Nat → List Nat → List (List Nat)
  | [], _, _ => []
  | r :: rest, y, prev =>
      if y % bh = 0 then r :: subD bh rest (y + 1) r
      else
        ((r.zip prev).map (fun cp => wsub cp.1 cp.2)) ::
          subD bh rest (y + 1)
            ((r.zip prev).map (fun cp => wadd cp.2 (wsub cp.1 cp.2)))

/-- `subD` with the `prev` update simplified to the current input row. -/
def subD2 (bh : Nat) : List (List Nat) → Nat → List Nat → List (List Nat)
  | [], _, _ => []
  | r :: rest, y, prev =>
      (if y % bh = 0 then r else (r.zip prev).map (fun cp => wsub cp.1 cp.2)) ::
        subD2 bh rest (y + 1) r

theorem subD_eq_subD2 (bh L : Nat) :
    ∀ (rows : List (List Nat)) (y : Nat) (prev : List Nat),
    (∀ r ∈ rows, r.length = L ∧ ∀ b ∈ r, b < 256) →
    (y % bh = 0 ∨ prev.length = L) →
    subD bh rows y prev = subD2 bh rows y prev := by
  intro rows
  induction rows with
  | nil => intro y prev _ _; rfl
  | cons r rest ih =>
      intro y prev hwf hinv
      obtain ⟨hrl, hrb⟩ := hwf r (by simp)
      have hwf2 : ∀ r2 ∈ rest, r2.length = L ∧ ∀ b ∈ r2, b < 256 :=
        fun r2 hr2 => hwf r2 (by simp [hr2])
      simp only [subD, subD2]
      by_cases hy : y % bh = 0
      · rw [if_pos hy, if_pos hy, ih (y + 1) r hwf2 (Or.inr hrl)]
      · have hpl : prev.length = L := hinv.resolve_left hy
        rw [if_neg hy, if_neg hy]
        rw [zip_prev_update r prev (by omega) hrb]
        rw [ih (y + 1) r hwf2 (Or.inr hrl)]

theorem subD2_wf (bh L : Nat) :
    ∀ (rows : List (List Nat)) (y : Nat) (prev : List Nat),
    (∀ r ∈ rows, r.length = L ∧ ∀ b ∈ r, b < 256) →
    (y % bh = 0 ∨ prev.length = L) →
    ∀ d ∈ subD2 bh rows y prev, d.length = L ∧ ∀ b ∈ d, b < 256 := by
  intro rows
  induction rows with
  | nil => intro y prev _ _ d hd; simp [subD2] at hd
  | cons r rest ih =>
      intro y prev hwf hinv d hd
      obtain ⟨hrl, hrb⟩ := hwf r (by simp)
      have hwf2 : ∀ r2 ∈ rest, r2.length = L ∧ ∀ b ∈ r2, b < 256 :=
        fun r2 hr2 => hwf r2 (by simp [hr2])
      rcases List.mem_cons.mp hd with hd | hd
      · subst hd
        by_cases hy : y % bh = 0
        · rw [if_pos hy]
          exact ⟨hrl, hrb⟩
        · have hpl : prev.length = L := hinv.resolve_left hy
          rw [if_neg hy]
          constructor
          · rw [List.length_map, List.length_zip]
            omega
          · intro b hbm
            simp only [List.mem_map] at hbm
            obtain ⟨cp, _, hcp⟩ := hbm
            rw [← hcp]
            exact wsub_lt _ _
      · exact ih (y + 1) r hwf2 (Or.inr hrl) d hd

/-- The color bytes of each pixel (the `&i[..pbc - 1]` part of the unzip in
`sub_rows`). -/
def rgbOf (pbc : Nat) (row : List Nat) : List Nat :=
  ((chunksOf pbc row).map (fun c => c.take (pbc - 1))).flatten

/-- The alpha byte of each pixel (the `i[alpha_channel]` part). -/
def alphaOf (pbc a : Nat) (row : List Nat) : List Nat :=
  (chunksOf pbc row).map (fun c => c.getD a 0)

theorem take_getD_concat (l : List Nat) (n : Nat) (hl : l.length = n + 1) :
    l.take n ++ [l.getD n 0] = l := by
  have h1 : l.take (n + 1) = l := List.take_of_length_le (by omega)
  have h2 : l[n]? = some (l.getD n 0) := by
    rw [List.getD_eq_getElem?_getD]
    cases h3 : l[n]? with
    | none =>
        have := List.getElem?_eq_none_iff.mp h3
        omega
    | some v => rfl
  conv_rhs => rw [← h1]
  rw [List.take_succ, h2]
  rfl

theorem rgbOf_split (pbc : Nat) (hp : 0 < pbc) (px rest : List Nat)
    (hpx : px.length = pbc) :
    rgbOf pbc (px ++ rest) = px.take (pbc - 1) ++ rgbOf pbc rest := by
  unfold rgbOf
  rw [chunksOf_append pbc hp px rest hpx]
  simp

theorem alphaOf_split (pbc a : Nat) (hp : 0 < pbc) (px rest : List Nat)
    (hpx : px.length = pbc) :
    alphaOf pbc a (px ++ rest) = px.getD a 0 :: alphaOf pbc a rest := by
  unfold alphaOf
  rw [chunksOf_append pbc hp px rest hpx]
  rfl

theorem rgbOf_length (pbc : Nat) (hp : 0 < pbc) :
    ∀ (k : Nat) (row : List Nat), row.length = k * pbc →
    (rgbOf pbc row).length = k * (pbc - 1) := by
  intro k
  induction k with
  | zero =>
      intro row hl
      simp only [Nat.zero_mul] at hl
      rw [List.length_eq_zero.mp hl]
      simp [rgbOf, chunksOf_nil]
  | succ k ih =>
      intro row hl
      rw [Nat.succ_mul] at hl
      have hpx : (row.take pbc).length = pbc := List.length_take_of_le (by omega)
      have hrest : (row.drop pbc).length = k * pbc := by
        rw [List.length_drop]
        omega
      rw [← List.take_append_drop pbc row,
          rgbOf_split pbc hp _ _ hpx]
      rw [List.length_append, ih _ hrest, List.length_take_of_le (by omega),
          Nat.succ_mul]
      omega

theorem alphaOf_length (pbc a : Nat) (hp : 0 < pbc) :
    ∀ (k : Nat) (row : List Nat), row.length = k * pbc →
    (alphaOf pbc a row).length = k := by
  intro k
  induction k with
  | zero =>
      intro row hl
      simp only [Nat.zero_mul] at hl
      rw [List.length_eq_zero.mp hl]
      simp [alphaOf, chunksOf_nil]
  | succ k ih =>
      intro row hl
      rw [Nat.succ_mul] at hl
      have hpx : (row.take pbc).length = pbc := List.length_take_of_le (by omega)
      have hrest : (row.drop pbc).length = k * pbc := by
        rw [List.length_drop]
        omega
      rw [← List.take_append_drop pbc row,
          alphaOf_split pbc a hp _ _ hpx]
      rw [List.length_cons, ih _ hrest]

/-- Re-interleaving the split color and alpha planes of a row restores it
(the per-row core of `add_rows` against `sub_rows`). -/
theorem interleave_row (pbc : Nat) (h2 : 2 ≤ pbc) :
    ∀ (k : Nat) (row : List Nat), row.length = k * pbc →
    ((chunksOf (pbc - 1) (rgbOf pbc row)).zip (alphaOf pbc (pbc - 1) row)).flatMap
        (fun pr => pr.1 ++ [pr.2]) = row := by
  intro k
  induction k with
  | zero =>
      intro row hl
      simp only [Nat.zero_mul] at hl
      rw [List.length_eq_zero.mp hl]
      simp [rgbOf, alphaOf, chunksOf_nil]
  | succ k ih =>
      intro row hl
      rw [Nat.succ_mul] at hl
      obtain ⟨px, rest, hrow, hpx, hrest⟩ :
          ∃ px rest, row = px ++ rest ∧ px.length = pbc ∧ rest.length = k * pbc :=
        ⟨row.take pbc, row.drop pbc, (List.take_append_drop pbc row).symm,
         List.length_take_of_le (by omega), by rw [List.length_drop]; omega⟩
      subst hrow
      rw [rgbOf_split pbc (by omega) _ _ hpx,
          alphaOf_split pbc (pbc - 1) (by omega) _ _ hpx]
      have htl : (px.take (pbc - 1)).length = pbc - 1 :=
        List.length_take_of_le (by omega)
      rw [chunksOf_append (pbc - 1) (by omega) _ _ htl]
      rw [List.zip_cons_cons, List.flatMap_cons, ih _ hrest,
          take_getD_concat px (pbc - 1) (by rw [hpx]; omega)]

theorem rgb_split_flatten (pbc : Nat) (hp : 0 < pbc) (w : Nat) :
    ∀ (ds : List (List Nat)), (∀ d ∈ ds, d.length = w * pbc) →
    ((chunksOf pbc ds.flatten).map (fun c => c.take (pbc - 1))).flatten
      = (ds.map (rgbOf pbc)).flatten := by
  intro ds
  induction ds with
  | nil => simp [chunksOf_nil]
  | cons d rest ih =>
      intro hd
      have hdl : d.length = w * pbc := (hd d (by simp))
      rw [List.flatten_cons, chunksOf_append_mult pbc hp w d rest.flatten hdl]
      rw [List.map_append, List.flatten_append,
          ih (fun x hx => hd x (by simp [hx]))]
      rw [List.map_cons, List.flatten_cons]
      rfl

theorem alpha_split_flatten (pbc a : Nat) (hp : 0 < pbc) (w : Nat) :
    ∀ (ds : List (List Nat)), (∀ d ∈ ds, d.length = w * pbc) →
    (chunksOf pbc ds.flatten).map (fun c => c.getD a 0)
      = (ds.map (alphaOf pbc a)).flatten := by
  intro ds
  induction ds with
  | nil => simp [chunksOf_nil]
  | cons d rest ih =>
      intro hd
      have hdl : d.length = w * pbc := (hd d (by simp))
      rw [List.flatten_cons, chunksOf_append_mult pbc hp w d rest.flatten hdl]
      rw [List.map_append, ih (fun x hx => hd x (by simp [hx]))]
      rw [List.map_cons, List.flatten_cons]
      rfl
/-- The row loop of `add_rows`: rebuild each row from the split planes (or
the flat data when there is no alpha channel) and add back the previous
row inside a block. -/
def addRowsGo (bh width : Nat) (cf : ColorFormat) (data : List Nat) :
    Nat → Nat → Nat → Nat → List Nat → List Nat
  | 0, _, _, _, _ => []
  | rem + 1, y, rgbIndex, alphaIndex, prev =>
      let curr0 : List Nat :=
        match cf.alphaChannel with
        | Option.none => (data.drop rgbIndex).take (width * cf.pbc)
        | some _ =>
            ((chunksOf (cf.pbc - 1)
                ((data.drop rgbIndex).take (width * (cf.pbc - 1)))).zip
              ((data.drop alphaIndex).take width)).flatMap (fun pr => pr.1 ++ [pr.2])
      let curr := if y % bh = 0 then curr0
        else (curr0.zip prev).map (fun cp => wadd cp.1 cp.2)
      curr ++ addRowsGo bh width cf data rem (y + 1)
        (rgbIndex + match cf.alphaChannel with
          | Option.none => width * cf.pbc
          | some _ => width * (cf.pbc - 1))
        (alphaIndex + width) curr

/-- add_rows. -/
def addRows (width height : Nat) (cf : ColorFormat) (data : List Nat) : List Nat :=
  addRowsGo (blockHeight height) width cf data height 0 0
    (width * height * (cf.pbc - 1)) []

/-- sub_rows: per-row delta filter, then (for formats with alpha) the
pixel/alpha unzip of the whole buffer. -/
def subRows (width height : Nat) (cf : ColorFormat) (input : List Nat) : List Nat :=
  let data := (subD (blockHeight height)
    (rowsOf (width * cf.pbc) height input) 0 []).flatten
  match cf.alphaChannel with
  | Option.none => data
  | some a =>
      ((chunksOf cf.pbc data).map (fun c => c.take (cf.pbc - 1))).flatten
        ++ (chunksOf cf.pbc data).map (fun c => c.getD a 0)

theorem rowsOf_length (lineBytes : Nat) :
    ∀ (h : Nat) (input : List Nat), (rowsOf lineBytes h input).length = h := by
  intro h
  induction h with
  | zero => intro input; rfl
  | succ h ih =>
      intro input
      show (rowsOf lineBytes h (input.drop lineBytes)).length + 1 = h + 1
      rw [ih]

theorem subD2_length (bh : Nat) :
    ∀ (rows : List (List Nat)) (y : Nat) (prev : List Nat),
    (subD2 bh rows y prev).length = rows.length := by
  intro rows
  induction rows with
  | nil => intro y prev; rfl
  | cons r rest ih =>
      intro y prev
      show (subD2 bh rest (y + 1) r).length + 1 = rest.length + 1
      rw [ih]

theorem flatten_length_const (s : Nat) :
    ∀ (xs : List (List Nat)), (∀ x ∈ xs, x.length = s) →
    xs.flatten.length = xs.length * s := by
  intro xs
  induction xs with
  | nil => intro _; simp
  | cons x rest ih =>
      intro hx
      rw [List.flatten_cons, List.length_append, List.length_cons,
          hx x (by simp), ih (fun x2 h2 => hx x2 (by simp [h2])), Nat.succ_mul]
      omega

/-- `add_rows` undoes `sub_rows` row by row (formats without alpha). -/
theorem addGo_noalpha (bh w : Nat) (cf : ColorFormat)
    (ha : cf.alphaChannel = Option.none) :
    ∀ (orows : List (List Nat)) (y : Nat) (prev : List Nat) (DATA A0 : List Nat)
      (ri ai : Nat),
    (∀ r ∈ orows, r.length = w * cf.pbc ∧ ∀ b ∈ r, b < 256) →
    (y % bh = 0 ∨ prev.length = w * cf.pbc) →
    DATA.drop ri = (subD2 bh orows y prev).flatten ++ A0 →
    addRowsGo bh w cf DATA orows.length y ri ai prev = orows.flatten := by
  intro orows
  induction orows with
  | nil =>
      intro y prev DATA A0 ri ai _ _ _
      rfl
  | cons r rest ih =>
      intro y prev DATA A0 ri ai hwf hinv hR
      obtain ⟨hrl, hrb⟩ := hwf r (by simp)
      have hwf2 : ∀ x ∈ rest, x.length = w * cf.pbc ∧ ∀ b ∈ x, b < 256 :=
        fun x hx => hwf x (List.mem_cons_of_mem r hx)
      have hsub : subD2 bh (r :: rest) y prev
          = (if y % bh = 0 then r else (r.zip prev).map (fun cp => wsub cp.1 cp.2))
            :: subD2 bh rest (y + 1) r := rfl
      have hdl : (if y % bh = 0 then r
          else (r.zip prev).map (fun cp => wsub cp.1 cp.2)).length = w * cf.pbc := by
        by_cases hy : y % bh = 0
        · rw [if_pos hy, hrl]
        · have hpl : prev.length = w * cf.pbc := hinv.resolve_left hy
          rw [if_neg hy, List.length_map, List.length_zip]
          omega
      rw [hsub, List.flatten_cons, List.append_assoc] at hR
      have hslice : (DATA.drop ri).take (w * cf.pbc)
          = if y % bh = 0 then r
            else (r.zip prev).map (fun cp => wsub cp.1 cp.2) := by
        rw [hR, ← hdl]
        exact List.take_left _ _
      have hdrop2 : DATA.drop (ri + w * cf.pbc)
          = (subD2 bh rest (y + 1) r).flatten ++ A0 := by
        have h1 : (DATA.drop ri).drop (w * cf.pbc) = DATA.drop (ri + w * cf.pbc) :=
          List.drop_drop _ _ _
        rw [← h1, hR, ← hdl, List.drop_left]
      show (let curr0 :=
          match cf.alphaChannel with
          | Option.none => (DATA.drop ri).take (w * cf.pbc)
          | some _ =>
              ((chunksOf (cf.pbc - 1)
                  ((DATA.drop ri).take (w * (cf.pbc - 1)))).zip
                ((DATA.drop ai).take w)).flatMap (fun pr => pr.1 ++ [pr.2])
        let curr := if y % bh = 0 then curr0
          else (curr0.zip prev).map (fun cp => wadd cp.1 cp.2)
        curr ++ addRowsGo bh w cf DATA rest.length (y + 1)
          (ri + match cf.alphaChannel with
            | Option.none => w * cf.pbc
            | some _ => w * (cf.pbc - 1))
          (ai + w) curr) = (r :: rest).flatten
      simp only [ha]
      rw [hslice]
      by_cases hy : y % bh = 0
      · rw [if_pos hy, if_pos hy]
        show r ++ addRowsGo bh w cf DATA rest.length (y + 1) (ri + w * cf.pbc)
            (ai + w) r = r ++ rest.flatten
        rw [ih (y + 1) r DATA A0 (ri + w * cf.pbc) (ai + w) hwf2 (Or.inr hrl) hdrop2]
      · have hpl : prev.length = w * cf.pbc := hinv.resolve_left hy
        rw [if_neg hy, if_neg hy]
        rw [zip_sub_add r prev (by omega) hrb]
        show r ++ addRowsGo bh w cf DATA rest.length (y + 1) (ri + w * cf.pbc)
            (ai + w) r = r ++ rest.flatten
        rw [ih (y + 1) r DATA A0 (ri + w * cf.pbc) (ai + w) hwf2 (Or.inr hrl) hdrop2]

/-- `add_rows` undoes `sub_rows` row by row (formats with an alpha channel
stored as the last byte of each pixel). -/
theorem addGo_alpha (bh w : Nat) (cf : ColorFormat)
    (ha : cf.alphaChannel = some (cf.pbc - 1)) (h2 : 2 ≤ cf.pbc) :
    ∀ (orows : List (List Nat)) (y : Nat) (prev : List Nat) (DATA A0 : List Nat)
      (ri ai : Nat),
    (∀ r ∈ orows, r.length = w * cf.pbc ∧ ∀ b ∈ r, b < 256) →
    (y % bh = 0 ∨ prev.length = w * cf.pbc) →
    DATA.drop ri = ((subD2 bh orows y prev).map (rgbOf cf.pbc)).flatten ++ A0 →
    DATA.drop ai = ((subD2 bh orows y prev).map
      (alphaOf cf.pbc (cf.pbc - 1))).flatten →
    addRowsGo bh w cf DATA orows.length y ri ai prev = orows.flatten := by
  intro orows
  induction orows with
  | nil =>
      intro y prev DATA A0 ri ai _ _ _ _
      rfl
  | cons r rest ih =>
      intro y prev DATA A0 ri ai hwf hinv hR hA
      obtain ⟨hrl, hrb⟩ := hwf r (by simp)
      have hwf2 : ∀ x ∈ rest, x.length = w * cf.pbc ∧ ∀ b ∈ x, b < 256 :=
        fun x hx => hwf x (List.mem_cons_of_mem r hx)
      have hsub : subD2 bh (r :: rest) y prev
          = (if y % bh = 0 then r else (r.zip prev).map (fun cp => wsub cp.1 cp.2))
            :: subD2 bh rest (y + 1) r := rfl
      have hdl : (if y % bh = 0 then r
          else (r.zip prev).map (fun cp => wsub cp.1 cp.2)).length = w * cf.pbc := by
        by_cases hy : y % bh = 0
        · rw [if_pos hy, hrl]
        · have hpl : prev.length = w * cf.pbc := hinv.resolve_left hy
          rw [if_neg hy, List.length_map, List.length_zip]
          omega
      have hrgbl : (rgbOf cf.pbc (if y % bh = 0 then r
          else (r.zip prev).map (fun cp => wsub cp.1 cp.2))).length
          = w * (cf.pbc - 1) := rgbOf_length cf.pbc (by omega) w _ hdl
      have halpl : (alphaOf cf.pbc (cf.pbc - 1) (if y % bh = 0 then r
          else (r.zip prev).map (fun cp => wsub cp.1 cp.2))).length = w :=
        alphaOf_length cf.pbc (cf.pbc - 1) (by omega) w _ hdl
      rw [hsub, List.map_cons, List.flatten_cons, List.append_assoc] at hR
      rw [hsub, List.map_cons, List.flatten_cons] at hA
      have hslr : (DATA.drop ri).take (w * (cf.pbc - 1))
          = rgbOf cf.pbc (if y % bh = 0 then r
            else (r.zip prev).map (fun cp => wsub cp.1 cp.2)) := by
        rw [hR, ← hrgbl]
        exact List.take_left _ _
      have hsla : (DATA.drop ai).take w
          = alphaOf cf.pbc (cf.pbc - 1) (if y % bh = 0 then r
            else (r.zip prev).map (fun cp => wsub cp.1 cp.2)) := by
        rw [hA, ← halpl]
        exact List.take_left _ _
      have hdropR : DATA.drop (ri + w * (cf.pbc - 1))
          = ((subD2 bh rest (y + 1) r).map (rgbOf cf.pbc)).flatten ++ A0 := by
        have h1 : (DATA.drop ri).drop (w * (cf.pbc - 1))
            = DATA.drop (ri + w * (cf.pbc - 1)) := List.drop_drop _ _ _
        rw [← h1, hR, ← hrgbl, List.drop_left]
      have hdropA : DATA.drop (ai + w)
          = ((subD2 bh rest (y + 1) r).map
            (alphaOf cf.pbc (cf.pbc - 1))).flatten := by
        have h1 : (DATA.drop ai).drop w = DATA.drop (ai + w) := List.drop_drop _ _ _
        rw [← h1, hA, ← halpl, List.drop_left]
      have hinterleave := interleave_row cf.pbc h2 w _ hdl
      show (let curr0 :=
          match cf.alphaChannel with
          | Option.none => (DATA.drop ri).take (w * cf.pbc)
          | some _ =>
              ((chunksOf (cf.pbc - 1)
                  ((DATA.drop ri).take (w * (cf.pbc - 1)))).zip
                ((DATA.drop ai).take w)).flatMap (fun pr => pr.1 ++ [pr.2])
        let curr := if y % bh = 0 then curr0
          else (curr0.zip prev).map (fun cp => wadd cp.1 cp.2)
        curr ++ addRowsGo bh w cf DATA rest.length (y + 1)
          (ri + match cf.alphaChannel with
            | Option.none => w * cf.pbc
            | some _ => w * (cf.pbc - 1))
          (ai + w) curr) = (r :: rest).flatten
      simp only [ha]
      rw [hslr, hsla, hinterleave]
      by_cases hy : y % bh = 0
      · rw [if_pos hy, if_pos hy]
        show r ++ addRowsGo bh w cf DATA rest.length (y + 1)
            (ri + w * (cf.pbc - 1)) (ai + w) r = r ++ rest.flatten
        rw [ih (y + 1) r DATA A0 (ri + w * (cf.pbc - 1)) (ai + w) hwf2
          (Or.inr hrl) hdropR hdropA]
      · have hpl : prev.length = w * cf.pbc := hinv.resolve_left hy
        rw [if_neg hy, if_neg hy]
        rw [zip_sub_add r prev (by omega) hrb]
        show r ++ addRowsGo bh w cf DATA rest.length (y + 1)
            (ri + w * (cf.pbc - 1)) (ai + w) r = r ++ rest.flatten
        rw [ih (y + 1) r DATA A0 (ri + w * (cf.pbc - 1)) (ai + w) hwf2
          (Or.inr hrl) hdropR hdropA]

/-- The row filter round trip: `add_rows(sub_rows(x)) = x` for a buffer of
exactly `width * height * pbc` bytes. -/
theorem addRows_subRows (w ht : Nat) (cf : ColorFormat) (input : List Nat)
    (hlen : input.length = w * ht * cf.pbc)
    (hb : ∀ b ∈ input, b < 256) :
    addRows w ht cf (subRows w ht cf input) = input := by
  cases ht with
  | zero =>
      have h0 : input = [] := List.length_eq_zero.mp (by rw [hlen]; simp)
      rw [h0]
      rfl
  | succ h0 =>
      have hp1 : 0 < cf.pbc := by cases cf <;> decide
      have hlen2 : input.length = (h0 + 1) * (w * cf.pbc) := by
        rw [hlen]
        ring
      have hwf := rowsOf_wf (w * cf.pbc) (h0 + 1) input hlen2 hb
      have hflat := rowsOf_flatten (w * cf.pbc) (h0 + 1) input hlen2
      have hrlen := rowsOf_length (w * cf.pbc) (h0 + 1) input
      have hz : (0 : Nat) % blockHeight (h0 + 1) = 0 := Nat.zero_mod _
      have hsub := subD_eq_subD2 (blockHeight (h0 + 1)) (w * cf.pbc)
        (rowsOf (w * cf.pbc) (h0 + 1) input) 0 [] hwf (Or.inl hz)
      have hdswf := subD2_wf (blockHeight (h0 + 1)) (w * cf.pbc)
        (rowsOf (w * cf.pbc) (h0 + 1) input) 0 [] hwf (Or.inl hz)
      have hdslen : (subD2 (blockHeight (h0 + 1))
          (rowsOf (w * cf.pbc) (h0 + 1) input) 0 []).length = h0 + 1 := by
        rw [subD2_length, hrlen]
      cases hcf : cf.alphaChannel with
      | none =>
          have hsr : subRows w (h0 + 1) cf input
              = (subD2 (blockHeight (h0 + 1))
                  (rowsOf (w * cf.pbc) (h0 + 1) input) 0 []).flatten := by
            simp only [subRows]
            rw [hsub, hcf]
          have hlem := addGo_noalpha (blockHeight (h0 + 1)) w cf hcf
            (rowsOf (w * cf.pbc) (h0 + 1) input) 0 []
            (subRows w (h0 + 1) cf input) [] 0 (w * (h0 + 1) * (cf.pbc - 1))
            hwf (Or.inl hz)
            (by rw [List.drop_zero, List.append_nil, hsr])
          rw [hrlen, hflat] at hlem
          unfold addRows
          exact hlem
      | some a =>
          have haeq : a = cf.pbc - 1 := by
            cases cf
            · exact (Option.some.inj hcf).symm
            · exact Option.noConfusion hcf
            · exact (Option.some.inj hcf).symm
            · exact Option.noConfusion hcf
          subst haeq
          have h2 : 2 ≤ cf.pbc := by
            cases cf
            · decide
            · exact Option.noConfusion hcf
            · decide
            · exact Option.noConfusion hcf
          have hdl : ∀ d ∈ subD2 (blockHeight (h0 + 1))
              (rowsOf (w * cf.pbc) (h0 + 1) input) 0 [],
              d.length = w * cf.pbc := fun d hd => (hdswf d hd).1
          have hsr : subRows w (h0 + 1) cf input
              = ((subD2 (blockHeight (h0 + 1))
                  (rowsOf (w * cf.pbc) (h0 + 1) input) 0 []).map
                    (rgbOf cf.pbc)).flatten
                ++ ((subD2 (blockHeight (h0 + 1))
                  (rowsOf (w * cf.pbc) (h0 + 1) input) 0 []).map
                    (alphaOf cf.pbc (cf.pbc - 1))).flatten := by
            simp only [subRows]
            rw [hsub, hcf]
            show ((chunksOf cf.pbc (subD2 (blockHeight (h0 + 1))
                (rowsOf (w * cf.pbc) (h0 + 1) input) 0 []).flatten).map
                  (fun c => c.take (cf.pbc - 1))).flatten
              ++ (chunksOf cf.pbc (subD2 (blockHeight (h0 + 1))
                (rowsOf (w * cf.pbc) (h0 + 1) input) 0 []).flatten).map
                  (fun c => c.getD (cf.pbc - 1) 0)
              = _
            rw [rgb_split_flatten cf.pbc hp1 w _ hdl,
                alpha_split_flatten cf.pbc (cf.pbc - 1) hp1 w _ hdl]
          have hrgblen : (((subD2 (blockHeight (h0 + 1))
              (rowsOf (w * cf.pbc) (h0 + 1) input) 0 []).map
                (rgbOf cf.pbc)).flatten).length = w * (h0 + 1) * (cf.pbc - 1) := by
            rw [flatten_length_const (w * (cf.pbc - 1))]
            · rw [List.length_map, hdslen]
              ring
            · intro x hx
              simp only [List.mem_map] at hx
              obtain ⟨d, hd, hdx⟩ := hx
              rw [← hdx]
              exact rgbOf_length cf.pbc (by omega) w d (hdl d hd)
          have hlem := addGo_alpha (blockHeight (h0 + 1)) w cf hcf h2
            (rowsOf (w * cf.pbc) (h0 + 1) input) 0 []
            (subRows w (h0 + 1) cf input)
            (((subD2 (blockHeight (h0 + 1))
              (rowsOf (w * cf.pbc) (h0 + 1) input) 0 []).map
                (alphaOf cf.pbc (cf.pbc - 1))).flatten)
            0 (w * (h0 + 1) * (cf.pbc - 1))
            hwf (Or.inl hz)
            (by rw [List.drop_zero, hsr])
            (by rw [hsr, ← hrgblen]; exact List.drop_left _ _)
          rw [hrlen, hflat] at hlem
          unfold addRows
          exact hlem

theorem rgbOf_mem (pbc : Nat) (hp : 0 < pbc) :
    ∀ (k : Nat) (row : List Nat), row.length = k * pbc →
    ∀ b ∈ rgbOf pbc row, b ∈ row := by
  intro k
  induction k with
  | zero =>
      intro row hl b hbm
      have h0 : row = [] := List.length_eq_zero.mp (by rw [hl]; simp)
      rw [h0] at hbm
      simp [rgbOf, chunksOf_nil] at hbm
  | succ k ih =>
      intro row hl b hbm
      rw [Nat.succ_mul] at hl
      obtain ⟨px, rest, hrow, hpx, hrest⟩ :
          ∃ px rest, row = px ++ rest ∧ px.length = pbc ∧ rest.length = k * pbc :=
        ⟨row.take pbc, row.drop pbc, (List.take_append_drop pbc row).symm,
         List.length_take_of_le (by omega), by rw [List.length_drop]; omega⟩
      subst hrow
      rw [rgbOf_split pbc hp _ _ hpx] at hbm
      rcases List.mem_append.mp hbm with h1 | h1
      · exact List.mem_append.mpr (Or.inl (List.mem_of_mem_take h1))
      · exact List.mem_append.mpr (Or.inr (ih rest hrest b h1))

theorem alphaOf_mem (pbc a : Nat) (hp : 0 < pbc) :
    ∀ (k : Nat) (row : List Nat), row.length = k * pbc →
    ∀ b ∈ alphaOf pbc a row, b ∈ row ∨ b = 0 := by
  intro k
  induction k with
  | zero =>
      intro row hl b hbm
      have h0 : row = [] := List.length_eq_zero.mp (by rw [hl]; simp)
      rw [h0] at hbm
      simp [alphaOf, chunksOf_nil] at hbm
  | succ k ih =>
      intro row hl b hbm
      rw [Nat.succ_mul] at hl
      obtain ⟨px, rest, hrow, hpx, hrest⟩ :
          ∃ px rest, row = px ++ rest ∧ px.length = pbc ∧ rest.length = k * pbc :=
        ⟨row.take pbc, row.drop pbc, (List.take_append_drop pbc row).symm,
         List.length_take_of_le (by omega), by rw [List.length_drop]; omega⟩
      subst hrow
      rw [alphaOf_split pbc a hp _ _ hpx] at hbm
      rcases List.mem_cons.mp hbm with h1 | h1
      · subst h1
        rw [List.getD_eq_getElem?_getD]
        cases hga : px[a]? with
        | none => right; rfl
        | some v =>
            left
            refine List.mem_append.mpr (Or.inl ?_)
            have : px.get? a = some v := by
              rw [List.get?_eq_getElem?]
              exact hga
            exact List.get?_mem this
      · rcases ih rest hrest b h1 with h2 | h2
        · exact Or.inl (List.mem_append.mpr (Or.inr h2))
        · exact Or.inr h2

/-- `sub_rows` preserves the buffer length and the byte range. -/
theorem subRows_spec (w ht : Nat) (cf : ColorFormat) (input : List Nat)
    (hlen : input.length = w * ht * cf.pbc) (hb : ∀ b ∈ input, b < 256) :
    (subRows w ht cf input).length = input.length ∧
    ∀ b ∈ subRows w ht cf input, b < 256 := by
  cases ht with
  | zero =>
      have h0 : input = [] := List.length_eq_zero.mp (by rw [hlen]; simp)
      subst h0
      have : subRows w 0 cf [] = [] := by
        simp only [subRows, rowsOf, subD]
        cases hcf : cf.alphaChannel <;> simp [chunksOf_nil]
      rw [this]
      simp
  | succ h0 =>
      have hp1 : 0 < cf.pbc := by cases cf <;> decide
      have hlen2 : input.length = (h0 + 1) * (w * cf.pbc) := by
        rw [hlen]
        ring
      have hwf := rowsOf_wf (w * cf.pbc) (h0 + 1) input hlen2 hb
      have hrlen := rowsOf_length (w * cf.pbc) (h0 + 1) input
      have hz : (0 : Nat) % blockHeight (h0 + 1) = 0 := Nat.zero_mod _
      have hsub := subD_eq_subD2 (blockHeight (h0 + 1)) (w * cf.pbc)
        (rowsOf (w * cf.pbc) (h0 + 1) input) 0 [] hwf (Or.inl hz)
      have hdswf := subD2_wf (blockHeight (h0 + 1)) (w * cf.pbc)
        (rowsOf (w * cf.pbc) (h0 + 1) input) 0 [] hwf (Or.inl hz)
      have hdslen : (subD2 (blockHeight (h0 + 1))
          (rowsOf (w * cf.pbc) (h0 + 1) input) 0 []).length = h0 + 1 := by
        rw [subD2_length, hrlen]
      have hdl : ∀ d ∈ subD2 (blockHeight (h0 + 1))
          (rowsOf (w * cf.pbc) (h0 + 1) input) 0 [],
          d.length = w * cf.pbc := fun d hd => (hdswf d hd).1
      cases hcf : cf.alphaChannel with
      | none =>
          have hsr : subRows w (h0 + 1) cf input
              = (subD2 (blockHeight (h0 + 1))
                  (rowsOf (w * cf.pbc) (h0 + 1) input) 0 []).flatten := by
            simp only [subRows]
            rw [hsub, hcf]
          rw [hsr]
          constructor
          · rw [flatten_length_const (w * cf.pbc) _ hdl, hdslen, hlen2]
          · intro b hbm
            obtain ⟨d, hd, hbd⟩ := List.mem_flatten.mp hbm
            exact (hdswf d hd).2 b hbd
      | some a =>
          have haeq : a = cf.pbc - 1 := by
            cases cf
            · exact (Option.some.inj hcf).symm
            · exact Option.noConfusion hcf
            · exact (Option.some.inj hcf).symm
            · exact Option.noConfusion hcf
          subst haeq
          have hsr : subRows w (h0 + 1) cf input
              = ((subD2 (blockHeight (h0 + 1))
                  (rowsOf (w * cf.pbc) (h0 + 1) input) 0 []).map
                    (rgbOf cf.pbc)).flatten
                ++ ((subD2 (blockHeight (h0 + 1))
                  (rowsOf (w * cf.pbc) (h0 + 1) input) 0 []).map
                    (alphaOf cf.pbc (cf.pbc - 1))).flatten := by
            simp only [subRows]
            rw [hsub, hcf]
            show ((chunksOf cf.pbc (subD2 (blockHeight (h0 + 1))
                (rowsOf (w * cf.pbc) (h0 + 1) input) 0 []).flatten).map
                  (fun c => c.take (cf.pbc - 1))).flatten
              ++ (chunksOf cf.pbc (subD2 (blockHeight (h0 + 1))
                (rowsOf (w * cf.pbc) (h0 + 1) input) 0 []).flatten).map
                  (fun c => c.getD (cf.pbc - 1) 0)
              = _
            rw [rgb_split_flatten cf.pbc hp1 w _ hdl,
                alpha_split_flatten cf.pbc (cf.pbc - 1) hp1 w _ hdl]
          rw [hsr]
          constructor
          · rw [List.length_append]
            rw [flatten_length_const (w * (cf.pbc - 1))]
            · rw [flatten_length_const w]
              · rw [List.length_map, List.length_map, hdslen, hlen]
                obtain ⟨pb, hpb⟩ : ∃ pb, cf.pbc = pb + 1 := ⟨cf.pbc - 1, by omega⟩
                rw [hpb]
                simp only [Nat.add_sub_cancel]
                ring
              · intro x hx
                simp only [List.mem_map] at hx
                obtain ⟨d, hd, hdx⟩ := hx
                rw [← hdx]
                exact alphaOf_length cf.pbc (cf.pbc - 1) hp1 w d (hdl d hd)
            · intro x hx
              simp only [List.mem_map] at hx
              obtain ⟨d, hd, hdx⟩ := hx
              rw [← hdx]
              exact rgbOf_length cf.pbc hp1 w d (hdl d hd)
          · intro b hbm
            rcases List.mem_append.mp hbm with h1 | h1
            · obtain ⟨x, hx, hbx⟩ := List.mem_flatten.mp h1
              simp only [List.mem_map] at hx
              obtain ⟨d, hd, hdx⟩ := hx
              rw [← hdx] at hbx
              exact (hdswf d hd).2 b (rgbOf_mem cf.pbc hp1 w d (hdl d hd) b hbx)
            · obtain ⟨x, hx, hbx⟩ := List.mem_flatten.mp h1
              simp only [List.mem_map] at hx
              obtain ⟨d, hd, hdx⟩ := hx
              rw [← hdx] at hbx
              rcases alphaOf_mem cf.pbc (cf.pbc - 1) hp1 w d (hdl d hd) b hbx with
                h2 | h2
              · exact (hdswf d hd).2 b h2
              · omega

/-! ## CompressionInfo serialization (src/src/compression/lossless.rs) and the
picture facade (src/sqp/src/picture.rs) -/

/-- `read_u32::<LE>().unwrap()` on a byte stream: `none` is the panic on a
short stream. -/
def readU32 (l : List Nat) : Option (Nat × List Nat) :=
  match l with
  | b0 :: b1 :: b2 :: b3 :: rest => some (leVal [b0, b1, b2, b3], rest)
  | _ => Option.none

/-- CompressionInfo::write_into — chunk count, then per chunk the compressed
and raw sizes, all LE u32 (`as u32` truncates, which `leBytes _ 4` mirrors). -/
def CompressionInfo.writeInto (info : CompressionInfo) : List Nat :=
  leBytes info.chunkCount 4
    ++ (info.chunks.map
        (fun c => leBytes c.sizeCompressed 4 ++ leBytes c.sizeRaw 4)).flatten

/-- The chunk-reading loop of CompressionInfo::read_from. -/
def readChunksGo : Nat → List Nat → Option (List ChunkInfo × List Nat)
  | 0, l => some ([], l)
  | n + 1, l =>
      match readU32 l with
      | Option.none => Option.none
      | some (sc, l1) =>
          match readU32 l1 with
          | Option.none => Option.none
          | some (sr, l2) =>
              match readChunksGo n l2 with
              | Option.none => Option.none
              | some (cs, l3) => some (⟨sc, sr⟩ :: cs, l3)

/-- CompressionInfo::read_from (`none` models its unwrap panics). -/
def CompressionInfo.readFrom (l : List Nat) :
    Option (CompressionInfo × List Nat) :=
  match readU32 l with
  | Option.none => Option.none
  | some (cnt, l1) =>
      match readChunksGo cnt l1 with
      | Option.none => Option.none
      | some (cs, l2) => some (⟨cnt, cs⟩, l2)

theorem readU32_leBytes (v : Nat) (rest : List Nat) (hv : v < 2 ^ 32) :
    readU32 (leBytes v 4 ++ rest) = some (v, rest) := by
  have h4 : leBytes v 4
      = [v % 256, v / 2 ^ 8 % 256, v / 2 ^ 16 % 256, v / 2 ^ 24 % 256] := by
    simp [leBytes, List.range_succ]
  have hval := leVal_leBytes v 4
  rw [h4] at hval
  rw [h4]
  show some (leVal [v % 256, v / 2 ^ 8 % 256, v / 2 ^ 16 % 256,
    v / 2 ^ 24 % 256], rest) = some (v, rest)
  rw [hval]
  rw [Nat.mod_eq_of_lt (by omega : v < 2 ^ (8 * 4))]

theorem readChunksGo_write (cs : List ChunkInfo) (rest : List Nat)
    (hch : ∀ c ∈ cs, c.sizeCompressed < 2 ^ 32 ∧ c.sizeRaw < 2 ^ 32) :
    readChunksGo cs.length
      ((cs.map (fun c => leBytes c.sizeCompressed 4 ++ leBytes c.sizeRaw 4)).flatten
        ++ rest)
      = some (cs, rest) := by
  induction cs generalizing rest with
  | nil => rfl
  | cons c cs ih =>
      have hc := hch c (List.mem_cons_self c cs)
      have hcs : ∀ x ∈ cs, x.sizeCompressed < 2 ^ 32 ∧ x.sizeRaw < 2 ^ 32 :=
        fun x hx => hch x (List.mem_cons_of_mem c hx)
      simp only [List.map_cons, List.flatten_cons, List.length_cons,
        List.append_assoc]
      rw [readChunksGo]
      simp only [readU32_leBytes _ _ hc.1]
      simp only [readU32_leBytes _ _ hc.2]
      simp only [ih rest hcs]

theorem info_readFrom_writeInto (info : CompressionInfo)
    (rest : List Nat)
    (hcnt : info.chunkCount = info.chunks.length)
    (hlt : info.chunkCount < 2 ^ 32)
    (hch : ∀ c ∈ info.chunks, c.sizeCompressed < 2 ^ 32 ∧ c.sizeRaw < 2 ^ 32) :
    CompressionInfo.readFrom (info.writeInto ++ rest) = some (info, rest) := by
  obtain ⟨cnt, chunks⟩ := info
  simp only at hcnt hch
  subst hcnt
  simp only [CompressionInfo.writeInto, CompressionInfo.readFrom,
    List.append_assoc]
  simp only [readU32_leBytes _ _ hlt]
  simp only [readChunksGo_write chunks rest hch]

structure SquishyPicture where
  header : Header
  bitmap : List Nat
deriving Repr, DecidableEq

/-- SquishyPicture::from_raw.  The source panics when `quality` is `None`
and the compression type is `LossyDct`; that panic is the `none` result.
`level.clamp(1, 100)` is `min (max level 1) 100`. -/
def fromRaw (width height : Nat) (colorFormat : ColorFormat)
    (compressionType : CompressionType) (quality : Option Nat)
    (bitmap : List Nat) : Option SquishyPicture :=
  if quality = Option.none ∧ compressionType = CompressionType.lossyDct then
    Option.none
  else
    some
      { header :=
          { magic := magicBytes,
            width := width,
            height := height,
            compressionType := compressionType,
            quality :=
              match quality with
              | some level => min (max level 1) 100
              | Option.none => 0,
            colorFormat := colorFormat },
        bitmap := bitmap }

/-- SquishyPicture::encode — header bytes, then the compression info, then
the LZW-compressed payload.  The `LossyDct` branch runs the `f32` DCT
pipeline, which is outside this integer embedding; it is left as the empty
modified stream here and no theorem below touches it. -/
def encode (pic : SquishyPicture) : Except DecodeErr (List Nat) :=
  let modifiedData : List Nat :=
    match pic.header.compressionType with
    | CompressionType.noCompression => pic.bitmap
    | CompressionType.lossless =>
        subRows pic.header.width pic.header.height pic.header.colorFormat
          pic.bitmap
    | CompressionType.lossyDct => []
  match compress modifiedData with
  | .error e => .error (.compressionError e)
  | .ok (compressedData, info) =>
      .ok (pic.header.writeInto ++ info.writeInto ++ compressedData)

/-- SquishyPicture::decode — read the header and the compression info,
decompress, undo the row filter, and truncate to `width·height·pbc` bytes.
The info reader's and the stream reader's unwrap panics surface as `panic`
errors; the `LossyDct` branch is the same placeholder as in `encode`. -/
def decode (input : List Nat) : Except DecodeErr SquishyPicture :=
  match Header.readFrom input with
  | .error e => .error e
  | .ok (header, rest) =>
      match CompressionInfo.readFrom rest with
      | Option.none => .error (.panic "read_u32 failed")
      | some (info, rest2) =>
          match decompress rest2 info with
          | .error e => .error (.panic e)
          | .ok preBitmap =>
              let bitmap : List Nat :=
                match header.compressionType with
                | CompressionType.noCompression => preBitmap
                | CompressionType.lossless =>
                    addRows header.width header.height header.colorFormat
                      preBitmap
                | CompressionType.lossyDct => []
              .ok { header := header,
                    bitmap := bitmap.take
                      (header.width * header.height * header.colorFormat.pbc) }

/-- C1: lossless round trip, as it actually holds.  For a nonempty pixel
buffer of the right length whose total size keeps every serialized `u32`
in range, `from_raw`/`encode`/`decode` with mode `Lossless` reproduces the
pixel buffer byte for byte.  The claim's unrestricted version fails: a
zero-area image (empty buffer) makes `compress` return `NoChunks`, so
`encode` errors instead of producing decodable bytes. -/
theorem C1_theorem (w h : Nat) (cf : ColorFormat) (bitmap : List Nat)
    (hlen : bitmap.length = w * h * cf.pbc)
    (hb : ∀ b ∈ bitmap, b < 256)
    (hne : bitmap ≠ [])
    (hw : w < 2 ^ 32) (hh : h < 2 ^ 32)
    (hsz : bitmap.length < 2 ^ 30) :
    ∃ pic out pic2,
      fromRaw w h cf CompressionType.lossless Option.none bitmap = some pic
      ∧ encode pic = .ok out
      ∧ decode out = .ok pic2
      ∧ pic2.bitmap = bitmap
      ∧ pic2.header = pic.header := by
  set hdr : Header :=
    { magic := magicBytes, width := w, height := h,
      compressionType := CompressionType.lossless, quality := 0,
      colorFormat := cf } with hhdr
  have hpic : fromRaw w h cf CompressionType.lossless Option.none bitmap
      = some { header := hdr, bitmap := bitmap } := rfl
  set md : List Nat := subRows w h cf bitmap with hmd
  obtain ⟨hmdlen, hmdb⟩ := subRows_spec w h cf bitmap hlen hb
  rw [← hmd] at hmdlen hmdb
  have hmdne : md ≠ [] := by
    intro hcon
    apply hne
    apply List.length_eq_zero.mp
    rw [← hmdlen, hcon]
    rfl
  obtain ⟨buf, info, hcomp, hdec, hcnt, hclen, hci⟩ :=
    compress_full md hmdne hmdb
  have henc : encode { header := hdr, bitmap := bitmap }
      = .ok (hdr.writeInto ++ info.writeInto ++ buf) := by
    show (match compress md with
      | Except.error e => Except.error (DecodeErr.compressionError e)
      | Except.ok (compressedData, i) =>
          Except.ok (hdr.writeInto ++ i.writeInto ++ compressedData))
      = Except.ok (hdr.writeInto ++ info.writeInto ++ buf)
    rw [hcomp]
  have hdr_rt := header_readFrom_writeInto hdr (info.writeInto ++ buf) rfl hw hh
  have hlt : info.chunkCount < 2 ^ 32 := by
    rw [hcnt]
    omega
  have hch : ∀ c ∈ info.chunks,
      c.sizeCompressed < 2 ^ 32 ∧ c.sizeRaw < 2 ^ 32 := by
    intro c hc
    obtain ⟨h1, h2⟩ := hci c hc
    constructor
    · omega
    · omega
  have hinfo_rt := info_readFrom_writeInto info buf hcnt hlt hch
  have hdec2 : decode (hdr.writeInto ++ info.writeInto ++ buf)
      = .ok { header := hdr,
              bitmap := (addRows w h cf md).take (w * h * cf.pbc) } := by
    unfold decode
    rw [List.append_assoc, hdr_rt]
    simp only [hinfo_rt]
    simp only [hdec]
  have haddsub : addRows w h cf md = bitmap :=
    addRows_subRows w h cf bitmap hlen hb
  refine ⟨_, _, _, hpic, henc, hdec2, ?_, rfl⟩
  show (addRows w h cf md).take (w * h * cf.pbc) = bitmap
  rw [haddsub]
  exact List.take_of_length_le (by omega)

theorem C1_witness :
    ∃ pic out pic2,
      fromRaw 1 1 ColorFormat.rgba8 CompressionType.lossless Option.none
        [10, 20, 30, 40] = some pic
      ∧ encode pic = .ok out
      ∧ decode out = .ok pic2
      ∧ pic2.bitmap = [10, 20, 30, 40]
      ∧ pic2.header = pic.header :=
  C1_theorem 1 1 ColorFormat.rgba8 [10, 20, 30, 40] (by decide) (by decide)
    (by decide) (by decide) (by decide) (by decide)

/-- The zero-area edge case excluded by `C1_theorem`: an empty pixel buffer
(width 0) encodes to `Err(NoChunks)`, so the round trip claimed for every
width and height does not even produce bytes to decode. -/
theorem C1_counterexample :
    (fromRaw 0 1 ColorFormat.gray8 CompressionType.lossless Option.none
        []).map encode
      = some (.error (.compressionError CompressionError.noChunks)) := by
  rfl

/-- C4 (corrected): with good magic but an unknown compression-mode byte
(offset 16) or color-format byte (offset 18), `decode` does not return a
`BadHeader` error — no such variant exists in the picture `Error` enum — it
hits the `try_into().unwrap()` panics inside `Header::read_from`, modelled
here as the `panic` error constructor. -/
theorem C4_theorem (input : List Nat)
    (hlen : 19 ≤ input.length)
    (hmagic : input.take 8 = magicBytes) :
    (CompressionType.fromByte (input.getD 16 0) = Option.none →
      decode input = .error (.panic "invalid compression type"))
    ∧ ∀ ct, CompressionType.fromByte (input.getD 16 0) = some ct →
        ColorFormat.fromByte (input.getD 18 0) = Option.none →
        decode input = .error (.panic "invalid color format") := by
  constructor
  · intro h16
    have hrf : Header.readFrom input
        = .error (.panic "invalid compression type") := by
      unfold Header.readFrom
      rw [if_neg (show ¬ input.length < 8 by omega),
        if_neg (show ¬ input.take 8 ≠ magicBytes from fun hne => hne hmagic),
        if_neg (show ¬ input.length < 16 by omega),
        if_neg (show ¬ input.length < 17 by omega), h16]
    unfold decode
    rw [hrf]
  · intro ct h16 h18
    have hstep : Header.readFrom input = Header.readFromTail input ct := by
      unfold Header.readFrom
      rw [if_neg (show ¬ input.length < 8 by omega),
        if_neg (show ¬ input.take 8 ≠ magicBytes from fun hne => hne hmagic),
        if_neg (show ¬ input.length < 16 by omega),
        if_neg (show ¬ input.length < 17 by omega), h16]
    have hrf : Header.readFrom input
        = .error (.panic "invalid color format") := by
      rw [hstep]
      unfold Header.readFromTail
      rw [if_neg (show ¬ input.length < 18 by omega),
        if_neg (show ¬ input.length < 19 by omega), h18]
    unfold decode
    rw [hrf]

/-- A concrete refutation of the claimed `BadHeader`: good magic, bad
compression byte 99; `decode` surfaces the source's unwrap panic, and no
`BadHeader` variant exists to be returned. -/
theorem C4_counterexample :
    decode (magicBytes ++ [0, 0, 0, 0, 0, 0, 0, 0, 99, 50, 0])
      = .error (.panic "invalid compression type") := by
  rfl

theorem C4_witness :
    decode (magicBytes ++ [1, 0, 0, 0, 1, 0, 0, 0, 1, 0, 77])
      = .error (.panic "invalid color format") :=
  (C4_theorem (magicBytes ++ [1, 0, 0, 0, 1, 0, 0, 0, 1, 0, 77])
    (by decide) (by decide)).2 CompressionType.lossless (by decide) (by decide)

/-- Helper: the header fields produced by a successful `from_raw`. -/
theorem fromRaw_fields (w h : Nat) (cf : ColorFormat) (ct : CompressionType)
    (q : Option Nat) (bitmap : List Nat) (pic : SquishyPicture)
    (hr : fromRaw w h cf ct q bitmap = some pic) :
    pic.header.quality = q.elim 0 (fun level => min (max level 1) 100)
      ∧ pic.header.compressionType = ct
      ∧ (q = Option.none → ct ≠ CompressionType.lossyDct) := by
  unfold fromRaw at hr
  by_cases hcond : q = Option.none ∧ ct = CompressionType.lossyDct
  · rw [if_pos hcond] at hr
    exact absurd hr (by simp)
  · rw [if_neg hcond] at hr
    have hp := Option.some.inj hr
    subst hp
    refine ⟨?_, rfl, ?_⟩
    · cases q <;> rfl
    · intro hq hctq
      exact hcond ⟨hq, hctq⟩

/-- C7 (corrected): after a successful `from_raw`, the stored quality is 0
iff the quality *argument* was `None` (not iff the mode is lossless: a
`Some` quality is clamped and stored in every mode); under `LossyDct` the
quality is within `[1, 100]`, and any `Some level` is stored as
`level.clamp(1, 100)`. -/
theorem C7_theorem (w h : Nat) (cf : ColorFormat) (ct : CompressionType)
    (q : Option Nat) (bitmap : List Nat) (pic : SquishyPicture)
    (hr : fromRaw w h cf ct q bitmap = some pic) :
    (pic.header.quality = 0 ↔ q = Option.none)
    ∧ (ct = CompressionType.lossyDct →
        1 ≤ pic.header.quality ∧ pic.header.quality ≤ 100)
    ∧ ∀ l, q = some l → pic.header.quality = min (max l 1) 100 := by
  obtain ⟨hq, hct, hnn⟩ := fromRaw_fields w h cf ct q bitmap pic hr
  cases q with
  | none =>
      simp only [Option.elim] at hq
      refine ⟨by simp [hq], ?_, ?_⟩
      · intro hctq
        exact absurd hctq (hnn rfl)
      · intro l hl
        exact absurd hl (by simp)
  | some l =>
      simp only [Option.elim] at hq
      refine ⟨?_, ?_, ?_⟩
      · constructor
        · intro h0
          rw [hq] at h0
          omega
        · intro hcon
          exact absurd hcon (by simp)
      · intro _
        rw [hq]
        omega
      · intro l' hl'
        rw [← Option.some.inj hl']
        exact hq

/-- The original biconditional fails: a lossless image built with
`Some 80` stores quality 80, not 0. -/
theorem C7_counterexample :
    ∃ pic, fromRaw 1 1 ColorFormat.rgba8 CompressionType.lossless (some 80)
        [0, 0, 0, 0] = some pic
      ∧ pic.header.compressionType ≠ CompressionType.lossyDct
      ∧ pic.header.quality = 80 :=
  ⟨_, rfl, by decide, by decide⟩

theorem C7_witness :
    ∃ pic, fromRaw 2 2 ColorFormat.gray8 CompressionType.lossyDct (some 200)
        (List.replicate 4 0) = some pic
      ∧ ((pic.header.quality = 0 ↔ (some 200 : Option Nat) = Option.none)
        ∧ (CompressionType.lossyDct = CompressionType.lossyDct →
            1 ≤ pic.header.quality ∧ pic.header.quality ≤ 100)
        ∧ ∀ l, (some 200 : Option Nat) = some l →
            pic.header.quality = min (max l 1) 100) :=
  ⟨_, rfl, C7_theorem 2 2 ColorFormat.gray8 CompressionType.lossyDct
    (some 200) (List.replicate 4 0) _ rfl⟩

/-! ## DCT padding and quantization (src/src/compression/dct.rs) -/

/-- `dct_compress` line 142: `new_width = parameters.width + (8 - parameters.width % 8)`. -/
def dctNewWidth (width : Nat) : Nat := width + (8 - width % 8)

/-- `dct_compress` line 143: `new_height = parameters.height + (8 - parameters.width % 8)`
— the remainder is taken of the *width*, and 8 is added even when the
dimension is already a multiple of 8. -/
def dctNewHeight (width height : Nat) : Nat := height + (8 - width % 8)

/-- C6: the padded dimensions are not the next multiples of 8 of the image
dimensions.  At width 16, height 9 the code pads the height with the
width's remainder: `new_height = 17`, which is not a multiple of 8 at all
(the next multiple of 8 of 9 is 16), and `new_width = 24` although 16 is
already a multiple of 8. -/
theorem C6_theorem :
    dctNewHeight 16 9 = 17 ∧ dctNewHeight 16 9 % 8 ≠ 0
      ∧ dctNewWidth 16 = 24 ∧ dctNewWidth 16 ≠ 16 := by
  decide

/-- The 8×8 base quantization matrix (`BASE_QUANTIZATION_MATRIX`), row major. -/
def baseQuantizationMatrix : List Nat :=
  [16, 11, 10, 16, 24, 40, 51, 61,
   12, 12, 14, 19, 26, 58, 60, 55,
   14, 13, 16, 24, 40, 57, 69, 56,
   14, 17, 22, 29, 51, 87, 80, 62,
   18, 22, 37, 56, 68, 109, 103, 77,
   24, 35, 55, 64, 81, 104, 113, 92,
   49, 64, 78, 87, 103, 121, 120, 101,
   72, 92, 95, 98, 112, 100, 103, 99]

/-- The scaling factor of `quantization_matrix`, as the exact rational the
`f32` expression denotes (`5000.0 / quality` below 50, else
`200.0 - 2.0 * quality`). -/
def quantizationFactor (quality : Nat) : ℚ :=
  if quality < 50 then 5000 / (quality : ℚ) else 200 - 2 * (quality : ℚ)

/-- `quantization_matrix`: scale each base entry, `floor((factor*i + 50) / 100)`,
cast to `u16` (saturating: negatives clip to 0, the `min` caps at 65535),
then replace zeros by 1.  The two facts proved about it (`C8_theorem`) do
not depend on `f32` rounding: every entry is at least 1 by the final
replacement alone, and at quality 100 the factor is exactly 0 so every
intermediate `f32` value is exact. -/
def quantizationMatrix (quality : Nat) : List Nat :=
  (baseQuantizationMatrix.map (fun (i : Nat) =>
      min (⌊(quantizationFactor quality * (i : ℚ) + 50) / 100⌋.toNat)
        65535)).map
    (fun i => if i = 0 then 1 else i)

/-- C8: every quantization matrix entry is at least 1, and quality 100
yields the all-ones table. -/
theorem C8_theorem (q : Nat) (h1 : 1 ≤ q) (h2 : q ≤ 100) :
    (∀ v ∈ quantizationMatrix q, 1 ≤ v)
      ∧ quantizationMatrix 100 = List.replicate 64 1 := by
  constructor
  · intro v hv
    simp only [quantizationMatrix, List.map_map, List.mem_map] at hv
    obtain ⟨j, hj, hvj⟩ := hv
    simp only [Function.comp] at hvj
    by_cases h0 : min (⌊(quantizationFactor q * (j : ℚ) + 50) / 100⌋.toNat)
        65535 = 0
    · rw [← hvj, if_pos h0]
    · rw [← hvj, if_neg h0]
      omega
  · have hmap : ∀ i ∈ baseQuantizationMatrix,
        min (⌊(quantizationFactor 100 * (i : ℚ) + 50) / 100⌋.toNat) 65535 = 0 := by
      intro i _
      have hf : quantizationFactor 100 = 0 := by
        rw [quantizationFactor]
        norm_num
      rw [hf]
      have harg : ((0 : ℚ) * (i : ℚ) + 50) / 100 = 1 / 2 := by
        norm_num
      rw [harg]
      have hfl : ⌊(1 / 2 : ℚ)⌋ = 0 := by
        rw [Int.floor_eq_zero_iff, Set.mem_Ico]
        constructor
        · norm_num
        · norm_num
      rw [hfl]
      rfl
    have hconst : quantizationMatrix 100
        = baseQuantizationMatrix.map (fun _ => 1) := by
      rw [quantizationMatrix, List.map_map]
      apply List.map_congr_left
      intro i hi
      simp only [Function.comp]
      rw [hmap i hi]
      rfl
    rw [hconst]
    rfl

theorem C8_witness :
    (∀ v ∈ quantizationMatrix 1, 1 ≤ v)
      ∧ quantizationMatrix 100 = List.replicate 64 1 :=
  C8_theorem 1 (by decide) (by decide)

end SQP
